import Mathlib

/-!
Shallow embedding of the red-black tree implementation in src/src/rb_tree.rs
(together with src/src/rb_tree/node.rs and src/src/rb_tree/ancestor.rs).

The Rust code works on heap nodes (Rc of RefCell of RbTreeNode) linked through
child slots, and every operation walks the tree while recording the visited
nodes in an ancestry stack (a Vec of Ancestor, each holding a node handle and
the branch through which the node was reached from its parent).  All mutation
happens through that stack.  The stack entries alias the tree: entry i+1's
node is always the child of entry i's node at entry i+1's position.

The functional image of that data structure is a zipper.  A Rust ancestry
stack of length n+1 is represented here as a pair of
  - frames : List (Frame A), length n, innermost frame first.  The frame for
    a stack entry keeps the entry's node data minus the child along the path:
    its val, its color, its other child, and the position (the Rust
    Ancestor.position of the NEXT stack entry) of the child the path descends
    into; and
  - cur : Tree A, the subtree hanging from the last stack entry's node.
Pushing an Ancestor for the child of the top node at position p corresponds to
consing the frame (top.val, top.color, top.child (opposite p), p) and focusing
that child; popping an entry reassembles one level (Frame.fill).  A Rust write
through an entry below the top is a write inside cur; the rewiring of the
grandparent child slot (or of the tree root) done by the rotation helpers is
exactly what fill performs on reassembly, so the rotation helpers leave the
frames untouched and rotate cur in place.  Rust node positions are usize
values that index the two-element child array (any other index would panic),
hence Fin 2.
-/

namespace RBT

inductive Color where
  | Red : Color
  | Black : Color
deriving DecidableEq, Repr

/-- Tree A plays the role of Option (Node A) in the Rust code: Tree.nil is
None, and a node as in node.rs carries val, color and the two child slots. -/
inductive Tree (α : Type) where
  | nil : Tree α
  | node (val : α) (color : Color) (left : Tree α) (right : Tree α) : Tree α
deriving DecidableEq, Repr

/-- Pos constant from ancestor.rs, an index into the child array. -/
def LEFT : Fin 2 := 0

/-- Pos constant from ancestor.rs, an index into the child array. -/
def RIGHT : Fin 2 := 1

/-- opposite_pos from rb_tree.rs: (pos + 1) % 2. -/
def opposite_pos (pos : Fin 2) : Fin 2 := (pos + 1) % 2

namespace Tree

variable {α : Type}

/-- children[pos] of a node; the source never reads children of an empty
slot (node handles are always non-nil), nil is mapped to nil. -/
def child : Tree α → Fin 2 → Tree α
  | nil, _ => nil
  | node _ _ l r, pos => if pos = LEFT then l else r

/-- children[pos] = t assignment. -/
def setChild : Tree α → Fin 2 → Tree α → Tree α
  | nil, _, _ => nil
  | node v c l r, pos, t => if pos = LEFT then node v c t r else node v c l t

/-- color field write (node.borrow_mut().color = c); nil has no color field. -/
def setColor : Tree α → Color → Tree α
  | nil, _ => nil
  | node v _ l r, c => node v c l r

/-- color field read; the source reads colors only of node handles, and empty
slots count as Black by the conventions in the file header comment. -/
def color : Tree α → Color
  | nil => Color.Black
  | node _ c _ _ => c

def size : Tree α → Nat
  | nil => 0
  | node _ _ l r => 1 + l.size + r.size

/-- In-order traversal of the keys. -/
def inorder : Tree α → List α
  | nil => []
  | node v _ l r => inorder l ++ v :: inorder r

end Tree

/-- One ancestry-stack level: the data of a stack entry's node except the
child the path continues into; pos is the Ancestor.position of that child. -/
structure Frame (α : Type) where
  val : α
  color : Color
  other : Tree α
  pos : Fin 2
deriving DecidableEq, Repr

/-- Reattach the focused subtree under a frame: popping one ancestry entry. -/
def Frame.fill {α : Type} (f : Frame α) (t : Tree α) : Tree α :=
  if f.pos = LEFT then Tree.node f.val f.color t f.other
  else Tree.node f.val f.color f.other t

variable {α : Type}

/-- Pop the whole ancestry stack, recovering the tree the stack hangs from. -/
def assemble : List (Frame α) → Tree α → Tree α
  | [], t => t
  | f :: rest, t => assemble rest (f.fill t)

/-- rotate_left from rb_tree.rs: the top ancestry entry is the rotation
parent; pivot is its right child (never nil at any call site), rest is the
pivot's left child; the parent takes rest as its right child, the pivot takes
the parent as its left child, and the pivot replaces the parent both in the
grandparent's child slot (or the root slot) and in the top ancestry entry.
In zipper form the slot rewiring is what fill performs on reassembly, so the
frames are unchanged and only the focus rotates. -/
def rotl : Tree α → Tree α
  | Tree.node v c l (Tree.node rv rc rl rr) => Tree.node rv rc (Tree.node v c l rl) rr
  | t => t

def rotate_left (frames : List (Frame α)) (cur : Tree α) : List (Frame α) × Tree α :=
  (frames, rotl cur)

/-- rotate_right from rb_tree.rs, the mirror image of rotate_left. -/
def rotr : Tree α → Tree α
  | Tree.node v c (Tree.node lv lc ll lr) r => Tree.node lv lc ll (Tree.node v c lr r)
  | t => t

def rotate_right (frames : List (Frame α)) (cur : Tree α) : List (Frame α) × Tree α :=
  (frames, rotr cur)

/-- find_leaf from rb_tree.rs: descend from the focused node comparing val,
going left when val <= node.val and right otherwise, pushing one ancestry
entry per step, and stop at the first node whose slot on the chosen side is
empty.  The source never calls it on an empty focus. -/
def find_leaf [LinearOrder α] (val : α) : List (Frame α) → Tree α → List (Frame α) × Tree α
  | frames, Tree.nil => (frames, Tree.nil)
  | frames, Tree.node v c l r =>
    if val ≤ v then
      match l with
      | Tree.nil => (frames, Tree.node v c l r)
      | Tree.node lv lc ll lr =>
        find_leaf val (⟨v, c, r, LEFT⟩ :: frames) (Tree.node lv lc ll lr)
    else
      match r with
      | Tree.nil => (frames, Tree.node v c l r)
      | Tree.node rv rc rl rr =>
        find_leaf val (⟨v, c, l, RIGHT⟩ :: frames) (Tree.node rv rc rl rr)

/-- fix_insert from rb_tree.rs.  With ancestors.len() <= 2 there is nothing to
do (frames then has at most one element).  Otherwise pop the node entry (frame
fn_ plus focus cur) and the parent entry (frame fp); the remaining stack top
is the grandparent, whose subtree in zipper form is fp.fill (fn_.fill cur)
over rest.  fn_.color is the parent's color, fp.other the uncle, fp.pos the
parent's position, fn_.pos the node's position.  The Red-uncle branch recolors
and recurses from the grandparent; the four rotation branches recolor and
rotate exactly as the source (push parent, rotate, pop, rotate for the two
double rotations). -/
def fix_insert : List (Frame α) → Tree α → List (Frame α) × Tree α
  | [], cur => ([], cur)
  | [f], cur => ([f], cur)
  | fn_ :: fp :: rest, cur =>
    if fn_.color = Color.Black then
      -- everything is already balanced
      (rest, fp.fill (fn_.fill cur))
    else
      match fp.other with
      | Tree.node uv Color.Red ul ur =>
        -- RED uncle: recolor uncle and parent Black, grandparent Red, recurse
        fix_insert rest
          (Frame.fill ⟨fp.val, Color.Red, Tree.node uv Color.Black ul ur, fp.pos⟩
            (Frame.fill ⟨fn_.val, Color.Black, fn_.other, fn_.pos⟩ cur))
      | _ =>
        -- uncle absent or BLACK
        if fp.pos = RIGHT then
          if fn_.pos = RIGHT then
            -- left rotation: parent Black, grandparent Red, rotate_left at gp
            rotate_left rest
              (Frame.fill ⟨fp.val, Color.Red, fp.other, fp.pos⟩
                (Frame.fill ⟨fn_.val, Color.Black, fn_.other, fn_.pos⟩ cur))
          else
            -- right left rotation: node Black, grandparent Red;
            -- push parent, rotate_right, pop, rotate_left
            rotate_left rest
              (Frame.fill ⟨fp.val, Color.Red, fp.other, fp.pos⟩
                (rotr (fn_.fill (cur.setColor Color.Black))))
        else
          if fn_.pos = LEFT then
            -- right rotation: parent Black, grandparent Red, rotate_right at gp
            rotate_right rest
              (Frame.fill ⟨fp.val, Color.Red, fp.other, fp.pos⟩
                (Frame.fill ⟨fn_.val, Color.Black, fn_.other, fn_.pos⟩ cur))
          else
            -- left right rotation: node Black, grandparent Red;
            -- push parent, rotate_left, pop, rotate_right
            rotate_right rest
              (Frame.fill ⟨fp.val, Color.Red, fp.other, fp.pos⟩
                (rotl (fn_.fill (cur.setColor Color.Black))))

/-- add_and_fix from rb_tree.rs: find the insertion leaf, attach a new Red
node on the side given by comparing the values, push its ancestry entry, and
rebalance.  The nil focus case cannot occur (add only calls this on the root
node, and find_leaf then returns a node). -/
def add_and_fix [LinearOrder α] (val : α) (frames : List (Frame α)) (root : Tree α) :
    List (Frame α) × Tree α :=
  match find_leaf val frames root with
  | (leafFrames, Tree.nil) => (leafFrames, Tree.nil)
  | (leafFrames, Tree.node v c l r) =>
    let new_one : Tree α := Tree.node val Color.Red Tree.nil Tree.nil
    if val ≤ v then
      fix_insert (⟨v, c, r, LEFT⟩ :: leafFrames) new_one
    else
      fix_insert (⟨v, c, l, RIGHT⟩ :: leafFrames) new_one

/-- The tree from rb_tree.rs: an optional root and a live element count. -/
structure RbTree (α : Type) where
  root : Tree α
  len : Nat
deriving DecidableEq, Repr

def RbTree.new : RbTree α := ⟨Tree.nil, 0⟩

/-- add from rb_tree.rs: an empty tree gets a Black root; otherwise run
add_and_fix from the root and unconditionally recolor the root Black.  len is
incremented in both branches. -/
def RbTree.add [LinearOrder α] (t : RbTree α) (val : α) : RbTree α :=
  match t.root with
  | Tree.nil => ⟨Tree.node val Color.Black Tree.nil Tree.nil, t.len + 1⟩
  | Tree.node v c l r =>
    let st := add_and_fix val [] (Tree.node v c l r)
    ⟨(assemble st.1 st.2).setColor Color.Black, t.len + 1⟩

/-- find_node from rb_tree.rs: binary search descent recording the ancestry;
on success the stack ends at the matching node (the some case); a missing
child on the search side answers false (none). -/
def find_node [LinearOrder α] (val : α) : List (Frame α) → Tree α →
    Option (List (Frame α) × Tree α)
  | _, Tree.nil => none
  | frames, Tree.node v c l r =>
    if v = val then some (frames, Tree.node v c l r)
    else if val < v then
      match l with
      | Tree.nil => none
      | Tree.node lv lc ll lr =>
        find_node val (⟨v, c, r, LEFT⟩ :: frames) (Tree.node lv lc ll lr)
    else
      match r with
      | Tree.nil => none
      | Tree.node rv rc rl rr =>
        find_node val (⟨v, c, l, RIGHT⟩ :: frames) (Tree.node rv rc rl rr)

/-- find_min_node from rb_tree.rs: follow left children from the focus,
pushing one ancestry entry per step; seg accumulates exactly the entries this
descent pushes (innermost first), to be placed on top of the caller's stack. -/
def find_min : List (Frame α) → Tree α → List (Frame α) × Tree α
  | seg, Tree.node v c (Tree.node lv lc ll lr) r =>
    find_min (⟨v, c, r, LEFT⟩ :: seg) (Tree.node lv lc ll lr)
  | seg, t => (seg, t)

/-- red_children from rb_tree.rs: bit mask with the left child's redness in
bit 1 and the right child's redness in bit 0. -/
def red_children : Tree α → Nat
  | Tree.nil => 0
  | Tree.node _ _ l r =>
    let ml : Nat := match l with
      | Tree.node _ Color.Red _ _ => 1
      | _ => 0
    let mr : Nat := match r with
      | Tree.node _ Color.Red _ _ => 1
      | _ => 0
    2 * ml + mr

/-- Weight of the ancestry frames, for the fix_remove termination measure. -/
def framesWeight : List (Frame α) → Nat
  | [] => 0
  | f :: rest => f.other.size + 1 + framesWeight rest

/-- One pass of the fix_remove loop from rb_tree.rs (every recursive call in
the source is a tail call, so the body splits into this step function - the
whole case analysis - and the trivial tail-recursion driver fix_remove below;
Sum.inl carries the arguments of the tail call, Sum.inr the finished tree).
fix_remove is called with the stack ending at the parent of the black-height
deficient branch and with the sibling's position.  The focus (the parent) is
destructured; the two values of sibling_position are the two sides of the
outer if, so children[sibling_position] is cl on the LEFT side and cr on the
RIGHT side, and the slot updates are spelled out on the destructured node.
Branches, as in the source: sibling absent (pop the parent, continue one level
up with the opposite of the popped entry's position; with an empty stack just
return); Black sibling with both nephews Black (recolor the sibling Red, pop
the parent, and either continue one level up from a Black parent or stop
recoloring a Red parent Black); Black sibling with a Red nephew (four
rotate-and-recolor cases, all terminal; the double-rotation ones push the
sibling, rotate, pop and rotate again); Red sibling (parent Red, sibling
Black, rotate at the parent, push the entry of the node that rose into the
parent's place, and continue with the same sibling side).  Terminal branches
reassemble the remaining stack, which is the tree the discarded Rust ancestry
leaves behind.  A nil focus cannot occur at any call site (the focus is always
a filled frame); it follows the absent-sibling path since nil has no
children. -/
def fix_remove_step : List (Frame α) → Tree α → Fin 2 →
    (List (Frame α) × Tree α × Fin 2) ⊕ Tree α
  | frames, Tree.nil, _ =>
    match frames with
    | [] => Sum.inr Tree.nil
    | f :: rest => Sum.inl (rest, f.fill Tree.nil, opposite_pos f.pos)
  | frames, Tree.node cv cc cl cr, sibling_position =>
    if sibling_position = LEFT then
      match cl with
      | Tree.nil =>
        -- sibling is None: cannot balance on this level, go one level up
        match frames with
        | [] => Sum.inr (Tree.node cv cc Tree.nil cr)
        | f :: rest =>
          Sum.inl (rest, f.fill (Tree.node cv cc Tree.nil cr), opposite_pos f.pos)
      | Tree.node sv sc sl sr =>
        if sc = Color.Black then
          if red_children (Tree.node sv sc sl sr) = 0 then
            -- both nephews BLACK: sibling becomes Red, pop the parent
            let cur' := Tree.node cv cc (Tree.node sv Color.Red sl sr) cr
            if cc = Color.Black then
              match frames with
              | [] => Sum.inr cur'
              | f :: rest => Sum.inl (rest, f.fill cur', opposite_pos f.pos)
            else
              Sum.inr (assemble frames (cur'.setColor Color.Black))
          else
            if red_children (Tree.node sv sc sl sr) = 3 ∨
                red_children (Tree.node sv sc sl sr) = 2 then
              -- right rotation: s takes p's color, left nephew and p Black
              let sib' := Tree.node sv cc (sl.setColor Color.Black) sr
              Sum.inr (assemble frames (rotr (Tree.node cv Color.Black sib' cr)))
            else
              -- left right rotation: right nephew takes p's color, p Black;
              -- push sibling, rotate_left, pop, rotate_right
              let sib' := Tree.node sv sc sl (sr.setColor cc)
              Sum.inr (assemble frames (rotr (Tree.node cv Color.Black (rotl sib') cr)))
        else
          -- RED sibling: parent Red, sibling Black, rotate_right at the
          -- parent, push the risen node's entry, continue with the same side
          Sum.inl (⟨sv, Color.Black, sl, RIGHT⟩ :: frames,
            Tree.node cv Color.Red sr cr, LEFT)
    else
      match cr with
      | Tree.nil =>
        -- sibling is None: cannot balance on this level, go one level up
        match frames with
        | [] => Sum.inr (Tree.node cv cc cl Tree.nil)
        | f :: rest =>
          Sum.inl (rest, f.fill (Tree.node cv cc cl Tree.nil), opposite_pos f.pos)
      | Tree.node sv sc sl sr =>
        if sc = Color.Black then
          if red_children (Tree.node sv sc sl sr) = 0 then
            -- both nephews BLACK: sibling becomes Red, pop the parent
            let cur' := Tree.node cv cc cl (Tree.node sv Color.Red sl sr)
            if cc = Color.Black then
              match frames with
              | [] => Sum.inr cur'
              | f :: rest => Sum.inl (rest, f.fill cur', opposite_pos f.pos)
            else
              Sum.inr (assemble frames (cur'.setColor Color.Black))
          else
            if red_children (Tree.node sv sc sl sr) = 3 ∨
                red_children (Tree.node sv sc sl sr) = 1 then
              -- left rotation: s takes p's color, right nephew and p Black
              let sib' := Tree.node sv cc sl (sr.setColor Color.Black)
              Sum.inr (assemble frames (rotl (Tree.node cv Color.Black cl sib')))
            else
              -- right left rotation: left nephew takes p's color, p Black;
              -- push sibling, rotate_right, pop, rotate_left
              let sib' := Tree.node sv sc (sl.setColor cc) sr
              Sum.inr (assemble frames (rotl (Tree.node cv Color.Black cl (rotr sib'))))
        else
          -- RED sibling: parent Red, sibling Black, rotate_left at the
          -- parent, push the risen node's entry, continue with the same side
          Sum.inl (⟨sv, Color.Black, sr, LEFT⟩ :: frames,
            Tree.node cv Color.Red cl sl, RIGHT)

/-- The fix_remove tail-recursion driver: iterate fix_remove_step until a tree
comes out.  Termination: a popping step strictly decreases framesWeight plus
the size of the sibling subtree, and the Red-sibling step keeps that sum while
strictly shrinking the sibling. -/
def fix_remove (frames : List (Frame α)) (cur : Tree α) (sibling_position : Fin 2) : Tree α :=
  match h : fix_remove_step frames cur sibling_position with
  | Sum.inr t => t
  | Sum.inl s => fix_remove s.1 s.2.1 s.2.2
  termination_by (framesWeight frames + (cur.child sibling_position).size,
    (cur.child sibling_position).size)
  decreasing_by
  have hfo : ∀ (g : Frame α) (t : Tree α),
      (g.fill t).child (opposite_pos g.pos) = g.other := by
    intro g t
    rcases g with ⟨gv, gc, go, gp⟩
    fin_cases gp <;>
      simp [Frame.fill, Tree.child, opposite_pos, LEFT, RIGHT]
  simp_wf
  unfold fix_remove_step at h
  repeat' split at h
  all_goals try (exact Sum.noConfusion h)
  all_goals (injection h with h2; subst h2)
  all_goals
    try
      (apply Prod.Lex.left
       rw [hfo]
       simp_all [framesWeight, Tree.child, Tree.size, LEFT, RIGHT] <;> omega)
  all_goals
    (rw [Prod.lex_def]
     right
     constructor)
  all_goals simp_all [framesWeight, Tree.child, Tree.size, LEFT, RIGHT] <;> omega

/-- extract_node from rb_tree.rs: pop the node to delete, detach its child on
the given side (the node has no other child at any call site), and attach that
child where the node hung.  An emptied stack means the root was removed: the
child, recolored Black when present, becomes the root.  Otherwise rebalance:
a Red node or a Red child costs no black height (the child just turns Black);
losing a Black node with a Black or absent child calls fix_remove on the
parent with the sibling position opposite the removed node's position.  The
nil focus branch is unreachable (callers pass the stack's last node). -/
def extract_node (frames : List (Frame α)) (cur : Tree α) (child : Fin 2) : Tree α :=
  match cur with
  | Tree.nil => assemble frames Tree.nil
  | Tree.node v c l r =>
    let child_node := (Tree.node v c l r).child child
    match frames with
    | [] => child_node.setColor Color.Black
    | f :: rest =>
      match child_node with
      | Tree.node cv cc cl cr =>
        if c = Color.Red ∨ cc = Color.Red then
          -- prevent two consecutive red nodes
          assemble rest (f.fill (Tree.node cv Color.Black cl cr))
        else
          -- keep number of black nodes in a path
          fix_remove rest (f.fill (Tree.node cv cc cl cr)) (opposite_pos f.pos)
      | Tree.nil =>
        if c = Color.Black then
          -- keep number of black nodes in a path
          fix_remove rest (f.fill Tree.nil) (opposite_pos f.pos)
        else
          assemble rest (f.fill Tree.nil)

/-- remove_last from rb_tree.rs: the stack ends at the node to delete.  With
at most one child, splice it out via extract_node (on the LEFT slot when both
slots are empty).  With two children, push the right child's entry, descend to
the successor with find_min_node, swap the two nodes via swap_nodes, and
recurse on the relocated node.  swap_nodes relinks x, j, v1..vN, y and k and
swaps the two colors together with the references; in zipper form all of that
collapses to exchanging the vals of the deep focus (the successor b) and of
the frame of the to-delete entry a (both branches of the source's adjacency
case analysis yield this same state), so the recursion continues on the node
holding v with the successor's color and children, under the segment seg and
the updated frame of the old position.  The nil cases are unreachable. -/
def remove_last : List (Frame α) → Tree α → Tree α
  | frames, Tree.nil => assemble frames Tree.nil
  | frames, Tree.node v c l r =>
    match l, r with
    | Tree.nil, Tree.nil => extract_node frames (Tree.node v c Tree.nil Tree.nil) LEFT
    | Tree.node lv lc ll lr, Tree.nil =>
      -- has only left child
      extract_node frames (Tree.node v c (Tree.node lv lc ll lr) Tree.nil) LEFT
    | Tree.nil, Tree.node rv rc rl rr =>
      -- has only right child
      extract_node frames (Tree.node v c Tree.nil (Tree.node rv rc rl rr)) RIGHT
    | Tree.node lv lc ll lr, Tree.node rv rc rl rr =>
      -- has both children: find the minimum successor in the right subtree
      match hm : find_min [] (Tree.node rv rc rl rr) with
      | (seg, Tree.nil) => assemble frames (Tree.node v c (Tree.node lv lc ll lr) (Tree.node rv rc rl rr))
      | (seg, Tree.node mv mc ml mr) =>
        remove_last (seg ++ ⟨mv, c, Tree.node lv lc ll lr, RIGHT⟩ :: frames)
          (Tree.node v mc ml mr)
  termination_by frames cur => cur.size
  decreasing_by
  have key : ∀ (seg : List (Frame α)) (t : Tree α), ((find_min seg t).2).size ≤ t.size := by
    intro seg t
    induction t generalizing seg with
    | nil => simp [find_min]
    | node tv tc tl tr ihl ihr =>
      cases tl with
      | nil => simp [find_min]
      | node ql qc ql2 qr2 =>
        have h1 := ihl (⟨tv, tc, tr, LEFT⟩ :: seg)
        calc ((find_min (⟨tv, tc, tr, LEFT⟩ :: seg) (Tree.node ql qc ql2 qr2)).2).size
            ≤ (Tree.node ql qc ql2 qr2).size := h1
          _ ≤ (Tree.node tv tc (Tree.node ql qc ql2 qr2) tr).size := by
              simp [Tree.size]; omega
  have h2 := key [] (Tree.node rv rc rl rr)
  rw [hm] at h2
  simp [Tree.size] at h2 ⊢
  omega

/-- remove from rb_tree.rs: false on an empty tree; otherwise search for the
value building the ancestry; not found leaves the tree untouched and answers
false; found runs remove_last, decrements len and answers true. -/
def RbTree.remove [LinearOrder α] (t : RbTree α) (val : α) : Bool × RbTree α :=
  match t.root with
  | Tree.nil => (false, t)
  | Tree.node v c l r =>
    match find_node val [] (Tree.node v c l r) with
    | none => (false, t)
    | some st => (true, ⟨remove_last st.1 st.2, t.len - 1⟩)

/-- black_height from rb_tree.rs: returns the black height of a subtree when
the checks it performs succeed.  At a node with two children it rejects a Red
node with a Red child, recurses with level + 1 on both children and rejects
differing results; at a node with at most one child it just counts the Black
nodes among the node and its present children; an empty slot reports 0. -/
def black_height [ToString α] : Tree α → Nat → Except String Nat
  | Tree.nil, _ => Except.ok 0
  | Tree.node v c l r, level =>
    match l, r with
    | Tree.node lv lc ll lr, Tree.node rv rc rl rr =>
      if c = Color.Red ∧ (lc = Color.Red ∨ rc = Color.Red) then
        Except.error ("Two consecutive RED nodes, see val: " ++ toString v ++
          " on level: " ++ toString level)
      else
        let add : Nat := if c = Color.Red then 0 else 1
        match black_height (Tree.node lv lc ll lr) (level + 1) with
        | Except.error e => Except.error e
        | Except.ok l_black =>
          match black_height (Tree.node rv rc rl rr) (level + 1) with
          | Except.error e => Except.error e
          | Except.ok r_black =>
            if l_black = r_black then Except.ok (add + l_black)
            else
              Except.error ("Different black heights, see val: " ++ toString v ++
                " on level " ++ toString (level + 1) ++ ", left: " ++ toString l_black ++
                " right: " ++ toString r_black)
    | _, _ =>
      let addl : Nat := match l with
        | Tree.node _ Color.Black _ _ => 1
        | _ => 0
      let addr : Nat := match r with
        | Tree.node _ Color.Black _ _ => 1
        | _ => 0
      let addc : Nat := if c = Color.Black then 1 else 0
      Except.ok (addl + addr + addc)

/-- is_valid from rb_tree.rs: an empty tree is valid; a Red root is invalid;
otherwise run black_height on both children of the root at level 1 and report
invalid exactly when one of them reports a failure (the two results are never
compared with each other). -/
def RbTree.is_valid [ToString α] (t : RbTree α) : Bool :=
  match t.root with
  | Tree.nil => true
  | Tree.node _ c l r =>
    if c = Color.Red then false
    else
      match black_height l 1 with
      | Except.error _ => false
      | Except.ok _ =>
        match black_height r 1 with
        | Except.error _ => false
        | Except.ok _ => true

/-!  The red-black invariants as stated in the specification (sections 3 and
8): root Black or absent; no Red node with a Red child; equal number of Black
nodes on every path from a node down to each empty slot. -/

/-- Invariant 2 of the spec: no Red node has a Red child. -/
def noRedRed : Tree α → Bool
  | Tree.nil => true
  | Tree.node _ c l r =>
    (!(c = Color.Red && (l.color = Color.Red || r.color = Color.Red))) &&
      noRedRed l && noRedRed r

/-- Number of Black nodes on every path from the tree root down to an empty
slot, when that number is the same for all such paths (invariant 3). -/
def blackHeight? : Tree α → Option Nat
  | Tree.nil => some 0
  | Tree.node _ c l r =>
    match blackHeight? l, blackHeight? r with
    | some a, some b =>
      if a = b then some (a + (if c = Color.Black then 1 else 0)) else none
    | _, _ => none

/-- Invariant 1 of the spec: the root, if present, is Black. -/
def rootBlack : Tree α → Bool
  | Tree.nil => true
  | Tree.node _ c _ _ => c = Color.Black

/-- The conjunction of the three red-black invariants of the spec. -/
def RBValid (t : Tree α) : Bool :=
  rootBlack t && noRedRed t && (blackHeight? t).isSome

/-- A public operation of the container. -/
inductive Op (α : Type) where
  | addOp (v : α) : Op α
  | removeOp (v : α) : Op α

/-- One public call. -/
def step [LinearOrder α] (t : RbTree α) : Op α → RbTree α
  | Op.addOp v => t.add v
  | Op.removeOp v => (t.remove v).2

/-- A sequence of add and remove operations starting from new(). -/
def run [LinearOrder α] (ops : List (Op α)) : RbTree α :=
  ops.foldl step RbTree.new

/-- The keys a stack of frames contributes in front of the focused subtree
in the in-order traversal of the reassembled tree. -/
def ctxPre : List (Frame α) → List α
  | [] => []
  | f :: rest =>
    ctxPre rest ++ (if f.pos = LEFT then [] else Tree.inorder f.other ++ [f.val])

/-- The keys a stack of frames contributes behind the focused subtree in the
in-order traversal of the reassembled tree. -/
def ctxSuf : List (Frame α) → List α
  | [] => []
  | f :: rest =>
    (if f.pos = LEFT then f.val :: Tree.inorder f.other else []) ++ ctxSuf rest

/-- Relaxation of noRedRed that tolerates a Red root with a Red child: what
fix_insert guarantees before add's final recoloring of the root. -/
def noRedRed2 : Tree α → Bool
  | Tree.nil => true
  | Tree.node _ _ l r => noRedRed l && noRedRed r

/-- Black-height contribution of a frame: one for a Black node. -/
def frameBump (f : Frame α) : Nat := if f.color = Color.Black then 1 else 0

/-- Color of the node a stack of frames hangs the focus from (Black for an
empty stack, where the focus is the root and has no parent). -/
def headColorB : List (Frame α) → Color
  | [] => Color.Black
  | f :: _ => f.color

/-- Validity of an ancestry context around a hole of black-height n: every
frame's other subtree has no Red-Red violation and black-height matching the
hole, a Red frame hangs below a Black parent and beside a Black-rooted
sibling, and the rest of the context is valid around the one-level-larger
hole. -/
def ctxOK : List (Frame α) → Nat → Prop
  | [], _ => True
  | f :: rest, n =>
    noRedRed f.other = true ∧ blackHeight? f.other = some n ∧
    (f.color = Color.Red → f.other.color ≠ Color.Red ∧ headColorB rest = Color.Black) ∧
    ctxOK rest (n + frameBump f)

/-- Color of the root of the tree a zipper reassembles to, as recorded in the
outermost frame (Black for an empty stack, standing for no constraint). -/
def lastColor : List (Frame α) → Color
  | [] => Color.Black
  | [f] => f.color
  | _ :: rest => lastColor rest

/-- The reassembled tree has a Black root: the outermost frame is Black, or
with no frames the focus itself is not Red. -/
def lastBlack : List (Frame α) → Tree α → Prop
  | [], cur => cur.color ≠ Color.Red
  | f :: rest, _ => lastColor (f :: rest) = Color.Black

/-- The zipper invariant a descent from a valid root maintains: valid context
around the focus, no Red-Red violation inside the focus, uniform black-height,
and a Red focus hangs below a Black parent. -/
def ZipOK (frames : List (Frame α)) (t : Tree α) (n : Nat) : Prop :=
  ctxOK frames n ∧ noRedRed t = true ∧ blackHeight? t = some n ∧
    (t.color = Color.Red → headColorB frames = Color.Black)

/-- The invariant of fix_insert: the focus is a Red subtree, internally clean
and of uniform black-height, inside a valid context; the one possible Red-Red
violation of the whole tree is between the focus root and the innermost
frame. -/
def InsInv (frames : List (Frame α)) (cur : Tree α) (n : Nat) : Prop :=
  cur.color = Color.Red ∧ noRedRed cur = true ∧ blackHeight? cur = some n ∧
    ctxOK frames n

/-- The invariant of fix_remove: the focus is the parent of the deficient
branch; the child opposite the sibling is Black-rooted and one black level
short of its sibling, the focus is internally clean, a Red focus hangs below a
Black parent, and the context is valid around the intact height the focus
slot is supposed to have. -/
def DelInv (frames : List (Frame α)) (cur : Tree α) (sp : Fin 2) (n : Nat) : Prop :=
  noRedRed cur = true ∧
  (cur.child (opposite_pos sp)).color ≠ Color.Red ∧
  blackHeight? (cur.child (opposite_pos sp)) = some n ∧
  blackHeight? (cur.child sp) = some (n + 1) ∧
  (cur.color = Color.Red → headColorB frames = Color.Black) ∧
  ctxOK frames (n + 1 + (if cur.color = Color.Black then 1 else 0))

/-- fix_insert with an explicit recursion budget: none when the budget runs
out.  Every recursive invocation first pops two frames, so a budget of half
the stack length is always enough (the theorem on it makes this exact). -/
def fixInsertFuel : Nat → List (Frame α) → Tree α → Option (List (Frame α) × Tree α)
  | 0, _, _ => none
  | _ + 1, [], cur => some ([], cur)
  | _ + 1, [f], cur => some ([f], cur)
  | fuel + 1, fn_ :: fp :: rest, cur =>
    if fn_.color = Color.Black then
      some (rest, fp.fill (fn_.fill cur))
    else
      match fp.other with
      | Tree.node uv Color.Red ul ur =>
        fixInsertFuel fuel rest
          (Frame.fill ⟨fp.val, Color.Red, Tree.node uv Color.Black ul ur, fp.pos⟩
            (Frame.fill ⟨fn_.val, Color.Black, fn_.other, fn_.pos⟩ cur))
      | _ =>
        if fp.pos = RIGHT then
          if fn_.pos = RIGHT then
            some (rotate_left rest
              (Frame.fill ⟨fp.val, Color.Red, fp.other, fp.pos⟩
                (Frame.fill ⟨fn_.val, Color.Black, fn_.other, fn_.pos⟩ cur)))
          else
            some (rotate_left rest
              (Frame.fill ⟨fp.val, Color.Red, fp.other, fp.pos⟩
                (rotr (fn_.fill (cur.setColor Color.Black)))))
        else
          if fn_.pos = LEFT then
            some (rotate_right rest
              (Frame.fill ⟨fp.val, Color.Red, fp.other, fp.pos⟩
                (Frame.fill ⟨fn_.val, Color.Black, fn_.other, fn_.pos⟩ cur)))
          else
            some (rotate_right rest
              (Frame.fill ⟨fp.val, Color.Red, fp.other, fp.pos⟩
                (rotl (fn_.fill (cur.setColor Color.Black)))))

/-- Number of add calls in a sequence of operations. -/
def countAdds : List (Op α) → Nat
  | [] => 0
  | Op.addOp _ :: rest => countAdds rest + 1
  | Op.removeOp _ :: rest => countAdds rest

/-- Number of remove calls that return true when the sequence runs from t. -/
def countOkRemoves [LinearOrder α] : RbTree α → List (Op α) → Nat
  | _, [] => 0
  | t, Op.addOp v :: rest => countOkRemoves (t.add v) rest
  | t, Op.removeOp v :: rest =>
    (if (t.remove v).1 then 1 else 0) + countOkRemoves (t.remove v).2 rest

/-! Fuel-indexed mirrors of the well-founded recursions, for evaluating the
removal path on concrete inputs; the soundness theorems below identify a some
result with the original functions. -/

/-- fix_remove with an explicit step budget (same fix_remove_step). -/
def fix_removeFuel : Nat → List (Frame α) → Tree α → Fin 2 → Option (Tree α)
  | 0, _, _, _ => none
  | fuel + 1, frames, cur, sp =>
    match fix_remove_step frames cur sp with
    | Sum.inr t => some t
    | Sum.inl s => fix_removeFuel fuel s.1 s.2.1 s.2.2

/-- extract_node routed through fix_removeFuel. -/
def extract_nodeFuel (fuel : Nat) (frames : List (Frame α)) (cur : Tree α)
    (child : Fin 2) : Option (Tree α) :=
  match cur with
  | Tree.nil => some (assemble frames Tree.nil)
  | Tree.node v c l r =>
    let child_node := (Tree.node v c l r).child child
    match frames with
    | [] => some (child_node.setColor Color.Black)
    | f :: rest =>
      match child_node with
      | Tree.node cv cc cl cr =>
        if c = Color.Red ∨ cc = Color.Red then
          some (assemble rest (f.fill (Tree.node cv Color.Black cl cr)))
        else
          fix_removeFuel fuel rest (f.fill (Tree.node cv cc cl cr)) (opposite_pos f.pos)
      | Tree.nil =>
        if c = Color.Black then
          fix_removeFuel fuel rest (f.fill Tree.nil) (opposite_pos f.pos)
        else
          some (assemble rest (f.fill Tree.nil))

/-- remove_last with an explicit recursion budget. -/
def remove_lastFuel : Nat → List (Frame α) → Tree α → Option (Tree α)
  | 0, _, _ => none
  | fuel + 1, frames, cur =>
    match cur with
    | Tree.nil => some (assemble frames Tree.nil)
    | Tree.node v c l r =>
      match l, r with
      | Tree.nil, Tree.nil =>
        extract_nodeFuel fuel frames (Tree.node v c Tree.nil Tree.nil) LEFT
      | Tree.node lv lc ll lr, Tree.nil =>
        extract_nodeFuel fuel frames (Tree.node v c (Tree.node lv lc ll lr) Tree.nil) LEFT
      | Tree.nil, Tree.node rv rc rl rr =>
        extract_nodeFuel fuel frames (Tree.node v c Tree.nil (Tree.node rv rc rl rr)) RIGHT
      | Tree.node lv lc ll lr, Tree.node rv rc rl rr =>
        match find_min [] (Tree.node rv rc rl rr) with
        | (_, Tree.nil) =>
          some (assemble frames
            (Tree.node v c (Tree.node lv lc ll lr) (Tree.node rv rc rl rr)))
        | (seg, Tree.node mv mc ml mr) =>
          remove_lastFuel fuel (seg ++ ⟨mv, c, Tree.node lv lc ll lr, RIGHT⟩ :: frames)
            (Tree.node v mc ml mr)

/-- remove routed through remove_lastFuel. -/
def RbTree.removeFuel [LinearOrder α] (fuel : Nat) (t : RbTree α) (val : α) :
    Option (Bool × RbTree α) :=
  match t.root with
  | Tree.nil => some (false, t)
  | Tree.node v c l r =>
    match find_node val [] (Tree.node v c l r) with
    | none => some (false, t)
    | some st =>
      match remove_lastFuel fuel st.1 st.2 with
      | none => none
      | some newRoot => some (true, ⟨newRoot, t.len - 1⟩)

/-! Basic structural lemmas. -/

theorem pos_cases (p : Fin 2) : p = LEFT ∨ p = RIGHT := by
  fin_cases p
  · exact Or.inl rfl
  · exact Or.inr rfl

theorem opposite_pos_LEFT : opposite_pos LEFT = RIGHT := by decide

theorem opposite_pos_RIGHT : opposite_pos RIGHT = LEFT := by decide

@[simp] theorem RIGHT_eq_LEFT : (RIGHT = LEFT) = False := eq_false (by decide)

@[simp] theorem LEFT_eq_RIGHT : (LEFT = RIGHT) = False := eq_false (by decide)

@[simp] theorem RIGHT_eq_zero : (RIGHT = (0 : Fin 2)) = False := eq_false (by decide)

@[simp] theorem zero_eq_RIGHT : ((0 : Fin 2) = RIGHT) = False := eq_false (by decide)

theorem fill_eq_LEFT (f : Frame α) (t : Tree α) (h : f.pos = LEFT) :
    f.fill t = Tree.node f.val f.color t f.other := by
  simp [Frame.fill, h]

theorem fill_eq_RIGHT (f : Frame α) (t : Tree α) (h : f.pos = RIGHT) :
    f.fill t = Tree.node f.val f.color f.other t := by
  have : ¬f.pos = LEFT := by rw [h]; decide
  simp [Frame.fill, this]

@[simp] theorem inorder_setColor (t : Tree α) (c : Color) :
    (t.setColor c).inorder = t.inorder := by
  cases t <;> simp [Tree.setColor, Tree.inorder]

@[simp] theorem inorder_rotl (t : Tree α) : (rotl t).inorder = t.inorder := by
  match t with
  | Tree.nil => rfl
  | Tree.node v c l Tree.nil => rfl
  | Tree.node v c l (Tree.node rv rc rl rr) => simp [rotl, Tree.inorder]

@[simp] theorem inorder_rotr (t : Tree α) : (rotr t).inorder = t.inorder := by
  match t with
  | Tree.nil => rfl
  | Tree.node v c Tree.nil r => rfl
  | Tree.node v c (Tree.node lv lc ll lr) r => simp [rotr, Tree.inorder]

theorem inorder_fill (f : Frame α) (t : Tree α) :
    (f.fill t).inorder =
      if f.pos = LEFT then t.inorder ++ f.val :: f.other.inorder
      else f.other.inorder ++ f.val :: t.inorder := by
  by_cases h : f.pos = LEFT <;> simp [Frame.fill, h, Tree.inorder]

theorem inorder_assemble (frames : List (Frame α)) (t : Tree α) :
    (assemble frames t).inorder = ctxPre frames ++ t.inorder ++ ctxSuf frames := by
  induction frames generalizing t with
  | nil => simp [assemble, ctxPre, ctxSuf]
  | cons f rest ih =>
    by_cases h : f.pos = LEFT <;>
      simp [assemble, ih, inorder_fill, h, ctxPre, ctxSuf]

theorem ctxPre_append (a b : List (Frame α)) :
    ctxPre (a ++ b) = ctxPre b ++ ctxPre a := by
  induction a with
  | nil => simp [ctxPre]
  | cons f rest ih => simp [ctxPre, ih]

theorem ctxSuf_append (a b : List (Frame α)) :
    ctxSuf (a ++ b) = ctxSuf a ++ ctxSuf b := by
  induction a with
  | nil => simp [ctxSuf]
  | cons f rest ih => simp [ctxSuf, ih]

/-- A frame whose focus has the same in-order keys yields the same in-order
keys for the whole reassembled tree. -/
theorem inorder_assemble_congr (frames : List (Frame α)) (t t' : Tree α)
    (h : t.inorder = t'.inorder) :
    (assemble frames t).inorder = (assemble frames t').inorder := by
  simp [inorder_assemble, h]

/-! In-order preservation of the rebalancing passes. -/

/-- Replacing a child slot by a subtree with the same in-order keys does not
change the in-order keys of the node. -/
theorem inorder_setChild_congr (cur : Tree α) (p : Fin 2) (s : Tree α)
    (h : s.inorder = (cur.child p).inorder) :
    (cur.setChild p s).inorder = cur.inorder := by
  cases cur with
  | nil => simp [Tree.setChild]
  | node v c l r =>
    rcases pos_cases p with hp | hp <;>
      subst hp <;>
      simp_all [Tree.setChild, Tree.child, Tree.inorder]

@[simp] theorem color_setChild (cur : Tree α) (p : Fin 2) (s : Tree α) :
    (cur.setChild p s).color = cur.color := by
  cases cur <;> rcases pos_cases p with hp | hp <;> subst hp <;>
    simp [Tree.setChild, Tree.color]

theorem fix_insert_inorder (frames : List (Frame α)) (cur : Tree α) :
    (assemble (fix_insert frames cur).1 (fix_insert frames cur).2).inorder =
      (assemble frames cur).inorder := by
  induction frames, cur using fix_insert.induct with
  | case1 cur => simp [fix_insert]
  | case2 f cur => simp [fix_insert]
  | case3 fn_ fp rest cur h =>
    simp [fix_insert, h, assemble]
  | case4 fn_ fp rest cur h uv ul ur hu ih =>
    rw [fix_insert]
    simp only [if_neg h, hu]
    rw [ih]
    apply inorder_assemble_congr
    simp [inorder_fill, Tree.inorder, hu]
  | case5 fn_ fp rest cur h hp hn hu =>
    rw [fix_insert]
    simp only [if_neg h]
    rcases hfo : fp.other with _ | ⟨uv, uc, ul, ur⟩
    · simp only [if_pos hp, if_pos hn, rotate_left]
      have hr : assemble (fn_ :: fp :: rest) cur = assemble rest (fp.fill (fn_.fill cur)) := rfl
      rw [hr]
      apply inorder_assemble_congr
      simp [inorder_fill, hp, hn, hfo, Tree.inorder]
    · cases uc
      · exact absurd hfo (hu uv ul ur)
      · simp only [if_pos hp, if_pos hn, rotate_left]
        have hr : assemble (fn_ :: fp :: rest) cur = assemble rest (fp.fill (fn_.fill cur)) := rfl
        rw [hr]
        apply inorder_assemble_congr
        simp [inorder_fill, hp, hn, hfo, Tree.inorder]
  | case6 fn_ fp rest cur h hp hn hu =>
    rw [fix_insert]
    simp only [if_neg h]
    rcases hfo : fp.other with _ | ⟨uv, uc, ul, ur⟩
    · simp only [if_pos hp, if_neg hn, rotate_left]
      have hr : assemble (fn_ :: fp :: rest) cur = assemble rest (fp.fill (fn_.fill cur)) := rfl
      rw [hr]
      apply inorder_assemble_congr
      simp [inorder_fill, hp, hfo, Tree.inorder]
    · cases uc
      · exact absurd hfo (hu uv ul ur)
      · simp only [if_pos hp, if_neg hn, rotate_left]
        have hr : assemble (fn_ :: fp :: rest) cur = assemble rest (fp.fill (fn_.fill cur)) := rfl
        rw [hr]
        apply inorder_assemble_congr
        simp [inorder_fill, hp, hfo, Tree.inorder]
  | case7 fn_ fp rest cur h hp hn hu =>
    rw [fix_insert]
    simp only [if_neg h]
    rcases hfo : fp.other with _ | ⟨uv, uc, ul, ur⟩
    · simp only [if_neg hp, if_pos hn, rotate_right]
      have hr : assemble (fn_ :: fp :: rest) cur = assemble rest (fp.fill (fn_.fill cur)) := rfl
      rw [hr]
      apply inorder_assemble_congr
      simp [inorder_fill, hp, hn, hfo, Tree.inorder]
    · cases uc
      · exact absurd hfo (hu uv ul ur)
      · simp only [if_neg hp, if_pos hn, rotate_right]
        have hr : assemble (fn_ :: fp :: rest) cur = assemble rest (fp.fill (fn_.fill cur)) := rfl
        rw [hr]
        apply inorder_assemble_congr
        simp [inorder_fill, hp, hn, hfo, Tree.inorder]
  | case8 fn_ fp rest cur h hp hn hu =>
    rw [fix_insert]
    simp only [if_neg h]
    rcases hfo : fp.other with _ | ⟨uv, uc, ul, ur⟩
    · simp only [if_neg hp, if_neg hn, rotate_right]
      have hr : assemble (fn_ :: fp :: rest) cur = assemble rest (fp.fill (fn_.fill cur)) := rfl
      rw [hr]
      apply inorder_assemble_congr
      simp [inorder_fill, hp, hn, hfo, Tree.inorder]
    · cases uc
      · exact absurd hfo (hu uv ul ur)
      · simp only [if_neg hp, if_neg hn, rotate_right]
        have hr : assemble (fn_ :: fp :: rest) cur = assemble rest (fp.fill (fn_.fill cur)) := rfl
        rw [hr]
        apply inorder_assemble_congr
        simp [inorder_fill, hp, hn, hfo, Tree.inorder]

/-! Unfolding of the fix_remove driver through the step function. -/

theorem fix_remove_done (frames : List (Frame α)) (cur : Tree α) (sp : Fin 2) (t : Tree α)
    (h : fix_remove_step frames cur sp = Sum.inr t) : fix_remove frames cur sp = t := by
  rw [fix_remove]
  split
  · rename_i t' heq
    rw [h] at heq
    injection heq with h2
    exact h2.symm
  · rename_i s heq
    rw [h] at heq
    exact Sum.noConfusion heq

theorem fix_remove_cont (frames : List (Frame α)) (cur : Tree α) (sp : Fin 2)
    (s : List (Frame α) × Tree α × Fin 2)
    (h : fix_remove_step frames cur sp = Sum.inl s) :
    fix_remove frames cur sp = fix_remove s.1 s.2.1 s.2.2 := by
  rw [fix_remove]
  split
  · rename_i t' heq
    rw [h] at heq
    exact Sum.noConfusion heq
  · rename_i s' heq
    rw [h] at heq
    injection heq with h2
    subst h2
    rfl

/-- A finished fix_remove step returns a tree with the in-order keys of the
reassembled input. -/
theorem fix_remove_step_inr_inorder (frames : List (Frame α)) (cur : Tree α) (sp : Fin 2)
    (t : Tree α) (h : fix_remove_step frames cur sp = Sum.inr t) :
    t.inorder = (assemble frames cur).inorder := by
  unfold fix_remove_step at h
  repeat' split at h
  all_goals try (exact Sum.noConfusion h)
  all_goals (injection h with h2; subst h2)
  all_goals simp [assemble, inorder_assemble, inorder_fill, Tree.inorder]

/-- A continuing fix_remove step preserves the in-order keys of the
reassembled state. -/
theorem fix_remove_step_inl_inorder (frames : List (Frame α)) (cur : Tree α) (sp : Fin 2)
    (s : List (Frame α) × Tree α × Fin 2)
    (h : fix_remove_step frames cur sp = Sum.inl s) :
    (assemble s.1 s.2.1).inorder = (assemble frames cur).inorder := by
  unfold fix_remove_step at h
  repeat' split at h
  all_goals try (exact Sum.noConfusion h)
  all_goals (injection h with h2; subst h2)
  all_goals simp [assemble, inorder_assemble, inorder_fill, Tree.inorder]

/-- fix_remove preserves the in-order keys of the reassembled state. -/
theorem fix_remove_inorder (frames : List (Frame α)) (cur : Tree α) (sp : Fin 2) :
    (fix_remove frames cur sp).inorder = (assemble frames cur).inorder := by
  induction frames, cur, sp using fix_remove.induct with
  | case1 frames cur sp t h =>
    rw [fix_remove_done frames cur sp t h]
    exact fix_remove_step_inr_inorder frames cur sp t h
  | case2 frames cur sp s h ih =>
    rw [fix_remove_cont frames cur sp s h]
    rw [ih]
    exact fix_remove_step_inl_inorder frames cur sp s h

/-! Properties of the successor descent find_min_node. -/

/-- The descent only pushes entries, so reassembling the extended stack gives
back the tree the descent started from. -/
theorem find_min_assemble (seg : List (Frame α)) (t : Tree α) :
    assemble (find_min seg t).1 (find_min seg t).2 = assemble seg t := by
  induction seg, t using find_min.induct with
  | case1 seg v c lv lc ll lr r ih =>
    rw [find_min]
    rw [ih]
    rfl
  | case2 seg t h =>
    rw [find_min]
    exact h

/-- The descent pushes only LEFT entries. -/
theorem find_min_all_left (seg : List (Frame α)) (t : Tree α)
    (h : ∀ g ∈ seg, g.pos = LEFT) : ∀ g ∈ (find_min seg t).1, g.pos = LEFT := by
  induction seg, t using find_min.induct with
  | case1 seg v c lv lc ll lr r ih =>
    rw [find_min]
    apply ih
    intro g hg
    rcases List.mem_cons.mp hg with hg | hg
    · subst hg
      rfl
    · exact h g hg
  | case2 seg t hni =>
    rw [find_min]
    · exact h
    · exact hni

/-- The reached minimum has no left child. -/
theorem find_min_left_nil (seg : List (Frame α)) (t : Tree α) (mv : α) (mc : Color)
    (ml mr : Tree α) (h : (find_min seg t).2 = Tree.node mv mc ml mr) : ml = Tree.nil := by
  induction seg, t using find_min.induct with
  | case1 seg v c lv lc ll lr r ih =>
    rw [find_min] at h
    exact ih h
  | case2 seg t hni =>
    rw [find_min] at h
    case x_2 => exact hni
    rcases t with _ | ⟨tv, tc, tl, tr⟩
    · exact absurd h (by simp)
    · rcases tl with _ | ⟨qv, qc, ql, qr⟩
      · injection h with h1 h2 h3 h4
        exact h3.symm
      · exact absurd rfl (hni tv tc qv qc ql qr tr)

/-- Starting at a node, the descent ends at a node. -/
theorem find_min_ne_nil (seg : List (Frame α)) (v : α) (c : Color) (l r : Tree α) :
    (find_min seg (Tree.node v c l r)).2 ≠ Tree.nil := by
  induction l generalizing seg v c r with
  | nil =>
    rw [find_min]
    · simp
    · intro v1 c1 lv lc ll lr r1 heq
      injection heq with h1 h2 h3 h4
      exact Tree.noConfusion h3
  | node lv lc ll lr ihl ihr =>
    rw [find_min]
    exact ihl (⟨v, c, r, LEFT⟩ :: seg) lv lc lr

/-- A stack of LEFT entries contributes nothing in front of the focus. -/
theorem ctxPre_all_left (seg : List (Frame α)) (h : ∀ g ∈ seg, g.pos = LEFT) :
    ctxPre seg = [] := by
  induction seg with
  | nil => rfl
  | cons f rest ih =>
    rw [ctxPre]
    rw [if_pos (h f (by simp))]
    rw [ih (fun g hg => h g (by simp [hg]))]
    rfl

/-! In-order specification of extract_node at its two call shapes (the
removed node never has a child in the slot that is not detached). -/

theorem extract_node_inorder_left (frames : List (Frame α)) (v : α) (c : Color) (l : Tree α) :
    (extract_node frames (Tree.node v c l Tree.nil) LEFT).inorder =
      ctxPre frames ++ l.inorder ++ ctxSuf frames := by
  rcases frames with _ | ⟨f, rest⟩
  · rcases l with _ | ⟨lv, lc, ll, lr⟩ <;>
      simp [extract_node, Tree.child, LEFT, Tree.setColor, Tree.inorder, ctxPre, ctxSuf]
  · rcases l with _ | ⟨lv, lc, ll, lr⟩ <;>
      simp only [extract_node, Tree.child, LEFT, if_pos rfl] <;>
        split_ifs <;>
          by_cases hfp : f.pos = LEFT <;>
            simp_all [fix_remove_inorder, assemble, inorder_assemble, inorder_fill,
              ctxPre, ctxSuf, Tree.inorder, Tree.setColor, Frame.fill] <;>
              try split_ifs <;>
                simp_all [fix_remove_inorder, assemble, inorder_assemble, inorder_fill,
                  ctxPre, ctxSuf, Tree.inorder, Tree.setColor, Frame.fill]

theorem extract_node_inorder_right (frames : List (Frame α)) (v : α) (c : Color) (r : Tree α) :
    (extract_node frames (Tree.node v c Tree.nil r) RIGHT).inorder =
      ctxPre frames ++ r.inorder ++ ctxSuf frames := by
  rcases frames with _ | ⟨f, rest⟩
  · rcases r with _ | ⟨rv, rc, rl, rr⟩ <;>
      simp [extract_node, Tree.child, LEFT, Tree.setColor, Tree.inorder, ctxPre, ctxSuf]
  · rcases r with _ | ⟨rv, rc, rl, rr⟩ <;>
      simp only [extract_node, Tree.child, LEFT, RIGHT_eq_LEFT, if_false] <;>
        split_ifs <;>
          by_cases hfp : f.pos = LEFT <;>
            simp_all [fix_remove_inorder, assemble, inorder_assemble, inorder_fill,
              ctxPre, ctxSuf, Tree.inorder, Tree.setColor, Frame.fill] <;>
              try split_ifs <;>
                simp_all [fix_remove_inorder, assemble, inorder_assemble, inorder_fill,
                  ctxPre, ctxSuf, Tree.inorder, Tree.setColor, Frame.fill]

/-- In-order specification of remove_last: it deletes exactly the key at the
root of the focused node from the in-order traversal of the reassembled
tree. -/
theorem remove_last_spec (frames : List (Frame α)) (cur : Tree α) (h : cur ≠ Tree.nil) :
    (remove_last frames cur).inorder =
      ctxPre frames ++ (cur.child LEFT).inorder ++ (cur.child RIGHT).inorder ++
        ctxSuf frames := by
  induction frames, cur using remove_last.induct with
  | case1 frames => exact absurd rfl h
  | case2 frames v c =>
    rw [remove_last]
    rw [extract_node_inorder_left]
    simp [Tree.child, Tree.inorder, LEFT]
  | case3 frames v c lv lc ll lr =>
    rw [remove_last]
    rw [extract_node_inorder_left]
    simp [Tree.child, Tree.inorder, LEFT]
  | case4 frames v c rv rc rl rr =>
    rw [remove_last]
    rw [extract_node_inorder_right]
    simp [Tree.child, Tree.inorder, LEFT, RIGHT]
  | case5 frames v c lv lc ll lr rv rc rl rr seg hm =>
    have := find_min_ne_nil ([] : List (Frame α)) rv rc rl rr
    rw [hm] at this
    exact absurd rfl this
  | case6 frames v c lv lc ll lr rv rc rl rr seg mv mc ml mr hm ih =>
    rw [remove_last, hm]
    have hml : ml = Tree.nil := find_min_left_nil [] (Tree.node rv rc rl rr) mv mc ml mr
      (by rw [hm])
    have hihs := ih (by simp)
    rw [hihs]
    have hall : ∀ g ∈ seg, g.pos = LEFT := by
      have := find_min_all_left ([] : List (Frame α)) (Tree.node rv rc rl rr) (by simp)
      rw [hm] at this
      exact this
    have hpre : ctxPre seg = [] := ctxPre_all_left seg hall
    have hasm : assemble seg (Tree.node mv mc ml mr) = Tree.node rv rc rl rr := by
      have := find_min_assemble ([] : List (Frame α)) (Tree.node rv rc rl rr)
      rw [hm] at this
      exact this
    have hR : (Tree.node rv rc rl rr).inorder =
        mv :: mr.inorder ++ ctxSuf seg := by
      rw [← hasm]
      rw [inorder_assemble seg (Tree.node mv mc ml mr)]
      rw [hpre, hml]
      simp [Tree.inorder]
    subst hml
    rw [ctxPre_append, ctxSuf_append, hpre]
    simp [ctxPre, ctxSuf, Tree.child, Tree.inorder, LEFT, RIGHT, hR]
    have hR2 : rl.inorder ++ rv :: rr.inorder = mv :: (mr.inorder ++ ctxSuf seg) := by
      simpa [Tree.inorder] using hR
    rw [show rl.inorder ++ rv :: (rr.inorder ++ ctxSuf frames) =
        (rl.inorder ++ rv :: rr.inorder) ++ ctxSuf frames by simp]
    rw [hR2]
    simp

/-! Properties of the two descents find_leaf and find_node. -/

/-- The descent only pushes entries: reassembling its result stack around its
result focus gives back the tree it started from. -/
theorem find_leaf_assemble [LinearOrder α] (val : α) (frames : List (Frame α)) (t : Tree α) :
    assemble (find_leaf val frames t).1 (find_leaf val frames t).2 = assemble frames t := by
  induction frames, t using find_leaf.induct val with
  | case1 frames =>
    rw [find_leaf.eq_def]
  | case2 frames v c r hle =>
    rw [find_leaf.eq_def]
    simp only [if_pos hle]
  | case3 frames v c r hle lv lc ll lr ih =>
    rw [find_leaf.eq_def]
    simp only [if_pos hle]
    rw [ih]
    simp [assemble, Frame.fill]
  | case4 frames v c l hle =>
    rw [find_leaf.eq_def]
    simp only [if_neg hle]
  | case5 frames v c l hle rv rc rl rr ih =>
    rw [find_leaf.eq_def]
    simp only [if_neg hle]
    rw [ih]
    simp [assemble, Frame.fill]

/-- The descent stops at a node whose slot on the comparison side is empty. -/
theorem find_leaf_stop [LinearOrder α] (val : α) (frames : List (Frame α)) (t : Tree α)
    (h : t ≠ Tree.nil) :
    ∃ v c l r, (find_leaf val frames t).2 = Tree.node v c l r ∧
      ((val ≤ v ∧ l = Tree.nil) ∨ (¬val ≤ v ∧ r = Tree.nil)) := by
  induction frames, t using find_leaf.induct val with
  | case1 frames => exact absurd rfl h
  | case2 frames v c r hle =>
    rw [find_leaf.eq_def]
    simp only [if_pos hle]
    exact ⟨v, c, Tree.nil, r, rfl, Or.inl ⟨hle, rfl⟩⟩
  | case3 frames v c r hle lv lc ll lr ih =>
    rw [find_leaf.eq_def]
    simp only [if_pos hle]
    exact ih (by simp)
  | case4 frames v c l hle =>
    rw [find_leaf.eq_def]
    simp only [if_neg hle]
    exact ⟨v, c, l, Tree.nil, rfl, Or.inr ⟨hle, rfl⟩⟩
  | case5 frames v c l hle rv rc rl rr ih =>
    rw [find_leaf.eq_def]
    simp only [if_neg hle]
    exact ih (by simp)

/-- Every entry the descent pushes records the comparison that routed it:
keys less than or equal to the visited value go LEFT, greater ones RIGHT. -/
theorem find_leaf_routing [LinearOrder α] (val : α) (frames : List (Frame α)) (t : Tree α) :
    ∃ seg, (find_leaf val frames t).1 = seg ++ frames ∧
      ∀ g ∈ seg, (val ≤ g.val ∧ g.pos = LEFT) ∨ (¬val ≤ g.val ∧ g.pos = RIGHT) := by
  induction frames, t using find_leaf.induct val with
  | case1 frames =>
    simp only [find_leaf]
    exact ⟨[], rfl, by simp⟩
  | case2 frames v c r hle =>
    rw [find_leaf.eq_def]
    simp only [if_pos hle]
    exact ⟨[], rfl, by simp⟩
  | case3 frames v c r hle lv lc ll lr ih =>
    rw [find_leaf.eq_def]
    simp only [if_pos hle]
    obtain ⟨seg, hseg, hprop⟩ := ih
    refine ⟨seg ++ [⟨v, c, r, LEFT⟩], by simp [hseg], ?_⟩
    intro g hg
    rcases List.mem_append.mp hg with hg | hg
    · exact hprop g hg
    · simp at hg
      subst hg
      exact Or.inl ⟨hle, rfl⟩
  | case4 frames v c l hle =>
    rw [find_leaf.eq_def]
    simp only [if_neg hle]
    exact ⟨[], rfl, by simp⟩
  | case5 frames v c l hle rv rc rl rr ih =>
    rw [find_leaf.eq_def]
    simp only [if_neg hle]
    obtain ⟨seg, hseg, hprop⟩ := ih
    refine ⟨seg ++ [⟨v, c, l, RIGHT⟩], by simp [hseg], ?_⟩
    intro g hg
    rcases List.mem_append.mp hg with hg | hg
    · exact hprop g hg
    · simp at hg
      subst hg
      exact Or.inr ⟨hle, rfl⟩

/-- A successful find_node ends at a node carrying the searched value, and
reassembling its stack gives back the tree it started from. -/
theorem find_node_some [LinearOrder α] (val : α) (frames : List (Frame α)) (t : Tree α)
    (fs : List (Frame α)) (foc : Tree α)
    (h : find_node val frames t = some (fs, foc)) :
    assemble fs foc = assemble frames t ∧ ∃ c l r, foc = Tree.node val c l r := by
  induction frames, t using find_node.induct val with
  | case1 frames =>
    rw [find_node.eq_def] at h
    exact absurd h (by simp)
  | case2 frames c l r =>
    rw [find_node.eq_def] at h
    simp only [if_pos rfl] at h
    injection h with h2
    injection h2 with h3 h4
    subst h3
    subst h4
    exact ⟨rfl, c, l, r, rfl⟩
  | case3 frames v c r hne hlt =>
    rw [find_node.eq_def] at h
    simp only [if_neg hne, if_pos hlt] at h
    exact absurd h (by simp)
  | case4 frames v c r hne hlt lv lc ll lr ih =>
    rw [find_node.eq_def] at h
    simp only [if_neg hne, if_pos hlt] at h
    obtain ⟨h1, h2⟩ := ih h
    refine ⟨?_, h2⟩
    rw [h1]
    simp [assemble, Frame.fill]
  | case5 frames v c l hne hlt =>
    rw [find_node.eq_def] at h
    simp only [if_neg hne, if_neg hlt] at h
    exact absurd h (by simp)
  | case6 frames v c l hne hlt rv rc rl rr ih =>
    rw [find_node.eq_def] at h
    simp only [if_neg hne, if_neg hlt] at h
    obtain ⟨h1, h2⟩ := ih h
    refine ⟨?_, h2⟩
    rw [h1]
    simp [assemble, Frame.fill]

/-- find_node only answers true when the value sits somewhere in the focused
subtree. -/
theorem find_node_mem [LinearOrder α] (val : α) (frames : List (Frame α)) (t : Tree α)
    (fs : List (Frame α)) (foc : Tree α)
    (h : find_node val frames t = some (fs, foc)) : val ∈ t.inorder := by
  induction frames, t using find_node.induct val with
  | case1 frames =>
    rw [find_node.eq_def] at h
    exact absurd h (by simp)
  | case2 frames c l r =>
    simp [Tree.inorder]
  | case3 frames v c r hne hlt =>
    rw [find_node.eq_def] at h
    simp only [if_neg hne, if_pos hlt] at h
    exact absurd h (by simp)
  | case4 frames v c r hne hlt lv lc ll lr ih =>
    rw [find_node.eq_def] at h
    simp only [if_neg hne, if_pos hlt] at h
    have := ih h
    simp [Tree.inorder] at this ⊢
    tauto
  | case5 frames v c l hne hlt =>
    rw [find_node.eq_def] at h
    simp only [if_neg hne, if_neg hlt] at h
    exact absurd h (by simp)
  | case6 frames v c l hne hlt rv rc rl rr ih =>
    rw [find_node.eq_def] at h
    simp only [if_neg hne, if_neg hlt] at h
    have := ih h
    simp [Tree.inorder] at this ⊢
    tauto

/-! In-order specifications of the two public mutating operations. -/

/-- add inserts its key at one position of the in-order traversal. -/
theorem add_inorder_split [LinearOrder α] (t : RbTree α) (val : α) :
    ∃ A B, t.root.inorder = A ++ B ∧ (t.add val).root.inorder = A ++ val :: B := by
  rcases ht : t.root with _ | ⟨v, c, l, r⟩
  · refine ⟨[], [], by simp [Tree.inorder], ?_⟩
    simp [RbTree.add, ht, Tree.inorder]
  · obtain ⟨lv, lc, ll, lr, hleaf, hside⟩ :=
      find_leaf_stop val ([] : List (Frame α)) (Tree.node v c l r) (by simp)
    have hasm := find_leaf_assemble val ([] : List (Frame α)) (Tree.node v c l r)
    rw [hleaf] at hasm
    have hadd : (t.add val).root =
        ((assemble (add_and_fix val [] (Tree.node v c l r)).1
          (add_and_fix val [] (Tree.node v c l r)).2).setColor Color.Black) := by
      simp [RbTree.add, ht]
    have hin : (Tree.node v c l r).inorder =
        ctxPre (find_leaf val [] (Tree.node v c l r)).1 ++
          (Tree.node lv lc ll lr).inorder ++
            ctxSuf (find_leaf val [] (Tree.node v c l r)).1 := by
      conv_lhs => rw [show Tree.node v c l r =
        assemble [] (Tree.node v c l r) from rfl, ← hasm]
      rw [inorder_assemble]
    rcases hside with ⟨hle, hnil⟩ | ⟨hle, hnil⟩
    · subst hnil
      refine ⟨ctxPre (find_leaf val [] (Tree.node v c l r)).1,
        lv :: lr.inorder ++ ctxSuf (find_leaf val [] (Tree.node v c l r)).1, ?_, ?_⟩
      · rw [hin]
        simp [Tree.inorder]
      · rw [hadd]
        rw [inorder_setColor]
        have hfix : add_and_fix val [] (Tree.node v c l r) =
            fix_insert (⟨lv, lc, lr, LEFT⟩ :: (find_leaf val [] (Tree.node v c l r)).1)
              (Tree.node val Color.Red Tree.nil Tree.nil) := by
          rw [add_and_fix]
          rw [show (find_leaf val [] (Tree.node v c l r)) =
            ((find_leaf val [] (Tree.node v c l r)).1, Tree.node lv lc Tree.nil lr) from ?_]
          · simp only [if_pos hle]
          · rw [← hleaf]
        rw [hfix, fix_insert_inorder]
        show (assemble _ (Frame.fill _ _)).inorder = _
        rw [inorder_assemble]
        simp [inorder_fill, Tree.inorder]
    · subst hnil
      refine ⟨ctxPre (find_leaf val [] (Tree.node v c l r)).1 ++ ll.inorder ++ [lv],
        ctxSuf (find_leaf val [] (Tree.node v c l r)).1, ?_, ?_⟩
      · rw [hin]
        simp [Tree.inorder]
      · rw [hadd]
        rw [inorder_setColor]
        have hfix : add_and_fix val [] (Tree.node v c l r) =
            fix_insert (⟨lv, lc, ll, RIGHT⟩ :: (find_leaf val [] (Tree.node v c l r)).1)
              (Tree.node val Color.Red Tree.nil Tree.nil) := by
          rw [add_and_fix]
          rw [show (find_leaf val [] (Tree.node v c l r)) =
            ((find_leaf val [] (Tree.node v c l r)).1, Tree.node lv lc ll Tree.nil) from ?_]
          · simp only [if_neg hle]
          · rw [← hleaf]
        rw [hfix, fix_insert_inorder]
        show (assemble _ (Frame.fill _ _)).inorder = _
        rw [inorder_assemble]
        simp [inorder_fill, Tree.inorder]

/-- remove of an absent key answers false and returns the tree unchanged. -/
theorem remove_not_mem [LinearOrder α] (t : RbTree α) (val : α)
    (h : val ∉ t.root.inorder) : t.remove val = (false, t) := by
  rcases ht : t.root with _ | ⟨v, c, l, r⟩
  · simp [RbTree.remove, ht]
  · rw [RbTree.remove]
    rw [ht]
    rcases hf : find_node val ([] : List (Frame α)) (Tree.node v c l r) with _ | ⟨fs, foc⟩
    · simp [hf]
    · have := find_node_mem val [] (Tree.node v c l r) fs foc hf
      rw [← ht] at this
      exact absurd this h

/-- remove of a present position deletes exactly one in-order occurrence. -/
theorem remove_found_split [LinearOrder α] (t : RbTree α) (val : α)
    (fs : List (Frame α)) (foc : Tree α)
    (hroot : t.root ≠ Tree.nil)
    (h : find_node val [] t.root = some (fs, foc)) :
    (t.remove val).1 = true ∧ (t.remove val).2.len = t.len - 1 ∧
      ∃ A B, t.root.inorder = A ++ val :: B ∧ (t.remove val).2.root.inorder = A ++ B := by
  obtain ⟨hasm, c, l, r, hfoc⟩ := find_node_some val [] t.root fs foc h
  rcases ht : t.root with _ | ⟨v, vc, vl, vr⟩
  · exact absurd ht hroot
  · have hrem : t.remove val =
        (true, ⟨remove_last fs foc, t.len - 1⟩) := by
      rw [RbTree.remove, ht]
      rw [ht] at h
      simp [h]
    refine ⟨by rw [hrem], by rw [hrem], ?_⟩
    subst hfoc
    refine ⟨ctxPre fs ++ l.inorder, r.inorder ++ ctxSuf fs, ?_, ?_⟩
    · rw [ht] at hasm
      have hasm2 : assemble fs (Tree.node val c l r) = Tree.node v vc vl vr := by
        simpa [assemble] using hasm
      rw [← hasm2, inorder_assemble]
      simp [Tree.inorder]
    · rw [hrem]
      show (remove_last fs (Tree.node val c l r)).inorder = _
      rw [remove_last_spec fs (Tree.node val c l r) (by simp)]
      simp [Tree.child, Tree.inorder, LEFT, RIGHT]

/-! Sortedness of the in-order traversal. -/

theorem sorted_middle (P M S : List α) [Preorder α]
    (h : List.Sorted (· ≤ ·) (P ++ M ++ S)) : List.Sorted (· ≤ ·) M := by
  have h1 : M.Sublist (P ++ M ++ S) := by
    rw [List.append_assoc]
    have : M.Sublist (M ++ S) := List.sublist_append_left M S
    exact this.trans (List.sublist_append_right P (M ++ S))
  exact List.Pairwise.sublist h1 h

/-- Bounds of the context lists around a descent that routed val: everything
contributed in front is at most val, everything behind at least val. -/
theorem ctx_bounds [LinearOrder α] (val : α) (fl : List (Frame α)) (foc : Tree α)
    (hroute : ∀ g ∈ fl, (val ≤ g.val ∧ g.pos = LEFT) ∨ (¬val ≤ g.val ∧ g.pos = RIGHT))
    (hsort : List.Sorted (· ≤ ·) ((assemble fl foc).inorder)) :
    (∀ x ∈ ctxPre fl, x ≤ val) ∧ (∀ x ∈ ctxSuf fl, val ≤ x) := by
  induction fl generalizing foc with
  | nil => simp [ctxPre, ctxSuf]
  | cons g rest ih =>
    have hsort' : List.Sorted (· ≤ ·) ((assemble rest (g.fill foc)).inorder) := hsort
    obtain ⟨ihPre, ihSuf⟩ := ih (g.fill foc)
      (fun x hx => hroute x (by simp [hx])) hsort'
    have hmid : List.Sorted (· ≤ ·) ((g.fill foc).inorder) := by
      have := inorder_assemble rest (g.fill foc)
      rw [this] at hsort'
      exact sorted_middle _ _ _ hsort'
    rcases hroute g (by simp) with ⟨hle, hpos⟩ | ⟨hle, hpos⟩
    · constructor
      · intro x hx
        rw [ctxPre] at hx
        rw [if_pos hpos] at hx
        simp at hx
        exact ihPre x hx
      · intro x hx
        rw [ctxSuf] at hx
        rw [if_pos hpos] at hx
        rcases List.mem_append.mp hx with hx | hx
        · rcases List.mem_cons.mp hx with hx | hx
          · subst hx
            exact hle
          · -- x is in the other (right) subtree of the LEFT-routed frame
            have hfm : (g.fill foc).inorder = foc.inorder ++ g.val :: g.other.inorder :=
              by rw [inorder_fill, if_pos hpos]
            rw [hfm] at hmid
            have := (List.pairwise_append.mp hmid).2.1
            have h2 := (List.pairwise_cons.mp this).1 x hx
            exact le_trans hle h2
        · exact ihSuf x hx
    · constructor
      · intro x hx
        rw [ctxPre] at hx
        rw [if_neg (by simp [hpos] : ¬g.pos = LEFT)] at hx
        rcases List.mem_append.mp hx with hx | hx
        · exact ihPre x hx
        · rcases List.mem_append.mp hx with hx | hx
          · -- x is in the other (left) subtree of the RIGHT-routed frame
            have hfm : (g.fill foc).inorder = g.other.inorder ++ g.val :: foc.inorder := by
              rw [inorder_fill, if_neg (by simp [hpos] : ¬g.pos = LEFT)]
            rw [hfm] at hmid
            have := (List.pairwise_append.mp hmid).2.2 x hx g.val (by simp)
            exact le_of_lt (lt_of_le_of_lt this (lt_of_not_le hle))
          · simp at hx
            subst hx
            exact le_of_lt (lt_of_not_le hle)
      · intro x hx
        rw [ctxSuf] at hx
        rw [if_neg (by simp [hpos] : ¬g.pos = LEFT)] at hx
        simp at hx
        exact ihSuf x hx

/-- add keeps the in-order traversal sorted. -/
theorem add_sorted [LinearOrder α] (t : RbTree α) (val : α)
    (h : List.Sorted (· ≤ ·) t.root.inorder) :
    List.Sorted (· ≤ ·) (t.add val).root.inorder := by
  rcases ht : t.root with _ | ⟨v, c, l, r⟩
  · simp [RbTree.add, ht, Tree.inorder]
  · obtain ⟨lv, lc, ll, lr, hleaf, hside⟩ :=
      find_leaf_stop val ([] : List (Frame α)) (Tree.node v c l r) (by simp)
    have hasm := find_leaf_assemble val ([] : List (Frame α)) (Tree.node v c l r)
    rw [hleaf] at hasm
    obtain ⟨seg, hseg, hroute⟩ := find_leaf_routing val ([] : List (Frame α)) (Tree.node v c l r)
    have hroute2 : ∀ g ∈ (find_leaf val [] (Tree.node v c l r)).1,
        (val ≤ g.val ∧ g.pos = LEFT) ∨ (¬val ≤ g.val ∧ g.pos = RIGHT) := by
      intro g hg
      rw [hseg] at hg
      simp at hg
      exact hroute g hg
    have hsort2 : List.Sorted (· ≤ ·)
        ((assemble (find_leaf val [] (Tree.node v c l r)).1
          (Tree.node lv lc ll lr)).inorder) := by
      rw [hasm]
      show List.Sorted (· ≤ ·) (Tree.node v c l r).inorder
      rw [← ht]
      exact h
    obtain ⟨hPre, hSuf⟩ := ctx_bounds val _ (Tree.node lv lc ll lr) hroute2 hsort2
    have hdecomp := inorder_assemble (find_leaf val [] (Tree.node v c l r)).1
      (Tree.node lv lc ll lr)
    have hsort3 := hsort2
    rw [hdecomp] at hsort3
    have hadd : (t.add val).root =
        ((assemble (add_and_fix val [] (Tree.node v c l r)).1
          (add_and_fix val [] (Tree.node v c l r)).2).setColor Color.Black) := by
      simp [RbTree.add, ht]
    rcases hside with ⟨hle, hnil⟩ | ⟨hle, hnil⟩
    · subst hnil
      have hfix : add_and_fix val [] (Tree.node v c l r) =
          fix_insert (⟨lv, lc, lr, LEFT⟩ :: (find_leaf val [] (Tree.node v c l r)).1)
            (Tree.node val Color.Red Tree.nil Tree.nil) := by
        rw [add_and_fix]
        rw [show (find_leaf val [] (Tree.node v c l r)) =
          ((find_leaf val [] (Tree.node v c l r)).1, Tree.node lv lc Tree.nil lr) from ?_]
        · simp only [if_pos hle]
        · rw [← hleaf]
      rw [hadd, inorder_setColor, hfix, fix_insert_inorder]
      show List.Sorted (· ≤ ·) (assemble _ (Frame.fill _ _)).inorder
      rw [inorder_assemble]
      have hm : (Frame.fill ⟨lv, lc, lr, LEFT⟩
          (Tree.node val Color.Red Tree.nil Tree.nil)).inorder =
          val :: (Tree.node lv lc Tree.nil lr).inorder := by
        simp [Frame.fill, LEFT, Tree.inorder]
      rw [hm]
      unfold List.Sorted at hsort3 ⊢
      rw [List.pairwise_append] at hsort3 ⊢
      rw [List.pairwise_append] at hsort3 ⊢
      obtain ⟨⟨sP, sM, hPM⟩, sS, hPMS⟩ := hsort3
      have hmid_all : ∀ x ∈ (Tree.node lv lc Tree.nil lr).inorder, val ≤ x := by
        intro x hx
        simp [Tree.inorder] at hx
        rcases hx with hx | hx
        · subst hx
          exact hle
        · have := List.pairwise_cons.mp sM
          exact le_trans hle (by simpa [Tree.inorder] using this.1 x (by simp [Tree.inorder, hx]))
      refine ⟨⟨sP, List.pairwise_cons.mpr ⟨hmid_all, sM⟩, ?_⟩, sS, ?_⟩
      · intro a ha b hb
        rcases List.mem_cons.mp hb with hb | hb
        · subst hb
          exact hPre a ha
        · exact hPM a ha b hb
      · intro a ha b hb
        rcases List.mem_append.mp ha with ha | ha
        · exact hPMS a (List.mem_append.mpr (Or.inl ha)) b hb
        · rcases List.mem_cons.mp ha with ha | ha
          · subst ha
            exact hSuf b hb
          · exact hPMS a (List.mem_append.mpr (Or.inr ha)) b hb
    · subst hnil
      have hfix : add_and_fix val [] (Tree.node v c l r) =
          fix_insert (⟨lv, lc, ll, RIGHT⟩ :: (find_leaf val [] (Tree.node v c l r)).1)
            (Tree.node val Color.Red Tree.nil Tree.nil) := by
        rw [add_and_fix]
        rw [show (find_leaf val [] (Tree.node v c l r)) =
          ((find_leaf val [] (Tree.node v c l r)).1, Tree.node lv lc ll Tree.nil) from ?_]
        · simp only [if_neg hle]
        · rw [← hleaf]
      rw [hadd, inorder_setColor, hfix, fix_insert_inorder]
      show List.Sorted (· ≤ ·) (assemble _ (Frame.fill _ _)).inorder
      rw [inorder_assemble]
      have hm : (Frame.fill ⟨lv, lc, ll, RIGHT⟩
          (Tree.node val Color.Red Tree.nil Tree.nil)).inorder =
          (Tree.node lv lc ll Tree.nil).inorder ++ [val] := by
        simp [Frame.fill, LEFT, RIGHT, Tree.inorder]
      rw [hm]
      unfold List.Sorted at hsort3 ⊢
      rw [List.pairwise_append] at hsort3 ⊢
      rw [List.pairwise_append] at hsort3 ⊢
      obtain ⟨⟨sP, sM, hPM⟩, sS, hPMS⟩ := hsort3
      have hmid_all : ∀ x ∈ (Tree.node lv lc ll Tree.nil).inorder, x ≤ val := by
        intro x hx
        simp [Tree.inorder] at hx
        rcases hx with hx | hx
        · have hx2 : x ∈ ll.inorder ++ lv :: Tree.nil.inorder := by
            simp [Tree.inorder, hx]
          have := (List.pairwise_append.mp sM).2.2 x hx lv (by simp)
          exact le_trans this (le_of_lt (lt_of_not_le hle))
        · subst hx
          exact le_of_lt (lt_of_not_le hle)
      refine ⟨⟨sP, ?_, ?_⟩, sS, ?_⟩
      · rw [List.pairwise_append]
        refine ⟨sM, by simp, ?_⟩
        intro a ha b hb
        simp at hb
        subst hb
        exact hmid_all a ha
      · intro a ha b hb
        rcases List.mem_append.mp hb with hb | hb
        · exact hPM a ha b hb
        · simp at hb
          subst hb
          exact hPre a ha
      · intro a ha b hb
        rcases List.mem_append.mp ha with ha | ha
        · exact hPMS a (List.mem_append.mpr (Or.inl ha)) b hb
        · rcases List.mem_append.mp ha with ha | ha
          · exact hPMS a (List.mem_append.mpr (Or.inr ha)) b hb
          · simp at ha
            subst ha
            exact hSuf b hb

/-- remove keeps the in-order traversal sorted. -/
theorem remove_sorted [LinearOrder α] (t : RbTree α) (val : α)
    (h : List.Sorted (· ≤ ·) t.root.inorder) :
    List.Sorted (· ≤ ·) (t.remove val).2.root.inorder := by
  rcases ht : t.root with _ | ⟨v, c, l, r⟩
  · have : t.remove val = (false, t) := by simp [RbTree.remove, ht]
    rw [this]
    exact h
  · rcases hf : find_node val [] t.root with _ | ⟨fs, foc⟩
    · have : t.remove val = (false, t) := by
        rw [RbTree.remove, ht]
        rw [ht] at hf
        simp [hf]
      rw [this]
      exact h
    · obtain ⟨_, _, ⟨A, B, hAB, hres⟩⟩ :=
        remove_found_split t val fs foc (by rw [ht]; simp) hf
      rw [hres]
      rw [hAB] at h
      have hsub : (A ++ B).Sublist (A ++ val :: B) :=
        List.Sublist.append (List.Sublist.refl A) (List.sublist_cons_self val B)
      exact List.Pairwise.sublist hsub h

/-- find_node succeeds on any value present in a sorted tree. -/
theorem find_node_found [LinearOrder α] (val : α) (t : Tree α) (frames : List (Frame α))
    (hsort : List.Sorted (· ≤ ·) t.inorder) (hmem : val ∈ t.inorder) :
    ∃ st, find_node val frames t = some st := by
  induction t generalizing frames with
  | nil => simp [Tree.inorder] at hmem
  | node v c l r ihl ihr =>
    by_cases heq : v = val
    · subst heq
      refine ⟨(frames, Tree.node v c l r), ?_⟩
      rw [find_node.eq_def]
      simp
    · have hsl : List.Sorted (· ≤ ·) l.inorder := by
        have : l.inorder.Sublist (Tree.node v c l r).inorder := by
          simp only [Tree.inorder]
          exact List.sublist_append_left _ _
        exact List.Pairwise.sublist this hsort
      have hsr : List.Sorted (· ≤ ·) r.inorder := by
        have : r.inorder.Sublist (Tree.node v c l r).inorder := by
          simp only [Tree.inorder]
          exact List.Sublist.trans (List.sublist_cons_self v r.inorder)
            (List.sublist_append_right _ _)
        exact List.Pairwise.sublist this hsort
      by_cases hlt : val < v
      · have hmem2 : val ∈ l.inorder := by
          simp [Tree.inorder] at hmem
          rcases hmem with hm | hm | hm
          · exact hm
          · exact absurd hm.symm heq
          · have : v ≤ val := by
              have := (List.pairwise_append.mp (by simpa [Tree.inorder] using hsort)).2.1
              exact (List.pairwise_cons.mp this).1 val hm
            exact absurd hlt (not_lt_of_le this)
        rcases hl : l with _ | ⟨lv, lc, ll, lr⟩
        · rw [hl] at hmem2
          simp [Tree.inorder] at hmem2
        · obtain ⟨st, hst⟩ := ihl (⟨v, c, r, LEFT⟩ :: frames) hsl hmem2
          refine ⟨st, ?_⟩
          rw [find_node.eq_def]
          simp only [if_neg heq, if_pos hlt, hl]
          rw [hl] at hst
          exact hst
      · have hmem2 : val ∈ r.inorder := by
          simp [Tree.inorder] at hmem
          rcases hmem with hm | hm | hm
          · have : val ≤ v := by
              have := (List.pairwise_append.mp (by simpa [Tree.inorder] using hsort)).2.2
              exact this val hm v (by simp)
            have hvv : val ≠ v := fun hh => heq hh.symm
            exact absurd (lt_of_le_of_ne this hvv) hlt
          · exact absurd hm.symm heq
          · exact hm
        rcases hr : r with _ | ⟨rv, rc, rl, rr⟩
        · rw [hr] at hmem2
          simp [Tree.inorder] at hmem2
        · obtain ⟨st, hst⟩ := ihr (⟨v, c, l, RIGHT⟩ :: frames) hsr hmem2
          refine ⟨st, ?_⟩
          rw [find_node.eq_def]
          simp only [if_neg heq, if_neg hlt, hr]
          rw [hr] at hst
          exact hst

/-! Soundness of the fuel-indexed mirrors. -/

theorem fix_removeFuel_sound (fuel : Nat) :
    ∀ (frames : List (Frame α)) (cur : Tree α) (sp : Fin 2) (t : Tree α),
      fix_removeFuel fuel frames cur sp = some t → fix_remove frames cur sp = t := by
  induction fuel with
  | zero =>
    intro frames cur sp t h
    simp [fix_removeFuel] at h
  | succ fuel ih =>
    intro frames cur sp t h
    rw [fix_removeFuel] at h
    rcases hs : fix_remove_step frames cur sp with s | u
    · rw [hs] at h
      rw [fix_remove_cont frames cur sp s hs]
      exact ih s.1 s.2.1 s.2.2 t h
    · rw [hs] at h
      injection h with h2
      rw [fix_remove_done frames cur sp u hs]
      exact h2

theorem extract_nodeFuel_sound (fuel : Nat) (frames : List (Frame α)) (cur : Tree α)
    (child : Fin 2) (t : Tree α) (h : extract_nodeFuel fuel frames cur child = some t) :
    extract_node frames cur child = t := by
  rcases cur with _ | ⟨v, c, l, r⟩
  · simp only [extract_nodeFuel] at h
    rw [extract_node]
    exact Option.some.inj h
  · rcases frames with _ | ⟨f, rest⟩
    · simp only [extract_nodeFuel] at h
      rw [extract_node]
      exact Option.some.inj h
    · simp only [extract_nodeFuel] at h
      rw [extract_node]
      rcases hcn : (Tree.node v c l r).child child with _ | ⟨cv, cc, cl, cr⟩ <;>
        simp only [hcn] at h ⊢
      · split at h
        · rename_i hc
          rw [if_pos hc]
          exact fix_removeFuel_sound fuel _ _ _ t h
        · rename_i hc
          rw [if_neg hc]
          exact Option.some.inj h
      · split at h
        · rename_i hc
          rw [if_pos hc]
          exact Option.some.inj h
        · rename_i hc
          rw [if_neg hc]
          exact fix_removeFuel_sound fuel _ _ _ t h

theorem remove_lastFuel_sound (fuel : Nat) :
    ∀ (frames : List (Frame α)) (cur : Tree α) (t : Tree α),
      remove_lastFuel fuel frames cur = some t → remove_last frames cur = t := by
  induction fuel with
  | zero =>
    intro frames cur t h
    simp [remove_lastFuel] at h
  | succ fuel ih =>
    intro frames cur t h
    rcases cur with _ | ⟨v, c, l, r⟩
    · rw [remove_lastFuel] at h
      rw [remove_last]
      exact Option.some.inj h
    · rcases l with _ | ⟨lv, lc, ll, lr⟩ <;> rcases r with _ | ⟨rv, rc, rl, rr⟩
      · rw [remove_lastFuel] at h
        rw [remove_last]
        exact extract_nodeFuel_sound fuel _ _ _ t h
      · rw [remove_lastFuel] at h
        rw [remove_last]
        exact extract_nodeFuel_sound fuel _ _ _ t h
      · rw [remove_lastFuel] at h
        rw [remove_last]
        exact extract_nodeFuel_sound fuel _ _ _ t h
      · rcases hm : find_min ([] : List (Frame α)) (Tree.node rv rc rl rr) with ⟨seg, m⟩
        rw [remove_lastFuel] at h
        rw [hm] at h
        rw [remove_last, hm]
        rcases m with _ | ⟨mv, mc, ml, mr⟩
        · exact Option.some.inj h
        · exact ih _ _ t h

theorem removeFuel_sound [LinearOrder α] (fuel : Nat) (t : RbTree α) (val : α)
    (p : Bool × RbTree α) (h : RbTree.removeFuel fuel t val = some p) :
    t.remove val = p := by
  rw [RbTree.removeFuel] at h
  rw [RbTree.remove]
  rcases hr : t.root with _ | ⟨v, c, l, r⟩
  · rw [hr] at h
    exact Option.some.inj h
  · rw [hr] at h
    rcases hf : find_node val ([] : List (Frame α)) (Tree.node v c l r) with _ | ⟨st⟩
    · simp only [hf] at h ⊢
      exact Option.some.inj h
    · simp only [hf] at h ⊢
      rcases hrl : remove_lastFuel fuel st.1 st.2 with _ | ⟨newRoot⟩
      · rw [hrl] at h
        exact Option.noConfusion h
      · rw [hrl] at h
        have h2 := Option.some.inj h
        rw [remove_lastFuel_sound fuel st.1 st.2 newRoot hrl]
        exact h2

/-- Evaluate remove through the fuel mirror: whenever the mirror finishes,
remove equals its result. -/
theorem remove_eval [LinearOrder α] (fuel : Nat) (t : RbTree α) (val : α)
    (d : Bool × RbTree α) (h : RbTree.removeFuel fuel t val ≠ none) :
    t.remove val = (RbTree.removeFuel fuel t val).getD d := by
  rcases hr : RbTree.removeFuel fuel t val with _ | ⟨p⟩
  · exact absurd hr h
  · simp only [Option.getD_some]
    exact removeFuel_sound fuel t val p hr

/-- Splitting a computed black height at a node. -/
theorem bh_node_some (v : α) (c : Color) (l r : Tree α) (n : Nat)
    (h : blackHeight? (Tree.node v c l r) = some n) :
    ∃ m, blackHeight? l = some m ∧ blackHeight? r = some m ∧
      n = m + (if c = Color.Black then 1 else 0) := by
  rw [blackHeight?] at h
  rcases hl : blackHeight? l with _ | m1 <;> rcases hr : blackHeight? r with _ | m2 <;>
    rw [hl, hr] at h
  · exact Option.noConfusion h
  · exact Option.noConfusion h
  · exact Option.noConfusion h
  · have h2 : (if m1 = m2 then some (m1 + if c = Color.Black then 1 else 0) else none) =
        some n := h
    by_cases he : m1 = m2
    · rw [if_pos he] at h2
      exact ⟨m1, rfl, by rw [he], (Option.some.inj h2).symm⟩
    · rw [if_neg he] at h2
      exact Option.noConfusion h2

/-- Assembling a black height at a node. -/
theorem bh_node_build (v : α) (c : Color) (l r : Tree α) (m : Nat)
    (hl : blackHeight? l = some m) (hr : blackHeight? r = some m) :
    blackHeight? (Tree.node v c l r) = some (m + (if c = Color.Black then 1 else 0)) := by
  rw [blackHeight?, hl, hr]
  simp

theorem color_black_of_ne_red (c : Color) (h : c ≠ Color.Red) : c = Color.Black := by
  cases c
  · exact absurd rfl h
  · rfl

theorem color_red_of_ne_black (c : Color) (h : c ≠ Color.Black) : c = Color.Red := by
  cases c
  · rfl
  · exact absurd rfl h

/-- Unfolding noRedRed at a node. -/
theorem nrr_node (v : α) (c : Color) (l r : Tree α) :
    noRedRed (Tree.node v c l r) = true ↔
      (c = Color.Red → l.color ≠ Color.Red ∧ r.color ≠ Color.Red) ∧
        noRedRed l = true ∧ noRedRed r = true := by
  rw [noRedRed]
  cases c <;> simp [and_assoc]

/-- On a subtree with no Red-Red violation and a uniform black height, the
source validator helper black_height succeeds and reports exactly that
height, whatever the level argument. -/
theorem black_height_ok [ToString α] (t : Tree α) (n : Nat)
    (hnr : noRedRed t = true) (hbh : blackHeight? t = some n) :
    ∀ level, black_height t level = Except.ok n := by
  induction t generalizing n with
  | nil =>
    intro level
    rw [blackHeight?] at hbh
    rw [black_height.eq_def, ← Option.some.inj hbh]
  | node v c l r ihl ihr =>
    intro level
    obtain ⟨m, hl, hr, hn⟩ := bh_node_some v c l r n hbh
    obtain ⟨hcc, hnl, hnr2⟩ := (nrr_node v c l r).mp hnr
    rcases l with _ | ⟨l1, l2, l3, l4⟩ <;> rcases r with _ | ⟨r1, r2, r3, r4⟩
    · rw [blackHeight?] at hl
      rw [black_height.eq_def]
      simp only [← Option.some.inj hl] at hn
      rcases c with _ | _ <;> simp_all
    · -- right child only: that child must be a Red singleton of height 0
      rw [blackHeight?] at hl
      have hm0 : m = 0 := (Option.some.inj hl).symm
      subst hm0
      have hr2 : r2 = Color.Red := by
        by_contra hh
        have hb := color_black_of_ne_red r2 hh
        subst hb
        obtain ⟨k, _, _, hk⟩ := bh_node_some r1 Color.Black r3 r4 0 hr
        simp at hk
      subst hr2
      have hc : c = Color.Black := by
        by_contra hh
        have hb := color_red_of_ne_black c (fun hb => hh hb)
        exact absurd rfl ((hcc (by exact hb)).2)
      subst hc
      rw [black_height.eq_def]
      simp [hn]
    · -- left child only: symmetric
      rw [blackHeight?] at hr
      have hm0 : m = 0 := (Option.some.inj hr).symm
      subst hm0
      have hl2 : l2 = Color.Red := by
        by_contra hh
        have hb := color_black_of_ne_red l2 hh
        subst hb
        obtain ⟨k, _, _, hk⟩ := bh_node_some l1 Color.Black l3 l4 0 hl
        simp at hk
      subst hl2
      have hc : c = Color.Black := by
        by_contra hh
        have hb := color_red_of_ne_black c (fun hb => hh hb)
        exact absurd rfl ((hcc (by exact hb)).1)
      subst hc
      rw [black_height.eq_def]
      simp [hn]
    · -- two children: the recursive branch of black_height
      rw [black_height.eq_def]
      simp only
      have hred : ¬(c = Color.Red ∧ (l2 = Color.Red ∨ r2 = Color.Red)) := by
        rintro ⟨hc, hlr⟩
        rcases hlr with hh | hh
        · exact (hcc hc).1 (by simp [Tree.color, hh])
        · exact (hcc hc).2 (by simp [Tree.color, hh])
      rw [if_neg hred]
      rw [ihl m hnl hl, ihr m hnr2 hr]
      simp only [if_pos rfl]
      rcases c with _ | _ <;> simp_all [Nat.add_comm]

/-! Preservation of the red-black invariants: shared machinery. -/

theorem nrr2_of_nrr (t : Tree α) (h : noRedRed t = true) : noRedRed2 t = true := by
  rcases t with _ | ⟨v, c, l, r⟩
  · rfl
  · obtain ⟨_, h1, h2⟩ := (nrr_node v c l r).mp h
    rw [noRedRed2]
    simp [h1, h2]

theorem nrr_setBlack (t : Tree α) (h : noRedRed t = true) :
    noRedRed (t.setColor Color.Black) = true := by
  rcases t with _ | ⟨v, c, l, r⟩
  · rfl
  · obtain ⟨_, h1, h2⟩ := (nrr_node v c l r).mp h
    rw [Tree.setColor]
    exact (nrr_node v Color.Black l r).mpr ⟨by simp, h1, h2⟩

theorem bh_setBlack (t : Tree α) (n : Nat) (h : blackHeight? t = some n) :
    ∃ m, blackHeight? (t.setColor Color.Black) = some m := by
  rcases t with _ | ⟨v, c, l, r⟩
  · exact ⟨0, rfl⟩
  · obtain ⟨m, hl, hr, _⟩ := bh_node_some v c l r n h
    refine ⟨m + 1, ?_⟩
    rw [Tree.setColor]
    simpa using bh_node_build v Color.Black l r m hl hr

theorem color_fill (f : Frame α) (t : Tree α) : (f.fill t).color = f.color := by
  rw [Frame.fill]
  split <;> rfl

theorem bh_fill (f : Frame α) (t : Tree α) (n : Nat)
    (ht : blackHeight? t = some n) (ho : blackHeight? f.other = some n) :
    blackHeight? (f.fill t) = some (n + frameBump f) := by
  rw [Frame.fill, frameBump]
  split
  · exact bh_node_build f.val f.color t f.other n ht ho
  · exact bh_node_build f.val f.color f.other t n ho ht

theorem nrr_fill (f : Frame α) (t : Tree α)
    (ht : noRedRed t = true) (ho : noRedRed f.other = true)
    (hc : f.color = Color.Red → t.color ≠ Color.Red ∧ f.other.color ≠ Color.Red) :
    noRedRed (f.fill t) = true := by
  rw [Frame.fill]
  split
  · exact (nrr_node _ _ _ _).mpr ⟨fun hr => ⟨(hc hr).1, (hc hr).2⟩, ht, ho⟩
  · exact (nrr_node _ _ _ _).mpr ⟨fun hr => ⟨(hc hr).2, (hc hr).1⟩, ho, ht⟩

theorem lastColor_cons (f g : Frame α) (rest : List (Frame α)) :
    lastColor (f :: g :: rest) = lastColor (g :: rest) := rfl

theorem lastBlack_pop (f : Frame α) (rest : List (Frame α)) (cur t : Tree α)
    (h : lastBlack (f :: rest) cur) : lastBlack rest (f.fill t) := by
  rcases rest with _ | ⟨g, rest⟩
  · have h2 : lastColor [f] = Color.Black := h
    rw [show lastColor [f] = f.color from rfl] at h2
    show (f.fill t).color ≠ Color.Red
    rw [color_fill, h2]
    simp
  · show lastColor (g :: rest) = Color.Black
    rw [← lastColor_cons f g rest]
    exact h

theorem rootBlack_assemble (frames : List (Frame α)) :
    ∀ cur : Tree α, lastBlack frames cur → rootBlack (assemble frames cur) = true := by
  induction frames with
  | nil =>
    intro cur h
    rw [assemble]
    rcases cur with _ | ⟨v, c, l, r⟩
    · rfl
    · rw [lastBlack] at h
      rw [rootBlack]
      simp [color_black_of_ne_red c (by simpa [Tree.color] using h)]
  | cons f rest ih =>
    intro cur h
    rw [assemble]
    exact ih (f.fill cur) (lastBlack_pop f rest cur cur h)

/-- Assembling an internally clean focus of the right black-height into a
valid context yields a tree with no Red-Red violation and a well-defined
black height. -/
theorem assemble_valid (frames : List (Frame α)) :
    ∀ (cur : Tree α) (n : Nat), ctxOK frames n → noRedRed cur = true →
      blackHeight? cur = some n →
      (cur.color = Color.Red → headColorB frames = Color.Black) →
      noRedRed (assemble frames cur) = true ∧
        ∃ m, blackHeight? (assemble frames cur) = some m := by
  induction frames with
  | nil =>
    intro cur n _ hnr hbh _
    exact ⟨hnr, n, hbh⟩
  | cons f rest ih =>
    intro cur n hctx hnr hbh hred
    obtain ⟨ho1, ho2, ho3, ho4⟩ := hctx
    rw [assemble]
    apply ih (f.fill cur) (n + frameBump f) ho4
    · apply nrr_fill f cur hnr ho1
      intro hr
      refine ⟨?_, (ho3 hr).1⟩
      intro hcur
      have hh := hred hcur
      rw [headColorB] at hh
      rw [hr] at hh
      exact Color.noConfusion hh
    · exact bh_fill f cur n hbh ho2
    · intro hcol
      rw [color_fill] at hcol
      exact (ho3 hcol).2

theorem RBValid_intro (t : Tree α) (h1 : rootBlack t = true) (h2 : noRedRed t = true)
    (h3 : ∃ m, blackHeight? t = some m) : RBValid t = true := by
  obtain ⟨m, hm⟩ := h3
  rw [RBValid, h1, h2, hm]
  rfl

theorem valid_setBlack (t : Tree α) (h2 : noRedRed2 t = true)
    (h3 : ∃ m, blackHeight? t = some m) : RBValid (t.setColor Color.Black) = true := by
  obtain ⟨m, hm⟩ := h3
  rcases t with _ | ⟨v, c, l, r⟩
  · rfl
  · obtain ⟨mm, hl, hr, _⟩ := bh_node_some v c l r m hm
    rw [Tree.setColor]
    apply RBValid_intro
    · rfl
    · rw [noRedRed2] at h2
      simp only [Bool.and_eq_true] at h2
      exact (nrr_node _ _ _ _).mpr ⟨by simp, h2.1, h2.2⟩
    · refine ⟨mm + 1, ?_⟩
      simpa using bh_node_build v Color.Black l r mm hl hr

theorem bh_node_red (v : α) (l r : Tree α) {m : Nat}
    (hl : blackHeight? l = some m) (hr : blackHeight? r = some m) :
    blackHeight? (Tree.node v Color.Red l r) = some m := by
  simpa using bh_node_build v Color.Red l r m hl hr

theorem bh_node_black (v : α) (l r : Tree α) {m : Nat}
    (hl : blackHeight? l = some m) (hr : blackHeight? r = some m) :
    blackHeight? (Tree.node v Color.Black l r) = some (m + 1) := by
  simpa using bh_node_build v Color.Black l r m hl hr

theorem nrr_node_black (v : α) (l r : Tree α)
    (hl : noRedRed l = true) (hr : noRedRed r = true) :
    noRedRed (Tree.node v Color.Black l r) = true :=
  (nrr_node v Color.Black l r).mpr ⟨by simp, hl, hr⟩

theorem nrr_node_red (v : α) (l r : Tree α)
    (hl : noRedRed l = true) (hr : noRedRed r = true)
    (hcl : l.color ≠ Color.Red) (hcr : r.color ≠ Color.Red) :
    noRedRed (Tree.node v Color.Red l r) = true :=
  (nrr_node v Color.Red l r).mpr ⟨fun _ => ⟨hcl, hcr⟩, hl, hr⟩

theorem nrr_children (v : α) (c : Color) (l r : Tree α)
    (h : noRedRed (Tree.node v c l r) = true) :
    noRedRed l = true ∧ noRedRed r = true :=
  ⟨((nrr_node v c l r).mp h).2.1, ((nrr_node v c l r).mp h).2.2⟩

theorem nrr_red_children (v : α) (l r : Tree α)
    (h : noRedRed (Tree.node v Color.Red l r) = true) :
    l.color ≠ Color.Red ∧ r.color ≠ Color.Red :=
  ((nrr_node v Color.Red l r).mp h).1 rfl

/-- The invariant argument of the insertion fix-up: from a Red, internally
clean focus of uniform black-height inside a valid context (the one possible
Red-Red pair sitting between the focus root and the innermost frame),
fix_insert reaches a state whose reassembly has a well-defined black height
and no Red-Red pair except possibly at the root. -/
theorem fix_insert_ok (frames : List (Frame α)) (cur : Tree α) :
    ∀ n : Nat, InsInv frames cur n →
      noRedRed2 (assemble (fix_insert frames cur).1 (fix_insert frames cur).2) = true ∧
        ∃ m, blackHeight? (assemble (fix_insert frames cur).1
          (fix_insert frames cur).2) = some m := by
  induction frames, cur using fix_insert.induct with
  | case1 cur =>
    intro n hInv
    obtain ⟨hc, hnr, hbh, hctx⟩ := hInv
    rw [fix_insert]
    exact ⟨nrr2_of_nrr cur hnr, n, hbh⟩
  | case2 f cur =>
    intro n hInv
    obtain ⟨hc, hnr, hbh, hctx⟩ := hInv
    obtain ⟨ho1, ho2, ho3, _⟩ := hctx
    rw [fix_insert]
    constructor
    · show noRedRed2 (f.fill cur) = true
      rw [Frame.fill]
      split <;> (rw [noRedRed2]; simp [hnr, ho1])
    · exact ⟨n + frameBump f, bh_fill f cur n hbh ho2⟩
  | case3 fn_ fp rest cur hb =>
    intro n hInv
    obtain ⟨hc, hnr, hbh, hctx⟩ := hInv
    obtain ⟨hn1, hn2, hn3, hctx2⟩ := hctx
    obtain ⟨hp1, hp2, hp3, hctx3⟩ := hctx2
    rw [fix_insert]
    simp only [if_pos hb]
    have h1 : noRedRed (fn_.fill cur) = true := by
      apply nrr_fill fn_ cur hnr hn1
      intro hr
      rw [hb] at hr
      exact Color.noConfusion hr
    have h2 : blackHeight? (fn_.fill cur) = some (n + frameBump fn_) :=
      bh_fill fn_ cur n hbh hn2
    have h3 : noRedRed (fp.fill (fn_.fill cur)) = true := by
      apply nrr_fill fp _ h1 hp1
      intro hr
      refine ⟨?_, (hp3 hr).1⟩
      rw [color_fill, hb]
      simp
    have h4 : blackHeight? (fp.fill (fn_.fill cur)) =
        some (n + frameBump fn_ + frameBump fp) :=
      bh_fill fp _ _ h2 hp2
    have h5 := assemble_valid rest (fp.fill (fn_.fill cur)) _ hctx3 h3 h4
      (by
        intro hcol
        rw [color_fill] at hcol
        exact (hp3 hcol).2)
    exact ⟨nrr2_of_nrr _ h5.1, h5.2⟩
  | case4 fn_ fp rest cur hb uv ul ur hu ih =>
    intro n hInv
    obtain ⟨hc, hnr, hbh, hctx⟩ := hInv
    obtain ⟨hn1, hn2, hn3, hctx2⟩ := hctx
    obtain ⟨hp1, hp2, hp3, hctx3⟩ := hctx2
    have hfred : fn_.color = Color.Red := color_red_of_ne_black _ hb
    have hfacts := hn3 hfred
    have hfpb : fp.color = Color.Black := hfacts.2
    have hbn : frameBump fn_ = 0 := by simp [frameBump, hfred]
    have hbp : frameBump fp = 1 := by simp [frameBump, hfpb]
    rw [fix_insert]
    simp only [if_neg hb, hu]
    -- the recursive call on the recolored grandparent
    rw [hu] at hp1 hp2
    rw [hbn] at hp2
    simp only [Nat.add_zero] at hp2
    obtain ⟨k, hk1, hk2, hk3⟩ := bh_node_some uv Color.Red ul ur n hp2
    simp at hk3
    subst hk3
    have huncB : blackHeight? (Tree.node uv Color.Black ul ur) = some (n + 1) :=
      bh_node_black uv ul ur hk1 hk2
    have huncBn : noRedRed (Tree.node uv Color.Black ul ur) = true :=
      nrr_node_black uv ul ur (nrr_children uv Color.Red ul ur hp1).1
        (nrr_children uv Color.Red ul ur hp1).2
    have hinner : noRedRed
        (Frame.fill ⟨fn_.val, Color.Black, fn_.other, fn_.pos⟩ cur) = true := by
      apply nrr_fill ⟨fn_.val, Color.Black, fn_.other, fn_.pos⟩ cur hnr hn1
      intro hr
      exact absurd hr (by simp)
    have hinnerBH : blackHeight?
        (Frame.fill ⟨fn_.val, Color.Black, fn_.other, fn_.pos⟩ cur) = some (n + 1) := by
      have := bh_fill ⟨fn_.val, Color.Black, fn_.other, fn_.pos⟩ cur n hbh hn2
      simpa [frameBump] using this
    apply ih
    refine ⟨by rw [color_fill], ?_, ?_, ?_⟩
    · apply nrr_fill ⟨fp.val, Color.Red, Tree.node uv Color.Black ul ur, fp.pos⟩ _
        hinner huncBn
      intro _
      constructor
      · rw [color_fill]
        simp
      · simp [Tree.color]
    · have := bh_fill ⟨fp.val, Color.Red, Tree.node uv Color.Black ul ur, fp.pos⟩
        (Frame.fill ⟨fn_.val, Color.Black, fn_.other, fn_.pos⟩ cur) (n + 1)
        hinnerBH huncB
      simpa [frameBump] using this
    · have := hctx3
      rw [hbn, hbp] at this
      simpa using this
  | case5 fn_ fp rest cur hb hp hn hu =>
    intro n hInv
    obtain ⟨hc, hnr, hbh, hctx⟩ := hInv
    obtain ⟨hn1, hn2, hn3, hctx2⟩ := hctx
    obtain ⟨hp1, hp2, hp3, hctx3⟩ := hctx2
    have hfred : fn_.color = Color.Red := color_red_of_ne_black _ hb
    have hfacts := hn3 hfred
    have hfpb : fp.color = Color.Black := hfacts.2
    have hbn : frameBump fn_ = 0 := by simp [frameBump, hfred]
    have hbp : frameBump fp = 1 := by simp [frameBump, hfpb]
    rw [hbn] at hp2
    simp only [Nat.add_zero] at hp2
    have hctx4 : ctxOK rest (n + 1) := by
      have := hctx3
      rw [hbn, hbp] at this
      simpa using this
    rw [fix_insert]
    simp only [if_neg hb]
    rcases hfo : fp.other with _ | ⟨uv, uc, ul, ur⟩
    · rw [hfo] at hp1 hp2
      simp only [if_pos hp, if_pos hn]
      have hT : rotate_left rest
          (Frame.fill ⟨fp.val, Color.Red, Tree.nil, fp.pos⟩
            (Frame.fill ⟨fn_.val, Color.Black, fn_.other, fn_.pos⟩ cur)) =
          (rest, Tree.node fn_.val Color.Black
            (Tree.node fp.val Color.Red Tree.nil fn_.other) cur) := by
        simp [rotate_left, Frame.fill, hp, hn, rotl]
      rw [hT]
      have hnrT : noRedRed (Tree.node fn_.val Color.Black
          (Tree.node fp.val Color.Red Tree.nil fn_.other) cur) = true := by
        apply nrr_node_black
        · exact nrr_node_red fp.val Tree.nil fn_.other rfl hn1 (by simp [Tree.color])
            (hfacts.1)
        · exact hnr
      have hbhT : blackHeight? (Tree.node fn_.val Color.Black
          (Tree.node fp.val Color.Red Tree.nil fn_.other) cur) = some (n + 1) := by
        apply bh_node_black
        · apply bh_node_red
          · rw [blackHeight?] at hp2
            rw [blackHeight?]
            exact hp2
          · exact hn2
        · exact hbh
      have h5 := assemble_valid rest _ (n + 1) hctx4 hnrT hbhT
        (by
          intro hh
          simp [Tree.color] at hh)
      exact ⟨nrr2_of_nrr _ h5.1, h5.2⟩
    · rw [hfo] at hp1 hp2
      cases uc
      · exact absurd hfo (hu uv ul ur)
      · simp only [if_pos hp, if_pos hn]
        have hT : rotate_left rest
            (Frame.fill ⟨fp.val, Color.Red, Tree.node uv Color.Black ul ur, fp.pos⟩
              (Frame.fill ⟨fn_.val, Color.Black, fn_.other, fn_.pos⟩ cur)) =
            (rest, Tree.node fn_.val Color.Black
              (Tree.node fp.val Color.Red (Tree.node uv Color.Black ul ur) fn_.other)
              cur) := by
          simp [rotate_left, Frame.fill, hp, hn, rotl]
        rw [hT]
        have hnrT : noRedRed (Tree.node fn_.val Color.Black
            (Tree.node fp.val Color.Red (Tree.node uv Color.Black ul ur) fn_.other)
            cur) = true := by
          apply nrr_node_black
          · exact nrr_node_red fp.val _ fn_.other hp1 hn1 (by simp [Tree.color])
              (hfacts.1)
          · exact hnr
        have hbhT : blackHeight? (Tree.node fn_.val Color.Black
            (Tree.node fp.val Color.Red (Tree.node uv Color.Black ul ur) fn_.other)
            cur) = some (n + 1) := by
          apply bh_node_black
          · exact bh_node_red fp.val _ fn_.other hp2 hn2
          · exact hbh
        have h5 := assemble_valid rest _ (n + 1) hctx4 hnrT hbhT
          (by
            intro hh
            simp [Tree.color] at hh)
        exact ⟨nrr2_of_nrr _ h5.1, h5.2⟩
  | case6 fn_ fp rest cur hb hp hn hu =>
    intro n hInv
    obtain ⟨hc, hnr, hbh, hctx⟩ := hInv
    obtain ⟨hn1, hn2, hn3, hctx2⟩ := hctx
    obtain ⟨hp1, hp2, hp3, hctx3⟩ := hctx2
    have hfred : fn_.color = Color.Red := color_red_of_ne_black _ hb
    have hfacts := hn3 hfred
    have hfpb : fp.color = Color.Black := hfacts.2
    have hbn : frameBump fn_ = 0 := by simp [frameBump, hfred]
    have hbp : frameBump fp = 1 := by simp [frameBump, hfpb]
    rw [hbn] at hp2
    simp only [Nat.add_zero] at hp2
    have hctx4 : ctxOK rest (n + 1) := by
      have := hctx3
      rw [hbn, hbp] at this
      simpa using this
    have hnl : fn_.pos = LEFT := by
      rcases pos_cases fn_.pos with hh | hh
      · exact hh
      · exact absurd hh hn
    rcases cur with _ | ⟨cv, cc, cl, cr⟩
    · exact absurd hc (by simp [Tree.color])
    · have hcc : cc = Color.Red := hc
      subst hcc
      obtain ⟨hclc, hcrc⟩ := nrr_red_children cv cl cr hnr
      obtain ⟨hcl2, hcr2⟩ := nrr_children cv Color.Red cl cr hnr
      obtain ⟨k, hk1, hk2, hk3⟩ := bh_node_some cv Color.Red cl cr n hbh
      simp at hk3
      subst hk3
      rw [fix_insert]
      simp only [if_neg hb]
      rcases hfo : fp.other with _ | ⟨uv, uc, ul, ur⟩
      · rw [hfo] at hp1 hp2
        simp only [if_pos hp, if_neg hn]
        have hT : rotate_left rest
            (Frame.fill ⟨fp.val, Color.Red, Tree.nil, fp.pos⟩
              (rotr (fn_.fill ((Tree.node cv Color.Red cl cr).setColor Color.Black)))) =
            (rest, Tree.node cv Color.Black
              (Tree.node fp.val Color.Red Tree.nil cl)
              (Tree.node fn_.val Color.Red cr fn_.other)) := by
          simp [rotate_left, Frame.fill, hp, hnl, rotl, rotr, Tree.setColor, hfred]
        rw [hT]
        have hnrT : noRedRed (Tree.node cv Color.Black
            (Tree.node fp.val Color.Red Tree.nil cl)
            (Tree.node fn_.val Color.Red cr fn_.other)) = true := by
          apply nrr_node_black
          · exact nrr_node_red fp.val Tree.nil cl rfl hcl2 (by simp [Tree.color]) hclc
          · exact nrr_node_red fn_.val cr fn_.other hcr2 hn1 hcrc hfacts.1
        have hbhT : blackHeight? (Tree.node cv Color.Black
            (Tree.node fp.val Color.Red Tree.nil cl)
            (Tree.node fn_.val Color.Red cr fn_.other)) = some (n + 1) := by
          apply bh_node_black
          · apply bh_node_red
            · rw [blackHeight?] at hp2
              rw [blackHeight?]
              exact hp2
            · exact hk1
          · exact bh_node_red fn_.val cr fn_.other hk2 hn2
        have h5 := assemble_valid rest _ (n + 1) hctx4 hnrT hbhT
          (by
            intro hh
            simp [Tree.color] at hh)
        exact ⟨nrr2_of_nrr _ h5.1, h5.2⟩
      · rw [hfo] at hp1 hp2
        cases uc
        · exact absurd hfo (hu uv ul ur)
        · simp only [if_pos hp, if_neg hn]
          have hT : rotate_left rest
              (Frame.fill ⟨fp.val, Color.Red, Tree.node uv Color.Black ul ur, fp.pos⟩
                (rotr (fn_.fill ((Tree.node cv Color.Red cl cr).setColor Color.Black)))) =
              (rest, Tree.node cv Color.Black
                (Tree.node fp.val Color.Red (Tree.node uv Color.Black ul ur) cl)
                (Tree.node fn_.val Color.Red cr fn_.other)) := by
            simp [rotate_left, Frame.fill, hp, hnl, rotl, rotr, Tree.setColor, hfred]
          rw [hT]
          have hnrT : noRedRed (Tree.node cv Color.Black
              (Tree.node fp.val Color.Red (Tree.node uv Color.Black ul ur) cl)
              (Tree.node fn_.val Color.Red cr fn_.other)) = true := by
            apply nrr_node_black
            · exact nrr_node_red fp.val _ cl hp1 hcl2 (by simp [Tree.color]) hclc
            · exact nrr_node_red fn_.val cr fn_.other hcr2 hn1 hcrc hfacts.1
          have hbhT : blackHeight? (Tree.node cv Color.Black
              (Tree.node fp.val Color.Red (Tree.node uv Color.Black ul ur) cl)
              (Tree.node fn_.val Color.Red cr fn_.other)) = some (n + 1) := by
            apply bh_node_black
            · exact bh_node_red fp.val _ cl hp2 hk1
            · exact bh_node_red fn_.val cr fn_.other hk2 hn2
          have h5 := assemble_valid rest _ (n + 1) hctx4 hnrT hbhT
            (by
              intro hh
              simp [Tree.color] at hh)
          exact ⟨nrr2_of_nrr _ h5.1, h5.2⟩
  | case7 fn_ fp rest cur hb hp hn hu =>
    intro n hInv
    obtain ⟨hc, hnr, hbh, hctx⟩ := hInv
    obtain ⟨hn1, hn2, hn3, hctx2⟩ := hctx
    obtain ⟨hp1, hp2, hp3, hctx3⟩ := hctx2
    have hfred : fn_.color = Color.Red := color_red_of_ne_black _ hb
    have hfacts := hn3 hfred
    have hfpb : fp.color = Color.Black := hfacts.2
    have hbn : frameBump fn_ = 0 := by simp [frameBump, hfred]
    have hbp : frameBump fp = 1 := by simp [frameBump, hfpb]
    rw [hbn] at hp2
    simp only [Nat.add_zero] at hp2
    have hctx4 : ctxOK rest (n + 1) := by
      have := hctx3
      rw [hbn, hbp] at this
      simpa using this
    have hppl : fp.pos = LEFT := by
      rcases pos_cases fp.pos with hh | hh
      · exact hh
      · exact absurd hh hp
    rw [fix_insert]
    simp only [if_neg hb]
    rcases hfo : fp.other with _ | ⟨uv, uc, ul, ur⟩
    · rw [hfo] at hp1 hp2
      simp only [if_neg hp, if_pos hn]
      have hT : rotate_right rest
          (Frame.fill ⟨fp.val, Color.Red, Tree.nil, fp.pos⟩
            (Frame.fill ⟨fn_.val, Color.Black, fn_.other, fn_.pos⟩ cur)) =
          (rest, Tree.node fn_.val Color.Black cur
            (Tree.node fp.val Color.Red fn_.other Tree.nil)) := by
        simp [rotate_right, Frame.fill, hppl, hn, rotr]
      rw [hT]
      have hnrT : noRedRed (Tree.node fn_.val Color.Black cur
          (Tree.node fp.val Color.Red fn_.other Tree.nil)) = true := by
        apply nrr_node_black
        · exact hnr
        · exact nrr_node_red fp.val fn_.other Tree.nil hn1 rfl hfacts.1
            (by simp [Tree.color])
      have hbhT : blackHeight? (Tree.node fn_.val Color.Black cur
          (Tree.node fp.val Color.Red fn_.other Tree.nil)) = some (n + 1) := by
        apply bh_node_black
        · exact hbh
        · apply bh_node_red
          · exact hn2
          · rw [blackHeight?] at hp2
            rw [blackHeight?]
            exact hp2
      have h5 := assemble_valid rest _ (n + 1) hctx4 hnrT hbhT
        (by
          intro hh
          simp [Tree.color] at hh)
      exact ⟨nrr2_of_nrr _ h5.1, h5.2⟩
    · rw [hfo] at hp1 hp2
      cases uc
      · exact absurd hfo (hu uv ul ur)
      · simp only [if_neg hp, if_pos hn]
        have hT : rotate_right rest
            (Frame.fill ⟨fp.val, Color.Red, Tree.node uv Color.Black ul ur, fp.pos⟩
              (Frame.fill ⟨fn_.val, Color.Black, fn_.other, fn_.pos⟩ cur)) =
            (rest, Tree.node fn_.val Color.Black cur
              (Tree.node fp.val Color.Red fn_.other (Tree.node uv Color.Black ul ur))) := by
          simp [rotate_right, Frame.fill, hppl, hn, rotr]
        rw [hT]
        have hnrT : noRedRed (Tree.node fn_.val Color.Black cur
            (Tree.node fp.val Color.Red fn_.other (Tree.node uv Color.Black ul ur))) =
            true := by
          apply nrr_node_black
          · exact hnr
          · exact nrr_node_red fp.val fn_.other _ hn1 hp1 hfacts.1 (by simp [Tree.color])
        have hbhT : blackHeight? (Tree.node fn_.val Color.Black cur
            (Tree.node fp.val Color.Red fn_.other (Tree.node uv Color.Black ul ur))) =
            some (n + 1) := by
          apply bh_node_black
          · exact hbh
          · exact bh_node_red fp.val fn_.other _ hn2 hp2
        have h5 := assemble_valid rest _ (n + 1) hctx4 hnrT hbhT
          (by
            intro hh
            simp [Tree.color] at hh)
        exact ⟨nrr2_of_nrr _ h5.1, h5.2⟩
  | case8 fn_ fp rest cur hb hp hn hu =>
    intro n hInv
    obtain ⟨hc, hnr, hbh, hctx⟩ := hInv
    obtain ⟨hn1, hn2, hn3, hctx2⟩ := hctx
    obtain ⟨hp1, hp2, hp3, hctx3⟩ := hctx2
    have hfred : fn_.color = Color.Red := color_red_of_ne_black _ hb
    have hfacts := hn3 hfred
    have hfpb : fp.color = Color.Black := hfacts.2
    have hbn : frameBump fn_ = 0 := by simp [frameBump, hfred]
    have hbp : frameBump fp = 1 := by simp [frameBump, hfpb]
    rw [hbn] at hp2
    simp only [Nat.add_zero] at hp2
    have hctx4 : ctxOK rest (n + 1) := by
      have := hctx3
      rw [hbn, hbp] at this
      simpa using this
    have hppl : fp.pos = LEFT := by
      rcases pos_cases fp.pos with hh | hh
      · exact hh
      · exact absurd hh hp
    have hnr2 : fn_.pos = RIGHT := by
      rcases pos_cases fn_.pos with hh | hh
      · exact absurd hh hn
      · exact hh
    rcases cur with _ | ⟨cv, cc, cl, cr⟩
    · exact absurd hc (by simp [Tree.color])
    · have hcc : cc = Color.Red := hc
      subst hcc
      obtain ⟨hclc, hcrc⟩ := nrr_red_children cv cl cr hnr
      obtain ⟨hcl2, hcr2⟩ := nrr_children cv Color.Red cl cr hnr
      obtain ⟨k, hk1, hk2, hk3⟩ := bh_node_some cv Color.Red cl cr n hbh
      simp at hk3
      subst hk3
      rw [fix_insert]
      simp only [if_neg hb]
      rcases hfo : fp.other with _ | ⟨uv, uc, ul, ur⟩
      · rw [hfo] at hp1 hp2
        simp only [if_neg hp, if_neg hn]
        have hT : rotate_right rest
            (Frame.fill ⟨fp.val, Color.Red, Tree.nil, fp.pos⟩
              (rotl (fn_.fill ((Tree.node cv Color.Red cl cr).setColor Color.Black)))) =
            (rest, Tree.node cv Color.Black
              (Tree.node fn_.val Color.Red fn_.other cl)
              (Tree.node fp.val Color.Red cr Tree.nil)) := by
          simp [rotate_right, Frame.fill, hppl, hnr2, rotl, rotr, Tree.setColor, hfred]
        rw [hT]
        have hnrT : noRedRed (Tree.node cv Color.Black
            (Tree.node fn_.val Color.Red fn_.other cl)
            (Tree.node fp.val Color.Red cr Tree.nil)) = true := by
          apply nrr_node_black
          · exact nrr_node_red fn_.val fn_.other cl hn1 hcl2 hfacts.1 hclc
          · exact nrr_node_red fp.val cr Tree.nil hcr2 rfl hcrc (by simp [Tree.color])
        have hbhT : blackHeight? (Tree.node cv Color.Black
            (Tree.node fn_.val Color.Red fn_.other cl)
            (Tree.node fp.val Color.Red cr Tree.nil)) = some (n + 1) := by
          apply bh_node_black
          · exact bh_node_red fn_.val fn_.other cl hn2 hk1
          · apply bh_node_red
            · exact hk2
            · rw [blackHeight?] at hp2
              rw [blackHeight?]
              exact hp2
        have h5 := assemble_valid rest _ (n + 1) hctx4 hnrT hbhT
          (by
            intro hh
            simp [Tree.color] at hh)
        exact ⟨nrr2_of_nrr _ h5.1, h5.2⟩
      · rw [hfo] at hp1 hp2
        cases uc
        · exact absurd hfo (hu uv ul ur)
        · simp only [if_neg hp, if_neg hn]
          have hT : rotate_right rest
              (Frame.fill ⟨fp.val, Color.Red, Tree.node uv Color.Black ul ur, fp.pos⟩
                (rotl (fn_.fill ((Tree.node cv Color.Red cl cr).setColor Color.Black)))) =
              (rest, Tree.node cv Color.Black
                (Tree.node fn_.val Color.Red fn_.other cl)
                (Tree.node fp.val Color.Red cr (Tree.node uv Color.Black ul ur))) := by
            simp [rotate_right, Frame.fill, hppl, hnr2, rotl, rotr, Tree.setColor, hfred]
          rw [hT]
          have hnrT : noRedRed (Tree.node cv Color.Black
              (Tree.node fn_.val Color.Red fn_.other cl)
              (Tree.node fp.val Color.Red cr (Tree.node uv Color.Black ul ur))) = true := by
            apply nrr_node_black
            · exact nrr_node_red fn_.val fn_.other cl hn1 hcl2 hfacts.1 hclc
            · exact nrr_node_red fp.val cr _ hcr2 hp1 hcrc (by simp [Tree.color])
          have hbhT : blackHeight? (Tree.node cv Color.Black
              (Tree.node fn_.val Color.Red fn_.other cl)
              (Tree.node fp.val Color.Red cr (Tree.node uv Color.Black ul ur))) =
              some (n + 1) := by
            apply bh_node_black
            · exact bh_node_red fn_.val fn_.other cl hn2 hk1
            · exact bh_node_red fp.val cr _ hk2 hp2
          have h5 := assemble_valid rest _ (n + 1) hctx4 hnrT hbhT
            (by
              intro hh
              simp [Tree.color] at hh)
          exact ⟨nrr2_of_nrr _ h5.1, h5.2⟩

/-- Descending into the left child preserves the zipper invariant. -/
theorem zip_push_left (frames : List (Frame α)) (v : α) (c : Color) (l r : Tree α)
    (n : Nat) (h : ZipOK frames (Tree.node v c l r) n) :
    ∃ m, ZipOK (⟨v, c, r, LEFT⟩ :: frames) l m := by
  obtain ⟨hctx, hnr, hbh, hred⟩ := h
  obtain ⟨m, hl, hr, hn⟩ := bh_node_some v c l r n hbh
  obtain ⟨hcc, hnl, hnr2⟩ := (nrr_node v c l r).mp hnr
  refine ⟨m, ⟨hnr2, hr, ?_, ?_⟩, hnl, hl, ?_⟩
  · intro hcr
    exact ⟨(hcc hcr).2, hred hcr⟩
  · show ctxOK frames (m + frameBump (⟨v, c, r, LEFT⟩ : Frame α))
    rw [show frameBump (⟨v, c, r, LEFT⟩ : Frame α) =
      (if c = Color.Black then 1 else 0) from rfl]
    rw [← hn]
    exact hctx
  · intro hlr
    show headColorB (⟨v, c, r, LEFT⟩ :: frames) = Color.Black
    exact color_black_of_ne_red c (fun hcr => (hcc hcr).1 hlr)

/-- Descending into the right child preserves the zipper invariant. -/
theorem zip_push_right (frames : List (Frame α)) (v : α) (c : Color) (l r : Tree α)
    (n : Nat) (h : ZipOK frames (Tree.node v c l r) n) :
    ∃ m, ZipOK (⟨v, c, l, RIGHT⟩ :: frames) r m := by
  obtain ⟨hctx, hnr, hbh, hred⟩ := h
  obtain ⟨m, hl, hr, hn⟩ := bh_node_some v c l r n hbh
  obtain ⟨hcc, hnl, hnr2⟩ := (nrr_node v c l r).mp hnr
  refine ⟨m, ⟨hnl, hl, ?_, ?_⟩, hnr2, hr, ?_⟩
  · intro hcr
    exact ⟨(hcc hcr).1, hred hcr⟩
  · show ctxOK frames (m + frameBump (⟨v, c, l, RIGHT⟩ : Frame α))
    rw [show frameBump (⟨v, c, l, RIGHT⟩ : Frame α) =
      (if c = Color.Black then 1 else 0) from rfl]
    rw [← hn]
    exact hctx
  · intro hrr
    show headColorB (⟨v, c, l, RIGHT⟩ :: frames) = Color.Black
    exact color_black_of_ne_red c (fun hcr => (hcc hcr).2 hrr)

/-- The insertion descent preserves the zipper invariant. -/
theorem find_leaf_zip [LinearOrder α] (val : α) (frames : List (Frame α)) (t : Tree α) :
    ∀ n, ZipOK frames t n → t ≠ Tree.nil →
      ∃ m, ZipOK (find_leaf val frames t).1 (find_leaf val frames t).2 m := by
  induction frames, t using find_leaf.induct val with
  | case1 frames =>
    intro n _ hne
    exact absurd rfl hne
  | case2 frames v c r hle =>
    intro n h _
    rw [find_leaf.eq_def]
    simp only [if_pos hle]
    exact ⟨n, h⟩
  | case3 frames v c r hle lv lc ll lr ih =>
    intro n h _
    rw [find_leaf.eq_def]
    simp only [if_pos hle]
    obtain ⟨m, hm⟩ := zip_push_left frames v c (Tree.node lv lc ll lr) r n h
    exact ih m hm (by simp)
  | case4 frames v c l hle =>
    intro n h _
    rw [find_leaf.eq_def]
    simp only [if_neg hle]
    exact ⟨n, h⟩
  | case5 frames v c l hle rv rc rl rr ih =>
    intro n h _
    rw [find_leaf.eq_def]
    simp only [if_neg hle]
    obtain ⟨m, hm⟩ := zip_push_right frames v c l (Tree.node rv rc rl rr) n h
    exact ih m hm (by simp)

/-- The search descent preserves the zipper invariant. -/
theorem find_node_zip [LinearOrder α] (val : α) (frames : List (Frame α)) (t : Tree α) :
    ∀ n (fs : List (Frame α)) (foc : Tree α), ZipOK frames t n →
      find_node val frames t = some (fs, foc) → ∃ m, ZipOK fs foc m := by
  induction frames, t using find_node.induct val with
  | case1 frames =>
    intro n fs foc _ hf
    rw [find_node.eq_def] at hf
    exact Option.noConfusion hf
  | case2 frames c l r =>
    intro n fs foc h hf
    rw [find_node.eq_def] at hf
    simp only [if_pos rfl] at hf
    have hfs : frames = fs := congrArg Prod.fst (Option.some.inj hf)
    have hfoc : Tree.node val c l r = foc := congrArg Prod.snd (Option.some.inj hf)
    refine ⟨n, ?_⟩
    rw [← hfs, ← hfoc]
    exact h
  | case3 frames v c r hne hlt =>
    intro n fs foc h hf
    rw [find_node.eq_def] at hf
    simp only [if_neg hne, if_pos hlt] at hf
    exact Option.noConfusion hf
  | case4 frames v c r hne hlt lv lc ll lr ih =>
    intro n fs foc h hf
    rw [find_node.eq_def] at hf
    simp only [if_neg hne, if_pos hlt] at hf
    obtain ⟨m, hm⟩ := zip_push_left frames v c (Tree.node lv lc ll lr) r n h
    exact ih m fs foc hm hf
  | case5 frames v c l hne hlt =>
    intro n fs foc h hf
    rw [find_node.eq_def] at hf
    simp only [if_neg hne, if_neg hlt] at hf
    exact Option.noConfusion hf
  | case6 frames v c l hne hlt rv rc rl rr ih =>
    intro n fs foc h hf
    rw [find_node.eq_def] at hf
    simp only [if_neg hne, if_neg hlt] at hf
    obtain ⟨m, hm⟩ := zip_push_right frames v c l (Tree.node rv rc rl rr) n h
    exact ih m fs foc hm hf

/-- The successor descent preserves the zipper invariant, relative to any
base stack below the accumulated segment. -/
theorem find_min_zip (t : Tree α) :
    ∀ (seg base : List (Frame α)) (n : Nat), ZipOK (seg ++ base) t n →
      ∃ m, ZipOK ((find_min seg t).1 ++ base) (find_min seg t).2 m := by
  induction t with
  | nil =>
    intro seg base n h
    rw [find_min]
    · exact ⟨n, h⟩
    · intro v c lv lc ll lr r hcontra
      exact Tree.noConfusion hcontra
  | node v c l r ihl ihr =>
    intro seg base n h
    rcases l with _ | ⟨lv, lc, ll, lr⟩
    · rw [find_min]
      · exact ⟨n, h⟩
      · intro v1 c1 lv lc ll lr r1 hcontra
        injection hcontra with h1 h2 h3 h4
        exact Tree.noConfusion h3
    · rw [find_min]
      obtain ⟨m, hm⟩ := zip_push_left (seg ++ base) v c (Tree.node lv lc ll lr) r n h
      exact ihl (⟨v, c, r, LEFT⟩ :: seg) base m hm

/-- add preserves the red-black invariants. -/
theorem add_valid [LinearOrder α] (t : RbTree α) (val : α)
    (h : RBValid t.root = true) : RBValid (t.add val).root = true := by
  rcases ht : t.root with _ | ⟨v, c, l, r⟩
  · rw [RbTree.add, ht]
    exact RBValid_intro _ rfl rfl ⟨1, rfl⟩
  · rw [ht] at h
    rw [RBValid] at h
    simp only [Bool.and_eq_true] at h
    obtain ⟨⟨hroot, hnrr⟩, hbh⟩ := h
    rcases hsome : blackHeight? (Tree.node v c l r) with _ | n
    · rw [hsome] at hbh
      simp [Option.isSome] at hbh
    · have hz0 : ZipOK ([] : List (Frame α)) (Tree.node v c l r) n := by
        refine ⟨trivial, hnrr, hsome, ?_⟩
        intro _
        rfl
      obtain ⟨m, hzl⟩ := find_leaf_zip val [] (Tree.node v c l r) n hz0 (by simp)
      obtain ⟨lv, lc, ll, lr, hleaf, hside⟩ :=
        find_leaf_stop val ([] : List (Frame α)) (Tree.node v c l r) (by simp)
      rw [hleaf] at hzl
      obtain ⟨hctxL, hnrL, hbhL, hredL⟩ := hzl
      obtain ⟨k, hkl, hkr, hkm⟩ := bh_node_some lv lc ll lr m hbhL
      obtain ⟨hccL, hnlL, hnrL2⟩ := (nrr_node lv lc ll lr).mp hnrL
      have hadd : (t.add val).root =
          ((assemble (add_and_fix val [] (Tree.node v c l r)).1
            (add_and_fix val [] (Tree.node v c l r)).2).setColor Color.Black) := by
        simp [RbTree.add, ht]
      rw [hadd]
      rcases hside with ⟨hle, hnil⟩ | ⟨hle, hnil⟩
      · subst hnil
        have hk0 : k = 0 := by
          rw [blackHeight?] at hkl
          exact (Option.some.inj hkl).symm
        subst hk0
        have hfix : add_and_fix val [] (Tree.node v c l r) =
            fix_insert (⟨lv, lc, lr, LEFT⟩ :: (find_leaf val [] (Tree.node v c l r)).1)
              (Tree.node val Color.Red Tree.nil Tree.nil) := by
          rw [add_and_fix]
          rw [show (find_leaf val [] (Tree.node v c l r)) =
            ((find_leaf val [] (Tree.node v c l r)).1, Tree.node lv lc Tree.nil lr)
            from ?_]
          · simp only [if_pos hle]
          · rw [← hleaf]
        rw [hfix]
        have hInv : InsInv (⟨lv, lc, lr, LEFT⟩ :: (find_leaf val [] (Tree.node v c l r)).1)
            (Tree.node val Color.Red Tree.nil Tree.nil) 0 := by
          refine ⟨rfl, rfl, rfl, hnrL2, hkr, ?_, ?_⟩
          · intro hcr
            exact ⟨(hccL hcr).2, hredL hcr⟩
          · show ctxOK (find_leaf val [] (Tree.node v c l r)).1
              (0 + frameBump (⟨lv, lc, lr, LEFT⟩ : Frame α))
            rw [show frameBump (⟨lv, lc, lr, LEFT⟩ : Frame α) =
              (if lc = Color.Black then 1 else 0) from rfl]
            rw [show 0 + (if lc = Color.Black then 1 else 0) = m by omega]
            exact hctxL
        obtain ⟨hv1, hv2⟩ := fix_insert_ok _ _ 0 hInv
        exact valid_setBlack _ hv1 hv2
      · subst hnil
        have hk0 : k = 0 := by
          rw [blackHeight?] at hkr
          exact (Option.some.inj hkr).symm
        subst hk0
        have hfix : add_and_fix val [] (Tree.node v c l r) =
            fix_insert (⟨lv, lc, ll, RIGHT⟩ :: (find_leaf val [] (Tree.node v c l r)).1)
              (Tree.node val Color.Red Tree.nil Tree.nil) := by
          rw [add_and_fix]
          rw [show (find_leaf val [] (Tree.node v c l r)) =
            ((find_leaf val [] (Tree.node v c l r)).1, Tree.node lv lc ll Tree.nil)
            from ?_]
          · simp only [if_neg hle]
          · rw [← hleaf]
        rw [hfix]
        have hInv : InsInv (⟨lv, lc, ll, RIGHT⟩ :: (find_leaf val [] (Tree.node v c l r)).1)
            (Tree.node val Color.Red Tree.nil Tree.nil) 0 := by
          refine ⟨rfl, rfl, rfl, hnlL, hkl, ?_, ?_⟩
          · intro hcr
            exact ⟨(hccL hcr).1, hredL hcr⟩
          · show ctxOK (find_leaf val [] (Tree.node v c l r)).1
              (0 + frameBump (⟨lv, lc, ll, RIGHT⟩ : Frame α))
            rw [show frameBump (⟨lv, lc, ll, RIGHT⟩ : Frame α) =
              (if lc = Color.Black then 1 else 0) from rfl]
            rw [show 0 + (if lc = Color.Black then 1 else 0) = m by omega]
            exact hctxL
        obtain ⟨hv1, hv2⟩ := fix_insert_ok _ _ 0 hInv
        exact valid_setBlack _ hv1 hv2

/-! Delete-side machinery. -/

theorem opposite_opposite (p : Fin 2) : opposite_pos (opposite_pos p) = p := by
  fin_cases p <;> decide

theorem child_fill_pos (f : Frame α) (t : Tree α) : (f.fill t).child f.pos = t := by
  rcases f with ⟨fv, fc, fo, fp⟩
  fin_cases fp <;> simp [Frame.fill, Tree.child, LEFT, RIGHT]

theorem child_fill_other (f : Frame α) (t : Tree α) :
    (f.fill t).child (opposite_pos f.pos) = f.other := by
  rcases f with ⟨fv, fc, fo, fp⟩
  fin_cases fp <;> simp [Frame.fill, Tree.child, opposite_pos, LEFT, RIGHT]

theorem red_children_eq (v : α) (c : Color) (l r : Tree α) :
    red_children (Tree.node v c l r) =
      2 * (if l.color = Color.Red then 1 else 0) +
        (if r.color = Color.Red then 1 else 0) := by
  rcases l with _ | ⟨lv, lc, ll, lr⟩ <;> rcases r with _ | ⟨rv, rc, rl, rr⟩
  · rfl
  · cases rc <;> rfl
  · cases lc <;> rfl
  · cases lc <;> cases rc <;> rfl

theorem red_children_zero (v : α) (c : Color) (l r : Tree α)
    (h : red_children (Tree.node v c l r) = 0) :
    l.color ≠ Color.Red ∧ r.color ≠ Color.Red := by
  rw [red_children_eq] at h
  by_cases h1 : l.color = Color.Red
  · by_cases h2 : r.color = Color.Red
    · rw [if_pos h1, if_pos h2] at h
      exact absurd h (by omega)
    · rw [if_pos h1, if_neg h2] at h
      exact absurd h (by omega)
  · by_cases h2 : r.color = Color.Red
    · rw [if_neg h1, if_pos h2] at h
      exact absurd h (by omega)
    · exact ⟨h1, h2⟩

theorem red_children_left (v : α) (c : Color) (l r : Tree α)
    (h : red_children (Tree.node v c l r) = 3 ∨ red_children (Tree.node v c l r) = 2) :
    l.color = Color.Red := by
  rw [red_children_eq] at h
  by_cases h1 : l.color = Color.Red
  · exact h1
  · exfalso
    rw [if_neg h1] at h
    by_cases h2 : r.color = Color.Red
    · rw [if_pos h2] at h
      rcases h with h | h <;> omega
    · rw [if_neg h2] at h
      rcases h with h | h <;> omega

theorem red_children_right (v : α) (c : Color) (l r : Tree α)
    (h : red_children (Tree.node v c l r) = 3 ∨ red_children (Tree.node v c l r) = 1) :
    r.color = Color.Red := by
  rw [red_children_eq] at h
  by_cases h2 : r.color = Color.Red
  · exact h2
  · exfalso
    rw [if_neg h2] at h
    by_cases h1 : l.color = Color.Red
    · rw [if_pos h1] at h
      rcases h with h | h <;> omega
    · rw [if_neg h1] at h
      rcases h with h | h <;> omega

theorem red_children_only_right (v : α) (c : Color) (l r : Tree α)
    (h0 : ¬red_children (Tree.node v c l r) = 0)
    (h32 : ¬(red_children (Tree.node v c l r) = 3 ∨
      red_children (Tree.node v c l r) = 2)) :
    r.color = Color.Red ∧ l.color ≠ Color.Red := by
  rw [red_children_eq] at h0 h32
  by_cases h1 : l.color = Color.Red
  · by_cases h2 : r.color = Color.Red
    · rw [if_pos h1, if_pos h2] at h32
      exact absurd (Or.inl (by omega)) h32
    · rw [if_pos h1, if_neg h2] at h32
      exact absurd (Or.inr (by omega)) h32
  · by_cases h2 : r.color = Color.Red
    · exact ⟨h2, h1⟩
    · rw [if_neg h1, if_neg h2] at h0
      exact absurd (by omega) h0

theorem red_children_only_left (v : α) (c : Color) (l r : Tree α)
    (h0 : ¬red_children (Tree.node v c l r) = 0)
    (h31 : ¬(red_children (Tree.node v c l r) = 3 ∨
      red_children (Tree.node v c l r) = 1)) :
    l.color = Color.Red ∧ r.color ≠ Color.Red := by
  rw [red_children_eq] at h0 h31
  by_cases h2 : r.color = Color.Red
  · by_cases h1 : l.color = Color.Red
    · rw [if_pos h1, if_pos h2] at h31
      exact absurd (Or.inl (by omega)) h31
    · rw [if_neg h1, if_pos h2] at h31
      exact absurd (Or.inr (by omega)) h31
  · by_cases h1 : l.color = Color.Red
    · exact ⟨h1, h2⟩
    · rw [if_neg h1, if_neg h2] at h0
      exact absurd (by omega) h0

theorem lastColor_ne_nil_cons (x : Frame α) (ys : List (Frame α)) (hy : ys ≠ []) :
    lastColor (x :: ys) = lastColor ys := by
  rcases ys with _ | ⟨y, t⟩
  · exact absurd rfl hy
  · rfl

theorem lastColor_append (a b : List (Frame α)) (hb : b ≠ []) :
    lastColor (a ++ b) = lastColor b := by
  induction a with
  | nil => rfl
  | cons x a ih =>
    rw [List.cons_append, lastColor_ne_nil_cons x (a ++ b) (by simp [hb]), ih]

theorem lastBlack_push (g : Frame α) (frames : List (Frame α)) (cur cur2 : Tree α)
    (hg : frames = [] → g.color = Color.Black)
    (h : lastBlack frames cur) : lastBlack (g :: frames) cur2 := by
  rcases frames with _ | ⟨f, rest⟩
  · show lastColor [g] = Color.Black
    exact hg rfl
  · show lastColor (g :: f :: rest) = Color.Black
    rw [lastColor_cons]
    exact h

theorem headColorB_append_cons (a : List (Frame α)) (f f2 : Frame α)
    (b : List (Frame α)) (hc : f2.color = f.color) :
    headColorB (a ++ f2 :: b) = headColorB (a ++ f :: b) := by
  rcases a with _ | ⟨x, a⟩
  · show f2.color = f.color
    exact hc
  · rfl

theorem ctxOK_append_cons (f f2 : Frame α) (b : List (Frame α))
    (hc : f2.color = f.color) (ho : f2.other = f.other) (hp : f2.pos = f.pos) :
    ∀ (a : List (Frame α)) (n : Nat), ctxOK (a ++ f :: b) n → ctxOK (a ++ f2 :: b) n := by
  intro a
  induction a with
  | nil =>
    intro n h
    obtain ⟨h1, h2, h3, h4⟩ := h
    refine ⟨by rw [ho]; exact h1, by rw [ho]; exact h2, ?_, ?_⟩
    · intro hx
      rw [ho]
      exact h3 (hc ▸ hx)
    · show ctxOK b (n + frameBump f2)
      rw [show frameBump f2 = frameBump f by simp [frameBump, hc]]
      exact h4
  | cons x a ih =>
    intro n h
    obtain ⟨h1, h2, h3, h4⟩ := h
    refine ⟨h1, h2, ?_, ih _ h4⟩
    intro hx
    obtain ⟨hh1, hh2⟩ := h3 hx
    refine ⟨hh1, ?_⟩
    show headColorB (a ++ f2 :: b) = Color.Black
    rw [headColorB_append_cons a f f2 b hc]
    exact hh2

theorem nrr_val_irrel (x y : α) (c : Color) (l r : Tree α) :
    noRedRed (Tree.node x c l r) = noRedRed (Tree.node y c l r) := by
  rw [noRedRed, noRedRed]

theorem bh_val_irrel (x y : α) (c : Color) (l r : Tree α) :
    blackHeight? (Tree.node x c l r) = blackHeight? (Tree.node y c l r) := by
  rw [blackHeight?, blackHeight?]

theorem assemble_RBValid (frames : List (Frame α)) (T : Tree α) (n : Nat)
    (hctx : ctxOK frames n) (hnr : noRedRed T = true) (hbh : blackHeight? T = some n)
    (hred : T.color = Color.Red → headColorB frames = Color.Black)
    (hlb : lastBlack frames T) :
    RBValid (assemble frames T) = true := by
  obtain ⟨h1, h2⟩ := assemble_valid frames T n hctx hnr hbh hred
  exact RBValid_intro _ (rootBlack_assemble frames T hlb) h1 h2

theorem lastBlack_retop (frames : List (Frame α)) (cur T : Tree α)
    (hc : frames = [] → T.color = cur.color ∨ T.color = Color.Black)
    (h : lastBlack frames cur) : lastBlack frames T := by
  rcases frames with _ | ⟨f, rest⟩
  · show T.color ≠ Color.Red
    rcases hc rfl with hh | hh
    · rw [hh]
      exact h
    · rw [hh]
      simp
  · exact h

/-- A terminal step of the removal fix-up yields a valid red-black tree. -/
theorem fix_remove_step_inr_valid (frames : List (Frame α)) (cur : Tree α) (sp : Fin 2)
    (n : Nat) (t : Tree α)
    (hInv : DelInv frames cur sp n) (hlb : lastBlack frames cur)
    (h : fix_remove_step frames cur sp = Sum.inr t) :
    RBValid t = true := by
  obtain ⟨hnr, hdc, hbd, hbs, hred, hctx⟩ := hInv
  rcases cur with _ | ⟨cv, cc, cl, cr⟩
  · exfalso
    have h1 : (some 0 : Option Nat) = some (n + 1) := hbs
    exact absurd (Option.some.inj h1) (by omega)
  · rcases pos_cases sp with hsp | hsp <;> subst hsp
    · -- sibling on the LEFT, deficient child on the RIGHT
      rw [opposite_pos_LEFT] at hbd hdc
      simp only [Tree.child, RIGHT_eq_LEFT, if_false] at hbd hdc
      simp only [Tree.child, if_pos rfl] at hbs
      rcases cl with _ | ⟨sv, sc, sl, sr⟩
      · exfalso
        have h1 : (some 0 : Option Nat) = some (n + 1) := hbs
        exact absurd (Option.some.inj h1) (by omega)
      · obtain ⟨hcc2, hnrS, hnrD⟩ := (nrr_node cv cc (Tree.node sv sc sl sr) cr).mp hnr
        simp only [fix_remove_step] at h
        by_cases hsc : sc = Color.Black
        · subst hsc
          rw [if_pos rfl] at h
          obtain ⟨k, hksl, hksr, hkk⟩ :=
            bh_node_some sv Color.Black sl sr (n + 1) hbs
          simp at hkk
          have hkn : k = n := by omega
          rw [hkn] at hksl hksr
          obtain ⟨hnrSL, hnrSR⟩ := nrr_children sv Color.Black sl sr hnrS
          by_cases hm0 : red_children (Tree.node sv Color.Black sl sr) = 0
          · rw [if_pos hm0] at h
            obtain ⟨hslc, hsrc⟩ := red_children_zero sv Color.Black sl sr hm0
            have hnrSRed : noRedRed (Tree.node sv Color.Red sl sr) = true :=
              nrr_node_red sv sl sr hnrSL hnrSR hslc hsrc
            have hbhSRed : blackHeight? (Tree.node sv Color.Red sl sr) = some n :=
              bh_node_red sv sl sr hksl hksr
            by_cases hcb : cc = Color.Black
            · subst hcb
              rw [if_pos rfl] at h
              rcases frames with _ | ⟨f, rest⟩
              · -- deficiency absorbed at the root
                have ht2 := Sum.inr.inj h
                subst ht2
                apply RBValid_intro
                · rfl
                · exact nrr_node_black cv _ cr hnrSRed hnrD
                · exact ⟨n + 1, bh_node_black cv _ cr hbhSRed hbd⟩
              · exact Sum.noConfusion h
            · rw [if_neg hcb] at h
              have ht2 := Sum.inr.inj h
              subst ht2
              have hccr : cc = Color.Red := color_red_of_ne_black cc hcb
              subst hccr
              apply assemble_RBValid frames _ (n + 1)
              · have h2 : ctxOK frames (n + 1 + 0) := hctx
                simpa using h2
              · exact nrr_node_black cv _ cr hnrSRed hnrD
              · exact bh_node_black cv _ cr hbhSRed hbd
              · intro hh
                simp [Tree.setColor, Tree.color] at hh
              · apply lastBlack_retop frames (Tree.node cv Color.Red
                  (Tree.node sv Color.Black sl sr) cr) _ _ hlb
                intro _
                right
                rfl
          · rw [if_neg hm0] at h
            by_cases hm32 : red_children (Tree.node sv Color.Black sl sr) = 3 ∨
                red_children (Tree.node sv Color.Black sl sr) = 2
            · rw [if_pos hm32] at h
              have hslr : sl.color = Color.Red := red_children_left sv Color.Black sl sr hm32
              rcases sl with _ | ⟨slv, slc, sll, slr⟩
              · simp [Tree.color] at hslr
              · have hslc2 : slc = Color.Red := hslr
                subst hslc2
                have ht2 := Sum.inr.inj h
                subst ht2
                obtain ⟨q, hq1, hq2, hq3⟩ :=
                  bh_node_some slv Color.Red sll slr n hksl
                simp at hq3
                subst hq3
                obtain ⟨hnrSLL, hnrSLR⟩ :=
                  nrr_children slv Color.Red sll slr hnrSL
                -- rotr (node cv Black (node sv cc slB sr) cr)
                --   = node sv cc slB (node cv Black sr cr)
                show RBValid (assemble frames (Tree.node sv cc
                  (Tree.node slv Color.Black sll slr)
                  (Tree.node cv Color.Black sr cr))) = true
                apply assemble_RBValid frames _
                  (n + 1 + (if cc = Color.Black then 1 else 0))
                · exact hctx
                · rcases pos_cases 0 with _ | _ <;>
                  · rcases hcase : cc with _ | _
                    · subst hcase
                      apply nrr_node_red
                      · exact nrr_node_black slv sll slr hnrSLL hnrSLR
                      · exact nrr_node_black cv sr cr hnrSR hnrD
                      · simp [Tree.color]
                      · simp [Tree.color]
                    · subst hcase
                      apply nrr_node_black
                      · exact nrr_node_black slv sll slr hnrSLL hnrSLR
                      · exact nrr_node_black cv sr cr hnrSR hnrD
                · rcases hcase : cc with _ | _
                  · subst hcase
                    simp only [if_neg (by simp : ¬Color.Red = Color.Black)]
                    have := bh_node_red sv
                      (Tree.node slv Color.Black sll slr)
                      (Tree.node cv Color.Black sr cr)
                      (bh_node_black slv sll slr hq1 hq2)
                      (bh_node_black cv sr cr hksr hbd)
                    simpa using this
                  · subst hcase
                    simp only [if_pos rfl]
                    exact bh_node_black sv _ _
                      (bh_node_black slv sll slr hq1 hq2)
                      (bh_node_black cv sr cr hksr hbd)
                · intro hh
                  have : cc = Color.Red := hh
                  subst this
                  exact hred rfl
                · apply lastBlack_retop frames (Tree.node cv cc
                    (Tree.node sv Color.Black (Tree.node slv Color.Red sll slr) sr) cr)
                    _ _ hlb
                  intro _
                  left
                  rfl
            · rw [if_neg hm32] at h
              obtain ⟨hsrr, hslnr⟩ :=
                red_children_only_right sv Color.Black sl sr hm0 hm32
              rcases sr with _ | ⟨srv, src, srl, srr⟩
              · simp [Tree.color] at hsrr
              · have hsrc2 : src = Color.Red := hsrr
                subst hsrc2
                have ht2 := Sum.inr.inj h
                subst ht2
                obtain ⟨q, hq1, hq2, hq3⟩ :=
                  bh_node_some srv Color.Red srl srr n hksr
                simp at hq3
                subst hq3
                obtain ⟨hnrSRL, hnrSRR⟩ :=
                  nrr_children srv Color.Red srl srr hnrSR
                show RBValid (assemble frames (Tree.node srv cc
                  (Tree.node sv Color.Black sl srl)
                  (Tree.node cv Color.Black srr cr))) = true
                apply assemble_RBValid frames _
                  (n + 1 + (if cc = Color.Black then 1 else 0))
                · exact hctx
                · rcases hcase : cc with _ | _
                  · subst hcase
                    apply nrr_node_red
                    · exact nrr_node_black sv sl srl hnrSL hnrSRL
                    · exact nrr_node_black cv srr cr hnrSRR hnrD
                    · simp [Tree.color]
                    · simp [Tree.color]
                  · subst hcase
                    apply nrr_node_black
                    · exact nrr_node_black sv sl srl hnrSL hnrSRL
                    · exact nrr_node_black cv srr cr hnrSRR hnrD
                · rcases hcase : cc with _ | _
                  · subst hcase
                    simp only [if_neg (by simp : ¬Color.Red = Color.Black)]
                    have := bh_node_red srv
                      (Tree.node sv Color.Black sl srl)
                      (Tree.node cv Color.Black srr cr)
                      (bh_node_black sv sl srl hksl hq1)
                      (bh_node_black cv srr cr hq2 hbd)
                    simpa using this
                  · subst hcase
                    simp only [if_pos rfl]
                    exact bh_node_black srv _ _
                      (bh_node_black sv sl srl hksl hq1)
                      (bh_node_black cv srr cr hq2 hbd)
                · intro hh
                  have : cc = Color.Red := hh
                  subst this
                  exact hred rfl
                · apply lastBlack_retop frames (Tree.node cv cc
                    (Tree.node sv Color.Black sl (Tree.node srv Color.Red srl srr)) cr)
                    _ _ hlb
                  intro _
                  left
                  rfl
        · rw [if_neg hsc] at h
          exact Sum.noConfusion h
    · -- sibling on the RIGHT, deficient child on the LEFT
      rw [opposite_pos_RIGHT] at hbd hdc
      simp only [Tree.child, if_pos rfl] at hbd hdc
      simp only [Tree.child, RIGHT_eq_LEFT, if_false] at hbs
      rcases cr with _ | ⟨sv, sc, sl, sr⟩
      · exfalso
        have h1 : (some 0 : Option Nat) = some (n + 1) := hbs
        exact absurd (Option.some.inj h1) (by omega)
      · obtain ⟨hcc2, hnrD, hnrS⟩ := (nrr_node cv cc cl (Tree.node sv sc sl sr)).mp hnr
        simp only [fix_remove_step] at h
        rw [if_neg (by simp : ¬RIGHT = LEFT)] at h
        by_cases hsc : sc = Color.Black
        · subst hsc
          rw [if_pos rfl] at h
          obtain ⟨k, hksl, hksr, hkk⟩ :=
            bh_node_some sv Color.Black sl sr (n + 1) hbs
          simp at hkk
          have hkn : k = n := by omega
          rw [hkn] at hksl hksr
          obtain ⟨hnrSL, hnrSR⟩ := nrr_children sv Color.Black sl sr hnrS
          by_cases hm0 : red_children (Tree.node sv Color.Black sl sr) = 0
          · rw [if_pos hm0] at h
            obtain ⟨hslc, hsrc⟩ := red_children_zero sv Color.Black sl sr hm0
            have hnrSRed : noRedRed (Tree.node sv Color.Red sl sr) = true :=
              nrr_node_red sv sl sr hnrSL hnrSR hslc hsrc
            have hbhSRed : blackHeight? (Tree.node sv Color.Red sl sr) = some n :=
              bh_node_red sv sl sr hksl hksr
            by_cases hcb : cc = Color.Black
            · subst hcb
              rw [if_pos rfl] at h
              rcases frames with _ | ⟨f, rest⟩
              · have ht2 := Sum.inr.inj h
                subst ht2
                apply RBValid_intro
                · rfl
                · exact nrr_node_black cv cl _ hnrD hnrSRed
                · exact ⟨n + 1, bh_node_black cv cl _ hbd hbhSRed⟩
              · exact Sum.noConfusion h
            · rw [if_neg hcb] at h
              have ht2 := Sum.inr.inj h
              subst ht2
              have hccr : cc = Color.Red := color_red_of_ne_black cc hcb
              subst hccr
              apply assemble_RBValid frames _ (n + 1)
              · have h2 : ctxOK frames (n + 1 + 0) := hctx
                simpa using h2
              · exact nrr_node_black cv cl _ hnrD hnrSRed
              · exact bh_node_black cv cl _ hbd hbhSRed
              · intro hh
                simp [Tree.setColor, Tree.color] at hh
              · apply lastBlack_retop frames (Tree.node cv Color.Red cl
                  (Tree.node sv Color.Black sl sr)) _ _ hlb
                intro _
                right
                rfl
          · rw [if_neg hm0] at h
            by_cases hm31 : red_children (Tree.node sv Color.Black sl sr) = 3 ∨
                red_children (Tree.node sv Color.Black sl sr) = 1
            · rw [if_pos hm31] at h
              have hsrr : sr.color = Color.Red := red_children_right sv Color.Black sl sr hm31
              rcases sr with _ | ⟨srv, src, srl, srr⟩
              · simp [Tree.color] at hsrr
              · have hsrc2 : src = Color.Red := hsrr
                subst hsrc2
                have ht2 := Sum.inr.inj h
                subst ht2
                obtain ⟨q, hq1, hq2, hq3⟩ :=
                  bh_node_some srv Color.Red srl srr n hksr
                simp at hq3
                subst hq3
                obtain ⟨hnrSRL, hnrSRR⟩ :=
                  nrr_children srv Color.Red srl srr hnrSR
                show RBValid (assemble frames (Tree.node sv cc
                  (Tree.node cv Color.Black cl sl)
                  (Tree.node srv Color.Black srl srr))) = true
                apply assemble_RBValid frames _
                  (n + 1 + (if cc = Color.Black then 1 else 0))
                · exact hctx
                · rcases hcase : cc with _ | _
                  · subst hcase
                    apply nrr_node_red
                    · exact nrr_node_black cv cl sl hnrD hnrSL
                    · exact nrr_node_black srv srl srr hnrSRL hnrSRR
                    · simp [Tree.color]
                    · simp [Tree.color]
                  · subst hcase
                    apply nrr_node_black
                    · exact nrr_node_black cv cl sl hnrD hnrSL
                    · exact nrr_node_black srv srl srr hnrSRL hnrSRR
                · rcases hcase : cc with _ | _
                  · subst hcase
                    simp only [if_neg (by simp : ¬Color.Red = Color.Black)]
                    have := bh_node_red sv
                      (Tree.node cv Color.Black cl sl)
                      (Tree.node srv Color.Black srl srr)
                      (bh_node_black cv cl sl hbd hksl)
                      (bh_node_black srv srl srr hq1 hq2)
                    simpa using this
                  · subst hcase
                    simp only [if_pos rfl]
                    exact bh_node_black sv _ _
                      (bh_node_black cv cl sl hbd hksl)
                      (bh_node_black srv srl srr hq1 hq2)
                · intro hh
                  have : cc = Color.Red := hh
                  subst this
                  exact hred rfl
                · apply lastBlack_retop frames (Tree.node cv cc cl
                    (Tree.node sv Color.Black sl (Tree.node srv Color.Red srl srr)))
                    _ _ hlb
                  intro _
                  left
                  rfl
            · rw [if_neg hm31] at h
              obtain ⟨hslr, hsrnr⟩ :=
                red_children_only_left sv Color.Black sl sr hm0 hm31
              rcases sl with _ | ⟨slv, slc, sll, slr⟩
              · simp [Tree.color] at hslr
              · have hslc2 : slc = Color.Red := hslr
                subst hslc2
                have ht2 := Sum.inr.inj h
                subst ht2
                obtain ⟨q, hq1, hq2, hq3⟩ :=
                  bh_node_some slv Color.Red sll slr n hksl
                simp at hq3
                subst hq3
                obtain ⟨hnrSLL, hnrSLR⟩ :=
                  nrr_children slv Color.Red sll slr hnrSL
                show RBValid (assemble frames (Tree.node slv cc
                  (Tree.node cv Color.Black cl sll)
                  (Tree.node sv Color.Black slr sr))) = true
                apply assemble_RBValid frames _
                  (n + 1 + (if cc = Color.Black then 1 else 0))
                · exact hctx
                · rcases hcase : cc with _ | _
                  · subst hcase
                    apply nrr_node_red
                    · exact nrr_node_black cv cl sll hnrD hnrSLL
                    · exact nrr_node_black sv slr sr hnrSLR hnrSR
                    · simp [Tree.color]
                    · simp [Tree.color]
                  · subst hcase
                    apply nrr_node_black
                    · exact nrr_node_black cv cl sll hnrD hnrSLL
                    · exact nrr_node_black sv slr sr hnrSLR hnrSR
                · rcases hcase : cc with _ | _
                  · subst hcase
                    simp only [if_neg (by simp : ¬Color.Red = Color.Black)]
                    have := bh_node_red slv
                      (Tree.node cv Color.Black cl sll)
                      (Tree.node sv Color.Black slr sr)
                      (bh_node_black cv cl sll hbd hq1)
                      (bh_node_black sv slr sr hq2 hksr)
                    simpa using this
                  · subst hcase
                    simp only [if_pos rfl]
                    exact bh_node_black slv _ _
                      (bh_node_black cv cl sll hbd hq1)
                      (bh_node_black sv slr sr hq2 hksr)
                · intro hh
                  have : cc = Color.Red := hh
                  subst this
                  exact hred rfl
                · apply lastBlack_retop frames (Tree.node cv cc cl
                    (Tree.node sv Color.Black (Tree.node slv Color.Red sll slr) sr))
                    _ _ hlb
                  intro _
                  left
                  rfl
        · rw [if_neg hsc] at h
          exact Sum.noConfusion h

/-- A continuing step of the removal fix-up re-establishes its invariant. -/
theorem fix_remove_step_inl_valid (frames : List (Frame α)) (cur : Tree α) (sp : Fin 2)
    (n : Nat) (s : List (Frame α) × Tree α × Fin 2)
    (hInv : DelInv frames cur sp n) (hlb : lastBlack frames cur)
    (h : fix_remove_step frames cur sp = Sum.inl s) :
    (∃ m, DelInv s.1 s.2.1 s.2.2 m) ∧ lastBlack s.1 s.2.1 := by
  obtain ⟨hnr, hdc, hbd, hbs, hred, hctx⟩ := hInv
  rcases cur with _ | ⟨cv, cc, cl, cr⟩
  · exfalso
    have h1 : (some 0 : Option Nat) = some (n + 1) := hbs
    exact absurd (Option.some.inj h1) (by omega)
  · rcases pos_cases sp with hsp | hsp <;> subst hsp
    · -- sibling on the LEFT, deficient child on the RIGHT
      rw [opposite_pos_LEFT] at hbd hdc
      simp only [Tree.child, RIGHT_eq_LEFT, if_false] at hbd hdc
      simp only [Tree.child, if_pos rfl] at hbs
      rcases cl with _ | ⟨sv, sc, sl, sr⟩
      · exfalso
        have h1 : (some 0 : Option Nat) = some (n + 1) := hbs
        exact absurd (Option.some.inj h1) (by omega)
      · obtain ⟨hcc2, hnrS, hnrD⟩ := (nrr_node cv cc (Tree.node sv sc sl sr) cr).mp hnr
        simp only [fix_remove_step] at h
        by_cases hsc : sc = Color.Black
        · subst hsc
          rw [if_pos rfl] at h
          obtain ⟨k, hksl, hksr, hkk⟩ :=
            bh_node_some sv Color.Black sl sr (n + 1) hbs
          simp at hkk
          have hkn : k = n := by omega
          rw [hkn] at hksl hksr
          obtain ⟨hnrSL, hnrSR⟩ := nrr_children sv Color.Black sl sr hnrS
          by_cases hm0 : red_children (Tree.node sv Color.Black sl sr) = 0
          · rw [if_pos hm0] at h
            obtain ⟨hslc, hsrc⟩ := red_children_zero sv Color.Black sl sr hm0
            by_cases hcb : cc = Color.Black
            · subst hcb
              rw [if_pos rfl] at h
              rcases frames with _ | ⟨f, rest⟩
              · exact Sum.noConfusion h
              · have hs2 := Sum.inl.inj h
                subst hs2
                obtain ⟨hf1, hf2, hf3, hf4⟩ := hctx
                have hnrC : noRedRed (Tree.node cv Color.Black
                    (Tree.node sv Color.Red sl sr) cr) = true :=
                  nrr_node_black cv _ cr
                    (nrr_node_red sv sl sr hnrSL hnrSR hslc hsrc) hnrD
                have hbhC : blackHeight? (Tree.node cv Color.Black
                    (Tree.node sv Color.Red sl sr) cr) = some (n + 1) :=
                  bh_node_black cv _ cr (bh_node_red sv sl sr hksl hksr) hbd
                constructor
                · refine ⟨n + 1, ?_, ?_, ?_, ?_, ?_, ?_⟩
                  · apply nrr_fill f _ hnrC hf1
                    intro hr
                    refine ⟨by simp [Tree.color], (hf3 hr).1⟩
                  · rw [opposite_opposite, child_fill_pos]
                    simp [Tree.color]
                  · rw [opposite_opposite, child_fill_pos]
                    exact hbhC
                  · rw [child_fill_other]
                    exact hf2
                  · intro hcol
                    rw [color_fill] at hcol
                    exact (hf3 hcol).2
                  · show ctxOK rest (n + 1 + 1 +
                      (if (f.fill (Tree.node cv Color.Black
                        (Tree.node sv Color.Red sl sr) cr)).color = Color.Black
                        then 1 else 0))
                    rw [color_fill]
                    rw [show (if f.color = Color.Black then 1 else 0) = frameBump f
                      from rfl]
                    exact hf4
                · exact lastBlack_pop f rest _ _ hlb
            · rw [if_neg hcb] at h
              exact Sum.noConfusion h
          · rw [if_neg hm0] at h
            by_cases hm32 : red_children (Tree.node sv Color.Black sl sr) = 3 ∨
                red_children (Tree.node sv Color.Black sl sr) = 2
            · rw [if_pos hm32] at h
              exact Sum.noConfusion h
            · rw [if_neg hm32] at h
              exact Sum.noConfusion h
        · -- RED sibling
          rw [if_neg hsc] at h
          have hscr : sc = Color.Red := color_red_of_ne_black sc hsc
          subst hscr
          have hs2 := Sum.inl.inj h
          subst hs2
          have hccb : cc = Color.Black := by
            apply color_black_of_ne_red cc
            intro hcr
            exact (hcc2 hcr).1 rfl
          subst hccb
          obtain ⟨hsrc1, hsrc2⟩ := nrr_red_children sv sl sr hnrS
          obtain ⟨hnrSL, hnrSR⟩ := nrr_children sv Color.Red sl sr hnrS
          obtain ⟨k, hksl, hksr, hkk⟩ := bh_node_some sv Color.Red sl sr (n + 1) hbs
          simp at hkk
          rw [← hkk] at hksl hksr
          constructor
          · refine ⟨n, ?_, ?_, ?_, ?_, ?_, ?_⟩
            · exact nrr_node_red cv sr cr hnrSR hnrD hsrc2 hdc
            · rw [opposite_pos_LEFT]
              simp [Tree.child]
              exact hdc
            · rw [opposite_pos_LEFT]
              simp [Tree.child]
              exact hbd
            · simp [Tree.child]
              exact hksr
            · intro _
              rfl
            · show ctxOK (⟨sv, Color.Black, sl, RIGHT⟩ :: frames)
                (n + 1 + (if (Tree.node cv Color.Red sr cr).color = Color.Black
                  then 1 else 0))
              refine ⟨hnrSL, ?_, ?_, ?_⟩
              · show blackHeight? sl = some (n + 1 +
                  (if (Tree.node cv Color.Red sr cr).color = Color.Black then 1 else 0))
                simpa [Tree.color] using hksl
              · intro hg
                exact absurd hg (by simp)
              · show ctxOK frames (n + 1 +
                  (if (Tree.node cv Color.Red sr cr).color = Color.Black then 1 else 0) +
                  frameBump (⟨sv, Color.Black, sl, RIGHT⟩ : Frame α))
                have hx : n + 1 +
                    (if (Tree.node cv Color.Red sr cr).color = Color.Black then 1 else 0) +
                    frameBump (⟨sv, Color.Black, sl, RIGHT⟩ : Frame α) =
                    n + 1 + (if Color.Black = Color.Black then 1 else 0) := by
                  simp [Tree.color, frameBump]
                rw [hx]
                exact hctx
          · exact lastBlack_push _ frames _ _ (fun _ => rfl) hlb
    · -- sibling on the RIGHT, deficient child on the LEFT
      rw [opposite_pos_RIGHT] at hbd hdc
      simp only [Tree.child, if_pos rfl] at hbd hdc
      simp only [Tree.child, RIGHT_eq_LEFT, if_false] at hbs
      rcases cr with _ | ⟨sv, sc, sl, sr⟩
      · exfalso
        have h1 : (some 0 : Option Nat) = some (n + 1) := hbs
        exact absurd (Option.some.inj h1) (by omega)
      · obtain ⟨hcc2, hnrD, hnrS⟩ := (nrr_node cv cc cl (Tree.node sv sc sl sr)).mp hnr
        simp only [fix_remove_step] at h
        rw [if_neg (by simp : ¬RIGHT = LEFT)] at h
        by_cases hsc : sc = Color.Black
        · subst hsc
          rw [if_pos rfl] at h
          obtain ⟨k, hksl, hksr, hkk⟩ :=
            bh_node_some sv Color.Black sl sr (n + 1) hbs
          simp at hkk
          have hkn : k = n := by omega
          rw [hkn] at hksl hksr
          obtain ⟨hnrSL, hnrSR⟩ := nrr_children sv Color.Black sl sr hnrS
          by_cases hm0 : red_children (Tree.node sv Color.Black sl sr) = 0
          · rw [if_pos hm0] at h
            obtain ⟨hslc, hsrc⟩ := red_children_zero sv Color.Black sl sr hm0
            by_cases hcb : cc = Color.Black
            · subst hcb
              rw [if_pos rfl] at h
              rcases frames with _ | ⟨f, rest⟩
              · exact Sum.noConfusion h
              · have hs2 := Sum.inl.inj h
                subst hs2
                obtain ⟨hf1, hf2, hf3, hf4⟩ := hctx
                have hnrC : noRedRed (Tree.node cv Color.Black cl
                    (Tree.node sv Color.Red sl sr)) = true :=
                  nrr_node_black cv cl _ hnrD
                    (nrr_node_red sv sl sr hnrSL hnrSR hslc hsrc)
                have hbhC : blackHeight? (Tree.node cv Color.Black cl
                    (Tree.node sv Color.Red sl sr)) = some (n + 1) :=
                  bh_node_black cv cl _ hbd (bh_node_red sv sl sr hksl hksr)
                constructor
                · refine ⟨n + 1, ?_, ?_, ?_, ?_, ?_, ?_⟩
                  · apply nrr_fill f _ hnrC hf1
                    intro hr
                    refine ⟨by simp [Tree.color], (hf3 hr).1⟩
                  · rw [opposite_opposite, child_fill_pos]
                    simp [Tree.color]
                  · rw [opposite_opposite, child_fill_pos]
                    exact hbhC
                  · rw [child_fill_other]
                    exact hf2
                  · intro hcol
                    rw [color_fill] at hcol
                    exact (hf3 hcol).2
                  · show ctxOK rest (n + 1 + 1 +
                      (if (f.fill (Tree.node cv Color.Black cl
                        (Tree.node sv Color.Red sl sr))).color = Color.Black
                        then 1 else 0))
                    rw [color_fill]
                    rw [show (if f.color = Color.Black then 1 else 0) = frameBump f
                      from rfl]
                    exact hf4
                · exact lastBlack_pop f rest _ _ hlb
            · rw [if_neg hcb] at h
              exact Sum.noConfusion h
          · rw [if_neg hm0] at h
            by_cases hm31 : red_children (Tree.node sv Color.Black sl sr) = 3 ∨
                red_children (Tree.node sv Color.Black sl sr) = 1
            · rw [if_pos hm31] at h
              exact Sum.noConfusion h
            · rw [if_neg hm31] at h
              exact Sum.noConfusion h
        · -- RED sibling
          rw [if_neg hsc] at h
          have hscr : sc = Color.Red := color_red_of_ne_black sc hsc
          subst hscr
          have hs2 := Sum.inl.inj h
          subst hs2
          have hccb : cc = Color.Black := by
            apply color_black_of_ne_red cc
            intro hcr
            exact (hcc2 hcr).2 rfl
          subst hccb
          obtain ⟨hsrc1, hsrc2⟩ := nrr_red_children sv sl sr hnrS
          obtain ⟨hnrSL, hnrSR⟩ := nrr_children sv Color.Red sl sr hnrS
          obtain ⟨k, hksl, hksr, hkk⟩ := bh_node_some sv Color.Red sl sr (n + 1) hbs
          simp at hkk
          rw [← hkk] at hksl hksr
          constructor
          · refine ⟨n, ?_, ?_, ?_, ?_, ?_, ?_⟩
            · exact nrr_node_red cv cl sl hnrD hnrSL hdc hsrc1
            · rw [opposite_pos_RIGHT]
              simp [Tree.child]
              exact hdc
            · rw [opposite_pos_RIGHT]
              simp [Tree.child]
              exact hbd
            · simp [Tree.child]
              exact hksl
            · intro _
              rfl
            · show ctxOK (⟨sv, Color.Black, sr, LEFT⟩ :: frames)
                (n + 1 + (if (Tree.node cv Color.Red cl sl).color = Color.Black
                  then 1 else 0))
              refine ⟨hnrSR, ?_, ?_, ?_⟩
              · show blackHeight? sr = some (n + 1 +
                  (if (Tree.node cv Color.Red cl sl).color = Color.Black then 1 else 0))
                simpa [Tree.color] using hksr
              · intro hg
                exact absurd hg (by simp)
              · show ctxOK frames (n + 1 +
                  (if (Tree.node cv Color.Red cl sl).color = Color.Black then 1 else 0) +
                  frameBump (⟨sv, Color.Black, sr, LEFT⟩ : Frame α))
                have hx : n + 1 +
                    (if (Tree.node cv Color.Red cl sl).color = Color.Black then 1 else 0) +
                    frameBump (⟨sv, Color.Black, sr, LEFT⟩ : Frame α) =
                    n + 1 + (if Color.Black = Color.Black then 1 else 0) := by
                  simp [Tree.color, frameBump]
                rw [hx]
                exact hctx
          · exact lastBlack_push _ frames _ _ (fun _ => rfl) hlb

/-- The removal fix-up, run from any state satisfying its invariant inside a
Black-topped context, produces a valid red-black tree. -/
theorem fix_remove_valid (frames : List (Frame α)) (cur : Tree α) (sp : Fin 2) :
    ∀ n : Nat, DelInv frames cur sp n → lastBlack frames cur →
      RBValid (fix_remove frames cur sp) = true := by
  induction frames, cur, sp using fix_remove.induct with
  | case1 frames cur sp t h =>
    intro n hInv hlb
    rw [fix_remove_done frames cur sp t h]
    exact fix_remove_step_inr_valid frames cur sp n t hInv hlb h
  | case2 frames cur sp s h ih =>
    intro n hInv hlb
    rw [fix_remove_cont frames cur sp s h]
    obtain ⟨⟨m, hm⟩, hlb2⟩ := fix_remove_step_inl_valid frames cur sp n s hInv hlb h
    exact ih m hm hlb2

/-- Splicing out a node with at most one child (on the side opposite `child`
there is no subtree) keeps the tree valid: the child is recolored or the
removal fix-up is run, exactly as extract_node decides. -/
theorem extract_node_valid (frames : List (Frame α)) (v : α) (c : Color) (l r : Tree α)
    (child : Fin 2) (n : Nat)
    (hz : ZipOK frames (Tree.node v c l r) n)
    (hlb : lastBlack frames (Tree.node v c l r))
    (hnil : (Tree.node v c l r).child (opposite_pos child) = Tree.nil) :
    RBValid (extract_node frames (Tree.node v c l r) child) = true := by
  obtain ⟨hctx, hnr, hbh, hred⟩ := hz
  obtain ⟨hcc2, hnrl, hnrr⟩ := (nrr_node v c l r).mp hnr
  obtain ⟨k, hkl, hkr, hkm⟩ := bh_node_some v c l r n hbh
  rcases pos_cases child with hch | hch <;> subst hch
  · -- splice keeps the LEFT child, the RIGHT slot is empty
    rw [opposite_pos_LEFT] at hnil
    simp only [Tree.child, RIGHT_eq_LEFT, if_false] at hnil
    subst hnil
    have hk0 : k = 0 := by
      have h1 : (some 0 : Option Nat) = some k := hkr
      exact (Option.some.inj h1).symm
    rw [hk0] at hkl hkm
    rcases frames with _ | ⟨f, rest⟩
    · show RBValid (l.setColor Color.Black) = true
      apply RBValid_intro
      · rcases l with _ | ⟨lv2, lc2, ll2, lr2⟩ <;> rfl
      · exact nrr_setBlack l hnrl
      · exact bh_setBlack l 0 hkl
    · obtain ⟨hf1, hf2, hf3, hf4⟩ := hctx
      rcases l with _ | ⟨cv, ccc, cl2, cr2⟩
      · -- no children at all
        show RBValid (if c = Color.Black then
            fix_remove rest (f.fill Tree.nil) (opposite_pos f.pos)
          else assemble rest (f.fill Tree.nil)) = true
        by_cases hcb : c = Color.Black
        · subst hcb
          have hn1 : n = 1 := by
            rw [hkm]
            simp
          rw [hn1] at hf2 hf4
          rw [if_pos rfl]
          apply fix_remove_valid rest (f.fill Tree.nil) (opposite_pos f.pos) 0
          · refine ⟨?_, ?_, ?_, ?_, ?_, ?_⟩
            · apply nrr_fill f Tree.nil rfl hf1
              intro hr
              exact ⟨by simp [Tree.color], (hf3 hr).1⟩
            · rw [opposite_opposite, child_fill_pos]
              simp [Tree.color]
            · rw [opposite_opposite, child_fill_pos]
              rfl
            · rw [child_fill_other]
              exact hf2
            · intro hcol
              rw [color_fill] at hcol
              exact (hf3 hcol).2
            · show ctxOK rest (0 + 1 +
                (if (f.fill Tree.nil).color = Color.Black then 1 else 0))
              rw [color_fill]
              rw [show (if f.color = Color.Black then 1 else 0) = frameBump f from rfl]
              simpa using hf4
          · exact lastBlack_pop f rest _ _ hlb
        · rw [if_neg hcb]
          have hccr : c = Color.Red := color_red_of_ne_black c hcb
          subst hccr
          have hn0 : n = 0 := by
            rw [hkm]
            simp
          rw [hn0] at hf2 hf4
          apply assemble_RBValid rest _ (0 + frameBump f) hf4
          · apply nrr_fill f Tree.nil rfl hf1
            intro hr
            exact ⟨by simp [Tree.color], (hf3 hr).1⟩
          · exact bh_fill f Tree.nil 0 rfl hf2
          · intro hcol
            rw [color_fill] at hcol
            exact (hf3 hcol).2
          · exact lastBlack_pop f rest _ _ hlb
      · -- exactly one child, on the LEFT: a Red singleton under a Black node
        have hccR : ccc = Color.Red := by
          rcases hcx : ccc with _ | _
          · rfl
          · exfalso
            rw [hcx] at hkl
            obtain ⟨q, _, _, hq⟩ := bh_node_some cv Color.Black cl2 cr2 0 hkl
            simp at hq
        subst hccR
        have hcB : c = Color.Black := by
          apply color_black_of_ne_red c
          intro hcr
          exact (hcc2 hcr).1 (by simp [Tree.color])
        subst hcB
        have hn1 : n = 1 := by
          rw [hkm]
          simp
        rw [hn1] at hf2 hf4
        obtain ⟨q, hq1, hq2, hq3⟩ := bh_node_some cv Color.Red cl2 cr2 0 hkl
        simp at hq3
        rw [← hq3] at hq1 hq2
        obtain ⟨hnrc1, hnrc2⟩ := nrr_children cv Color.Red cl2 cr2 hnrl
        show RBValid (if Color.Black = Color.Red ∨ Color.Red = Color.Red then
            assemble rest (f.fill (Tree.node cv Color.Black cl2 cr2))
          else fix_remove rest (f.fill (Tree.node cv Color.Red cl2 cr2))
            (opposite_pos f.pos)) = true
        rw [if_pos (Or.inr rfl)]
        apply assemble_RBValid rest _ (1 + frameBump f) hf4
        · apply nrr_fill f _ (nrr_node_black cv cl2 cr2 hnrc1 hnrc2) hf1
          intro hr
          exact ⟨by simp [Tree.color], (hf3 hr).1⟩
        · exact bh_fill f _ 1 (bh_node_black cv cl2 cr2 hq1 hq2) hf2
        · intro hcol
          rw [color_fill] at hcol
          exact (hf3 hcol).2
        · exact lastBlack_pop f rest _ _ hlb
  · -- splice keeps the RIGHT child, the LEFT slot is empty
    rw [opposite_pos_RIGHT] at hnil
    simp only [Tree.child, if_pos rfl] at hnil
    subst hnil
    have hk0 : k = 0 := by
      have h1 : (some 0 : Option Nat) = some k := hkl
      exact (Option.some.inj h1).symm
    rw [hk0] at hkr hkm
    rcases frames with _ | ⟨f, rest⟩
    · show RBValid (r.setColor Color.Black) = true
      apply RBValid_intro
      · rcases r with _ | ⟨rv2, rc2, rl2, rr2⟩ <;> rfl
      · exact nrr_setBlack r hnrr
      · exact bh_setBlack r 0 hkr
    · obtain ⟨hf1, hf2, hf3, hf4⟩ := hctx
      rcases r with _ | ⟨cv, ccc, cl2, cr2⟩
      · show RBValid (if c = Color.Black then
            fix_remove rest (f.fill Tree.nil) (opposite_pos f.pos)
          else assemble rest (f.fill Tree.nil)) = true
        by_cases hcb : c = Color.Black
        · subst hcb
          have hn1 : n = 1 := by
            rw [hkm]
            simp
          rw [hn1] at hf2 hf4
          rw [if_pos rfl]
          apply fix_remove_valid rest (f.fill Tree.nil) (opposite_pos f.pos) 0
          · refine ⟨?_, ?_, ?_, ?_, ?_, ?_⟩
            · apply nrr_fill f Tree.nil rfl hf1
              intro hr
              exact ⟨by simp [Tree.color], (hf3 hr).1⟩
            · rw [opposite_opposite, child_fill_pos]
              simp [Tree.color]
            · rw [opposite_opposite, child_fill_pos]
              rfl
            · rw [child_fill_other]
              exact hf2
            · intro hcol
              rw [color_fill] at hcol
              exact (hf3 hcol).2
            · show ctxOK rest (0 + 1 +
                (if (f.fill Tree.nil).color = Color.Black then 1 else 0))
              rw [color_fill]
              rw [show (if f.color = Color.Black then 1 else 0) = frameBump f from rfl]
              simpa using hf4
          · exact lastBlack_pop f rest _ _ hlb
        · rw [if_neg hcb]
          have hccr : c = Color.Red := color_red_of_ne_black c hcb
          subst hccr
          have hn0 : n = 0 := by
            rw [hkm]
            simp
          rw [hn0] at hf2 hf4
          apply assemble_RBValid rest _ (0 + frameBump f) hf4
          · apply nrr_fill f Tree.nil rfl hf1
            intro hr
            exact ⟨by simp [Tree.color], (hf3 hr).1⟩
          · exact bh_fill f Tree.nil 0 rfl hf2
          · intro hcol
            rw [color_fill] at hcol
            exact (hf3 hcol).2
          · exact lastBlack_pop f rest _ _ hlb
      · have hccR : ccc = Color.Red := by
          rcases hcx : ccc with _ | _
          · rfl
          · exfalso
            rw [hcx] at hkr
            obtain ⟨q, _, _, hq⟩ := bh_node_some cv Color.Black cl2 cr2 0 hkr
            simp at hq
        subst hccR
        have hcB : c = Color.Black := by
          apply color_black_of_ne_red c
          intro hcr
          exact (hcc2 hcr).2 (by simp [Tree.color])
        subst hcB
        have hn1 : n = 1 := by
          rw [hkm]
          simp
        rw [hn1] at hf2 hf4
        obtain ⟨q, hq1, hq2, hq3⟩ := bh_node_some cv Color.Red cl2 cr2 0 hkr
        simp at hq3
        rw [← hq3] at hq1 hq2
        obtain ⟨hnrc1, hnrc2⟩ := nrr_children cv Color.Red cl2 cr2 hnrr
        show RBValid (if Color.Black = Color.Red ∨ Color.Red = Color.Red then
            assemble rest (f.fill (Tree.node cv Color.Black cl2 cr2))
          else fix_remove rest (f.fill (Tree.node cv Color.Red cl2 cr2))
            (opposite_pos f.pos)) = true
        rw [if_pos (Or.inr rfl)]
        apply assemble_RBValid rest _ (1 + frameBump f) hf4
        · apply nrr_fill f _ (nrr_node_black cv cl2 cr2 hnrc1 hnrc2) hf1
          intro hr
          exact ⟨by simp [Tree.color], (hf3 hr).1⟩
        · exact bh_fill f _ 1 (bh_node_black cv cl2 cr2 hq1 hq2) hf2
        · intro hcol
          rw [color_fill] at hcol
          exact (hf3 hcol).2
        · exact lastBlack_pop f rest _ _ hlb

theorem lastBlack_of_lastColor (frames : List (Frame α)) (cur : Tree α)
    (h : lastColor frames = Color.Black) (hne : frames ≠ []) : lastBlack frames cur := by
  rcases frames with _ | ⟨f, rest⟩
  · exact absurd rfl hne
  · exact h

/-- The search descent preserves the Black top of the zipper. -/
theorem find_node_lastBlack [LinearOrder α] (val : α) (frames : List (Frame α))
    (t : Tree α) :
    ∀ (fs : List (Frame α)) (foc : Tree α), lastBlack frames t →
      find_node val frames t = some (fs, foc) → lastBlack fs foc := by
  induction frames, t using find_node.induct val with
  | case1 frames =>
    intro fs foc _ hf
    rw [find_node.eq_def] at hf
    exact Option.noConfusion hf
  | case2 frames c l r =>
    intro fs foc hlb hf
    rw [find_node.eq_def] at hf
    simp only [if_pos rfl] at hf
    have hfs : frames = fs := congrArg Prod.fst (Option.some.inj hf)
    have hfoc : Tree.node val c l r = foc := congrArg Prod.snd (Option.some.inj hf)
    rw [← hfs, ← hfoc]
    exact hlb
  | case3 frames v c r hne hlt =>
    intro fs foc _ hf
    rw [find_node.eq_def] at hf
    simp only [if_neg hne, if_pos hlt] at hf
    exact Option.noConfusion hf
  | case4 frames v c r hne hlt lv lc ll lr ih =>
    intro fs foc hlb hf
    rw [find_node.eq_def] at hf
    simp only [if_neg hne, if_pos hlt] at hf
    apply ih fs foc _ hf
    apply lastBlack_push _ frames (Tree.node v c (Tree.node lv lc ll lr) r) _ _ hlb
    intro hfr
    rw [hfr] at hlb
    exact color_black_of_ne_red c hlb
  | case5 frames v c l hne hlt =>
    intro fs foc _ hf
    rw [find_node.eq_def] at hf
    simp only [if_neg hne, if_neg hlt] at hf
    exact Option.noConfusion hf
  | case6 frames v c l hne hlt rv rc rl rr ih =>
    intro fs foc hlb hf
    rw [find_node.eq_def] at hf
    simp only [if_neg hne, if_neg hlt] at hf
    apply ih fs foc _ hf
    apply lastBlack_push _ frames (Tree.node v c l (Tree.node rv rc rl rr)) _ _ hlb
    intro hfr
    rw [hfr] at hlb
    exact color_black_of_ne_red c hlb

/-- remove_last keeps the tree valid: the two-child case swaps the keys of
the node and its in-order successor in the zipper (colors stay with the
positions, so every invariant predicate is untouched) and recurses, the other
cases splice via extract_node. -/
theorem remove_last_valid (frames : List (Frame α)) (cur : Tree α) :
    ∀ n : Nat, ZipOK frames cur n → lastBlack frames cur → cur ≠ Tree.nil →
      RBValid (remove_last frames cur) = true := by
  induction frames, cur using remove_last.induct with
  | case1 frames =>
    intro n _ _ hne
    exact absurd rfl hne
  | case2 frames v c =>
    intro n hz hlb _
    rw [remove_last]
    apply extract_node_valid frames v c Tree.nil Tree.nil LEFT n hz hlb
    rw [opposite_pos_LEFT]
    rfl
  | case3 frames v c lv lc ll lr =>
    intro n hz hlb _
    rw [remove_last]
    apply extract_node_valid frames v c (Tree.node lv lc ll lr) Tree.nil LEFT n hz hlb
    rw [opposite_pos_LEFT]
    rfl
  | case4 frames v c rv rc rl rr =>
    intro n hz hlb _
    rw [remove_last]
    apply extract_node_valid frames v c Tree.nil (Tree.node rv rc rl rr) RIGHT n hz hlb
    rw [opposite_pos_RIGHT]
    rfl
  | case5 frames v c lv lc ll lr rv rc rl rr seg hm =>
    intro n _ _ _
    have := find_min_ne_nil ([] : List (Frame α)) rv rc rl rr
    rw [hm] at this
    exact absurd rfl this
  | case6 frames v c lv lc ll lr rv rc rl rr seg mv mc ml mr hm ih =>
    intro n hz hlb _
    rw [remove_last, hm]
    obtain ⟨m1, hz1⟩ := zip_push_right frames v c (Tree.node lv lc ll lr)
      (Tree.node rv rc rl rr) n hz
    obtain ⟨m2, hz3⟩ := find_min_zip (Tree.node rv rc rl rr) []
      (⟨v, c, Tree.node lv lc ll lr, RIGHT⟩ :: frames) m1 hz1
    rw [hm] at hz3
    obtain ⟨hctx3, hnr3, hbh3, hred3⟩ := hz3
    have hz4 : ZipOK (seg ++ ⟨mv, c, Tree.node lv lc ll lr, RIGHT⟩ :: frames)
        (Tree.node v mc ml mr) m2 := by
      refine ⟨?_, ?_, ?_, ?_⟩
      · exact ctxOK_append_cons (⟨v, c, Tree.node lv lc ll lr, RIGHT⟩ : Frame α)
          (⟨mv, c, Tree.node lv lc ll lr, RIGHT⟩ : Frame α) frames rfl rfl rfl seg m2 hctx3
      · rw [nrr_val_irrel v mv mc ml mr]
        exact hnr3
      · rw [bh_val_irrel v mv mc ml mr]
        exact hbh3
      · intro hcol
        have hc2 : (Tree.node mv mc ml mr).color = Color.Red := hcol
        have hh := hred3 hc2
        show headColorB (seg ++ ⟨mv, c, Tree.node lv lc ll lr, RIGHT⟩ :: frames) =
          Color.Black
        rw [headColorB_append_cons seg (⟨v, c, Tree.node lv lc ll lr, RIGHT⟩ : Frame α)
          (⟨mv, c, Tree.node lv lc ll lr, RIGHT⟩ : Frame α) frames rfl]
        exact hh
    have hlb2 : lastBlack (seg ++ ⟨mv, c, Tree.node lv lc ll lr, RIGHT⟩ :: frames)
        (Tree.node v mc ml mr) := by
      apply lastBlack_of_lastColor _ _ ?_ (by simp)
      rw [lastColor_append seg _ (by simp)]
      rcases frames with _ | ⟨g, gs⟩
      · show c = Color.Black
        exact color_black_of_ne_red c hlb
      · rw [lastColor_ne_nil_cons _ (g :: gs) (by simp)]
        exact hlb
    exact ih m2 hz4 hlb2 (by simp)

/-- remove preserves the red-black invariants. -/
theorem remove_valid [LinearOrder α] (t : RbTree α) (val : α)
    (h : RBValid t.root = true) : RBValid ((t.remove val).2).root = true := by
  rcases ht : t.root with _ | ⟨v, c, l, r⟩
  · have hrem : t.remove val = (false, t) := by simp [RbTree.remove, ht]
    rw [hrem, ht]
    rw [ht] at h
    exact h
  · rcases hf : find_node val [] t.root with _ | ⟨fs, foc⟩
    · have hrem : t.remove val = (false, t) := by
        rw [RbTree.remove, ht]
        rw [ht] at hf
        simp [hf]
      rw [hrem]
      exact h
    · have hrem : t.remove val = (true, ⟨remove_last fs foc, t.len - 1⟩) := by
        rw [RbTree.remove, ht]
        rw [ht] at hf
        simp [hf]
      rw [hrem]
      rw [ht] at h hf
      rw [RBValid] at h
      simp only [Bool.and_eq_true] at h
      obtain ⟨⟨hroot, hnrr⟩, hbh⟩ := h
      rcases hsome : blackHeight? (Tree.node v c l r) with _ | n
      · rw [hsome] at hbh
        simp [Option.isSome] at hbh
      · have hz0 : ZipOK ([] : List (Frame α)) (Tree.node v c l r) n := by
        -- root is Black, so the red-parent condition is vacuous
          refine ⟨trivial, hnrr, hsome, ?_⟩
          intro _
          rfl
      -- descend to the node holding val
        obtain ⟨m, hzf⟩ := find_node_zip val [] (Tree.node v c l r) n fs foc hz0 hf
        have hlbf : lastBlack fs foc := by
          apply find_node_lastBlack val [] (Tree.node v c l r) fs foc _ hf
          show (Tree.node v c l r).color ≠ Color.Red
          rw [rootBlack] at hroot
          simp at hroot
          simp [Tree.color, hroot]
        obtain ⟨_, c2, l2, r2, hfoc⟩ := find_node_some val [] (Tree.node v c l r) fs foc hf
        exact remove_last_valid fs foc m hzf hlbf (by rw [hfoc]; simp)

/-- One public call preserves the red-black invariants. -/
theorem step_valid [LinearOrder α] (t : RbTree α) (op : Op α)
    (h : RBValid t.root = true) : RBValid (step t op).root = true := by
  rcases op with v | v
  · exact add_valid t v h
  · exact remove_valid t v h

theorem foldl_valid [LinearOrder α] (l : List (Op α)) :
    ∀ t : RbTree α, RBValid t.root = true →
      RBValid ((l.foldl step t).root) = true := by
  induction l with
  | nil => exact fun t ht => ht
  | cons op rest ih => exact fun t ht => ih (step t op) (step_valid t op ht)

/-! The claims. -/

/-- C3: removing a node with both children present descends to the minimum of
the right subtree (the in-order successor) and exchanges the two nodes'
structural positions and colors: in zipper form, the frame of the deleted
slot takes the successor's key while keeping the original node's color, the
subtrees and every other ancestry entry, and the removal recurses on the
relocated node, which holds the old key with the successor's color and
children and, the successor being a minimum, has no left child (at most one
child, so the recursion ends in a splice); the in-order effect of the whole
removal is to drop exactly the key at the deleted position. -/
theorem C3_successor_swap [LinearOrder α] (frames : List (Frame α)) (v : α) (c : Color)
    (lv : α) (lc : Color) (ll lr : Tree α) (rv : α) (rc : Color) (rl rr : Tree α)
    (seg : List (Frame α)) (mv : α) (mc : Color) (ml mr : Tree α)
    (hm : find_min [] (Tree.node rv rc rl rr) = (seg, Tree.node mv mc ml mr)) :
    remove_last frames
        (Tree.node v c (Tree.node lv lc ll lr) (Tree.node rv rc rl rr)) =
      remove_last (seg ++ ⟨mv, c, Tree.node lv lc ll lr, RIGHT⟩ :: frames)
        (Tree.node v mc ml mr) ∧
      ml = Tree.nil ∧
      (Tree.node rv rc rl rr).inorder = mv :: (mr.inorder ++ ctxSuf seg) ∧
      (remove_last frames
          (Tree.node v c (Tree.node lv lc ll lr) (Tree.node rv rc rl rr))).inorder =
        ctxPre frames ++ (Tree.node lv lc ll lr).inorder ++
          (Tree.node rv rc rl rr).inorder ++ ctxSuf frames := by
  have hml : ml = Tree.nil :=
    find_min_left_nil [] (Tree.node rv rc rl rr) mv mc ml mr (by rw [hm])
  have hall : ∀ g ∈ seg, g.pos = LEFT := by
    have := find_min_all_left ([] : List (Frame α)) (Tree.node rv rc rl rr) (by simp)
    rw [hm] at this
    exact this
  have hasm : assemble seg (Tree.node mv mc ml mr) = Tree.node rv rc rl rr := by
    have := find_min_assemble ([] : List (Frame α)) (Tree.node rv rc rl rr)
    rw [hm] at this
    exact this
  have hpre : ctxPre seg = [] := ctxPre_all_left seg hall
  have hR : (Tree.node rv rc rl rr).inorder = mv :: (mr.inorder ++ ctxSuf seg) := by
    rw [← hasm, inorder_assemble seg (Tree.node mv mc ml mr), hpre, hml]
    simp [Tree.inorder]
  refine ⟨?_, hml, hR, ?_⟩
  · rw [remove_last, hm]
  · rw [remove_last_spec frames _ (by simp)]
    simp [Tree.child, LEFT, RIGHT]

theorem C3_witness :
    find_min [] (Tree.node 3 Color.Black Tree.nil Tree.nil : Tree Int) =
        ([], Tree.node 3 Color.Black Tree.nil Tree.nil) ∧
      (remove_last []
          (Tree.node 2 Color.Black (Tree.node 1 Color.Red Tree.nil Tree.nil)
            (Tree.node 3 Color.Black Tree.nil Tree.nil) : Tree Int) =
        remove_last
          ([] ++ ⟨3, Color.Black, Tree.node 1 Color.Red Tree.nil Tree.nil, RIGHT⟩ :: [])
          (Tree.node 2 Color.Black Tree.nil Tree.nil) ∧
        (Tree.nil : Tree Int) = Tree.nil ∧
        (Tree.node 3 Color.Black Tree.nil Tree.nil : Tree Int).inorder =
          3 :: (Tree.nil.inorder ++ ctxSuf []) ∧
        (remove_last []
            (Tree.node 2 Color.Black (Tree.node 1 Color.Red Tree.nil Tree.nil)
              (Tree.node 3 Color.Black Tree.nil Tree.nil) : Tree Int)).inorder =
          ctxPre [] ++ (Tree.node 1 Color.Red Tree.nil Tree.nil : Tree Int).inorder ++
            (Tree.node 3 Color.Black Tree.nil Tree.nil : Tree Int).inorder ++ ctxSuf []) :=
  ⟨by decide, C3_successor_swap [] 2 Color.Black 1 Color.Red Tree.nil Tree.nil
    3 Color.Black Tree.nil Tree.nil [] 3 Color.Black Tree.nil Tree.nil (by decide)⟩

/-- C2 (amended): the validator accepts every tree satisfying the red-black
invariants; the converse of the original claim is refuted by
C2_counterexample. -/
theorem C2_validator_sound [ToString α] (t : RbTree α)
    (h : RBValid t.root = true) : t.is_valid = true := by
  rw [RbTree.is_valid]
  rcases ht : t.root with _ | ⟨v, c, l, r⟩
  · rfl
  · rw [ht] at h
    rw [RBValid] at h
    simp only [Bool.and_eq_true] at h
    obtain ⟨⟨hroot, hnrr⟩, hbh⟩ := h
    have hc : c = Color.Black := by
      rw [rootBlack] at hroot
      simpa using hroot
    rcases hsome : blackHeight? (Tree.node v c l r) with _ | n
    · rw [hsome] at hbh
      simp [Option.isSome] at hbh
    · obtain ⟨m, hl, hr, _⟩ := bh_node_some v c l r n hsome
      obtain ⟨_, hnl, hnr2⟩ := (nrr_node v c l r).mp hnrr
      subst hc
      show (if Color.Black = Color.Red then false
        else
          match black_height l 1 with
          | Except.error _ => false
          | Except.ok _ =>
            match black_height r 1 with
            | Except.error _ => false
            | Except.ok _ => true) = true
      rw [if_neg (by simp)]
      rw [black_height_ok l m hnl hl 1, black_height_ok r m hnr2 hr 1]

/-- C2 (counterexample to the stated equivalence): a tree whose two root
subtrees have different black heights, which is_valid nevertheless accepts
because it never compares the two results. -/
theorem C2_counterexample :
    ((⟨Tree.node 1 Color.Black (Tree.node 0 Color.Black Tree.nil Tree.nil) Tree.nil, 2⟩ :
        RbTree Int)).is_valid = true ∧
      RBValid ((⟨Tree.node 1 Color.Black (Tree.node 0 Color.Black Tree.nil Tree.nil)
          Tree.nil, 2⟩ : RbTree Int)).root = false := by
  constructor <;> decide

theorem C2_witness :
    RBValid ((⟨Tree.node 1 Color.Black (Tree.node 0 Color.Red Tree.nil Tree.nil)
          Tree.nil, 2⟩ : RbTree Int)).root = true ∧
      ((⟨Tree.node 1 Color.Black (Tree.node 0 Color.Red Tree.nil Tree.nil)
          Tree.nil, 2⟩ : RbTree Int)).is_valid = true :=
  ⟨by decide, C2_validator_sound
    (⟨Tree.node 1 Color.Black (Tree.node 0 Color.Red Tree.nil Tree.nil) Tree.nil, 2⟩ :
      RbTree Int) (by decide)⟩

/-- C4: starting from an empty tree, inserting 3, 5, 1, 7, 13, 15, 4, 17, 9,
11, 2, 21 in that order and then removing 7 returns true, leaves len equal to
11, yields the in-order traversal [1, 2, 3, 4, 5, 9, 11, 13, 15, 17, 21], and
leaves a tree the validator reports valid. -/
theorem C4_concrete_scenario :
    ((run (([3, 5, 1, 7, 13, 15, 4, 17, 9, 11, 2, 21] : List Int).map Op.addOp)).remove 7).1 =
        true ∧
      ((run (([3, 5, 1, 7, 13, 15, 4, 17, 9, 11, 2, 21] : List Int).map Op.addOp)).remove
            7).2.len = 11 ∧
      ((run (([3, 5, 1, 7, 13, 15, 4, 17, 9, 11, 2, 21] : List Int).map Op.addOp)).remove
            7).2.root.inorder = [1, 2, 3, 4, 5, 9, 11, 13, 15, 17, 21] ∧
      ((run (([3, 5, 1, 7, 13, 15, 4, 17, 9, 11, 2, 21] : List Int).map Op.addOp)).remove
            7).2.is_valid = true := by
  have hev := remove_eval 100
    (run (([3, 5, 1, 7, 13, 15, 4, 17, 9, 11, 2, 21] : List Int).map Op.addOp)) 7
    (false, run (([3, 5, 1, 7, 13, 15, 4, 17, 9, 11, 2, 21] : List Int).map Op.addOp))
    (by decide)
  rw [hev]
  decide

/-- C6: removing a key that is not in the tree answers false and returns the
tree unchanged (structure, colors and len); on an empty tree remove 42 answers
false and len stays 0. -/
theorem C6_remove_absent [LinearOrder α] (t : RbTree α) (val : α)
    (h : val ∉ t.root.inorder) :
    t.remove val = (false, t) ∧
      (RbTree.new : RbTree Int).remove 42 = (false, RbTree.new) ∧
      ((RbTree.new : RbTree Int).remove 42).2.len = 0 :=
  ⟨remove_not_mem t val h, by decide, by decide⟩

theorem C6_witness :
    ((42 : Int) ∉ (RbTree.new : RbTree Int).root.inorder) ∧
      (RbTree.new : RbTree Int).remove 42 = (false, RbTree.new) :=
  ⟨by decide, (C6_remove_absent RbTree.new 42 (by decide)).1⟩

/-- C7: the insertion descent routes a key at most the visited value LEFT and
a strictly greater key RIGHT, stops at the first node whose slot on the
comparison side is empty, and adding 5 twice to an empty tree gives len 2 with
both copies in the in-order traversal. -/
theorem C7_routing_and_duplicates [LinearOrder α] (val : α) (t : Tree α)
    (h : t ≠ Tree.nil) :
    (∀ g ∈ (find_leaf val [] t).1,
        (val ≤ g.val ∧ g.pos = LEFT) ∨ (¬val ≤ g.val ∧ g.pos = RIGHT)) ∧
      (∃ lv lc ll lr, (find_leaf val [] t).2 = Tree.node lv lc ll lr ∧
        ((val ≤ lv ∧ ll = Tree.nil) ∨ (¬val ≤ lv ∧ lr = Tree.nil))) ∧
      (((RbTree.new : RbTree Int).add 5).add 5).len = 2 ∧
      (((RbTree.new : RbTree Int).add 5).add 5).root.inorder = [5, 5] := by
  refine ⟨?_, find_leaf_stop val [] t h, by decide, by decide⟩
  obtain ⟨seg, hseg, hprop⟩ := find_leaf_routing val ([] : List (Frame α)) t
  intro g hg
  rw [hseg] at hg
  simp at hg
  exact hprop g hg

theorem C7_witness :
    ((Tree.node 0 Color.Black Tree.nil Tree.nil : Tree Int) ≠ Tree.nil) ∧
      ((∀ g ∈ (find_leaf 1 [] (Tree.node 0 Color.Black Tree.nil Tree.nil : Tree Int)).1,
          ((1 : Int) ≤ g.val ∧ g.pos = LEFT) ∨ (¬(1 : Int) ≤ g.val ∧ g.pos = RIGHT)) ∧
        (∃ lv lc ll lr,
          (find_leaf 1 [] (Tree.node 0 Color.Black Tree.nil Tree.nil : Tree Int)).2 =
              Tree.node lv lc ll lr ∧
            (((1 : Int) ≤ lv ∧ ll = Tree.nil) ∨ (¬(1 : Int) ≤ lv ∧ lr = Tree.nil))) ∧
        (((RbTree.new : RbTree Int).add 5).add 5).len = 2 ∧
        (((RbTree.new : RbTree Int).add 5).add 5).root.inorder = [5, 5]) :=
  ⟨by decide, C7_routing_and_duplicates 1 (Tree.node 0 Color.Black Tree.nil Tree.nil)
    (by decide)⟩

/-- C9: rotate_left and rotate_right, applied to a focus whose pivot child is
present, keep the ancestry frames (same stack, same length), put the pivot at
the top in the rotated node's place, and preserve both the in-order key
sequence of the reassembled tree and the key multiset of the rotated
subtree. -/
theorem C9_rotations (frames : List (Frame α)) (v : α) (c : Color) (l : Tree α)
    (rv : α) (rc : Color) (rl rr : Tree α)
    (lv : α) (lc : Color) (ll lr : Tree α) (r : Tree α) :
    (rotate_left frames (Tree.node v c l (Tree.node rv rc rl rr))).1 = frames ∧
      (rotate_left frames (Tree.node v c l (Tree.node rv rc rl rr))).2 =
        Tree.node rv rc (Tree.node v c l rl) rr ∧
      (assemble frames
          (rotate_left frames (Tree.node v c l (Tree.node rv rc rl rr))).2).inorder =
        (assemble frames (Tree.node v c l (Tree.node rv rc rl rr))).inorder ∧
      ((rotate_left frames (Tree.node v c l (Tree.node rv rc rl rr))).2.inorder :
          Multiset α) =
        ((Tree.node v c l (Tree.node rv rc rl rr)).inorder : Multiset α) ∧
      (rotate_right frames (Tree.node v c (Tree.node lv lc ll lr) r)).1 = frames ∧
      (rotate_right frames (Tree.node v c (Tree.node lv lc ll lr) r)).2 =
        Tree.node lv lc ll (Tree.node v c lr r) ∧
      (assemble frames
          (rotate_right frames (Tree.node v c (Tree.node lv lc ll lr) r)).2).inorder =
        (assemble frames (Tree.node v c (Tree.node lv lc ll lr) r)).inorder ∧
      ((rotate_right frames (Tree.node v c (Tree.node lv lc ll lr) r)).2.inorder :
          Multiset α) =
        ((Tree.node v c (Tree.node lv lc ll lr) r).inorder : Multiset α) := by
  refine ⟨rfl, rfl, ?_, ?_, rfl, rfl, ?_, ?_⟩
  · exact inorder_assemble_congr frames _ _ (by simp [rotate_left])
  · simp [rotate_left]
  · exact inorder_assemble_congr frames _ _ (by simp [rotate_right])
  · simp [rotate_right]

/-- C10: the insertion fix-up terminates on every input: each recursion first
pops two entries, so a budget of half the stack length always suffices and the
fueled mirror agrees with fix_insert. -/
theorem C10_fix_insert_terminates (fuel : Nat) (frames : List (Frame α)) (cur : Tree α)
    (h : frames.length ≤ 2 * fuel) :
    fixInsertFuel (fuel + 1) frames cur = some (fix_insert frames cur) := by
  induction frames, cur using fix_insert.induct generalizing fuel with
  | case1 cur => rfl
  | case2 f cur => rfl
  | case3 fn_ fp rest cur hb =>
    rw [fixInsertFuel, fix_insert]
    simp only [if_pos hb]
  | case4 fn_ fp rest cur hb uv ul ur hu ih =>
    rcases fuel with _ | fuel
    · simp at h
    · rw [fixInsertFuel, fix_insert]
      simp only [if_neg hb, hu]
      apply ih
      simp at h
      omega
  | case5 fn_ fp rest cur hb hp hn hu =>
    rcases hfo : fp.other with _ | ⟨uv, uc, ul, ur⟩
    · rw [fixInsertFuel, fix_insert]
      simp only [if_neg hb, hfo, if_pos hp, if_pos hn]
    · cases uc
      · exact absurd hfo (hu uv ul ur)
      · rw [fixInsertFuel, fix_insert]
        simp only [if_neg hb, hfo, if_pos hp, if_pos hn]
  | case6 fn_ fp rest cur hb hp hn hu =>
    rcases hfo : fp.other with _ | ⟨uv, uc, ul, ur⟩
    · rw [fixInsertFuel, fix_insert]
      simp only [if_neg hb, hfo, if_pos hp, if_neg hn]
    · cases uc
      · exact absurd hfo (hu uv ul ur)
      · rw [fixInsertFuel, fix_insert]
        simp only [if_neg hb, hfo, if_pos hp, if_neg hn]
  | case7 fn_ fp rest cur hb hp hn hu =>
    rcases hfo : fp.other with _ | ⟨uv, uc, ul, ur⟩
    · rw [fixInsertFuel, fix_insert]
      simp only [if_neg hb, hfo, if_neg hp, if_pos hn]
    · cases uc
      · exact absurd hfo (hu uv ul ur)
      · rw [fixInsertFuel, fix_insert]
        simp only [if_neg hb, hfo, if_neg hp, if_pos hn]
  | case8 fn_ fp rest cur hb hp hn hu =>
    rcases hfo : fp.other with _ | ⟨uv, uc, ul, ur⟩
    · rw [fixInsertFuel, fix_insert]
      simp only [if_neg hb, hfo, if_neg hp, if_neg hn]
    · cases uc
      · exact absurd hfo (hu uv ul ur)
      · rw [fixInsertFuel, fix_insert]
        simp only [if_neg hb, hfo, if_neg hp, if_neg hn]

/-- One public call keeps the in-order traversal sorted. -/
theorem step_sorted [LinearOrder α] (t : RbTree α) (op : Op α)
    (h : List.Sorted (· ≤ ·) t.root.inorder) :
    List.Sorted (· ≤ ·) (step t op).root.inorder := by
  rcases op with v | v
  · exact add_sorted t v h
  · exact remove_sorted t v h

theorem foldl_sorted [LinearOrder α] (l : List (Op α)) :
    ∀ t : RbTree α, List.Sorted (· ≤ ·) t.root.inorder →
      List.Sorted (· ≤ ·) ((l.foldl step t).root.inorder) := by
  induction l with
  | nil => exact fun t ht => ht
  | cons op rest ih => exact fun t ht => ih (step t op) (step_sorted t op ht)

/-- C8: after every sequence of add and remove operations from new(), the
in-order traversal of the tree is sorted ascending. -/
theorem C8_inorder_always_sorted [LinearOrder α] (ops : List (Op α)) :
    List.Sorted (· ≤ ·) ((run ops).root.inorder) :=
  foldl_sorted ops RbTree.new (by simp [RbTree.new, Tree.inorder])

/-- add always increments len. -/
theorem add_len [LinearOrder α] (t : RbTree α) (val : α) : (t.add val).len = t.len + 1 := by
  rw [RbTree.add]
  rcases t.root with _ | ⟨v, c, l, r⟩ <;> rfl

/-- What remove does, in all cases: leave everything unchanged answering
false, or answer true, decrement len and delete one in-order occurrence. -/
theorem remove_shape [LinearOrder α] (t : RbTree α) (val : α) :
    t.remove val = (false, t) ∨
      ((t.remove val).1 = true ∧ (t.remove val).2.len = t.len - 1 ∧
        ∃ A B, t.root.inorder = A ++ val :: B ∧ (t.remove val).2.root.inorder = A ++ B) := by
  rcases ht : t.root with _ | ⟨v, c, l, r⟩
  · left
    simp [RbTree.remove, ht]
  · rcases hf : find_node val [] t.root with _ | ⟨fs, foc⟩
    · left
      rw [RbTree.remove, ht]
      rw [ht] at hf
      simp [hf]
    · right
      have := remove_found_split t val fs foc (by rw [ht]; simp) hf
      rw [ht] at this
      exact this

/-- remove succeeds on a sorted tree containing the key. -/
theorem remove_mem [LinearOrder α] (t : RbTree α) (val : α)
    (hs : List.Sorted (· ≤ ·) t.root.inorder) (hm : val ∈ t.root.inorder) :
    (t.remove val).1 = true ∧ (t.remove val).2.len = t.len - 1 ∧
      ∃ A B, t.root.inorder = A ++ val :: B ∧ (t.remove val).2.root.inorder = A ++ B := by
  have hne : t.root ≠ Tree.nil := by
    intro hh
    rw [hh] at hm
    simp [Tree.inorder] at hm
  obtain ⟨⟨fs, foc⟩, hfind⟩ := find_node_found val t.root [] hs hm
  exact remove_found_split t val fs foc hne hfind

/-- len bookkeeping along a run: the element count plus the successful
removes equals the starting count plus the adds, and len stays equal to the
length of the in-order traversal. -/
theorem run_len_aux [LinearOrder α] (l : List (Op α)) :
    ∀ t : RbTree α, t.root.inorder.length = t.len →
      (l.foldl step t).root.inorder.length = (l.foldl step t).len ∧
        (l.foldl step t).len + countOkRemoves t l = t.len + countAdds l := by
  induction l with
  | nil => exact fun t ht => ⟨ht, rfl⟩
  | cons op rest ih =>
    intro t ht
    rcases op with v | v
    · have hlen : (t.add v).root.inorder.length = (t.add v).len := by
        obtain ⟨A, B, h1, h2⟩ := add_inorder_split t v
        rw [add_len, h2, ← ht, h1]
        simp only [List.length_append, List.length_cons]
        omega
      obtain ⟨ih1, ih2⟩ := ih (t.add v) hlen
      have hfold : (Op.addOp v :: rest).foldl step t = rest.foldl step (t.add v) := rfl
      rw [hfold]
      refine ⟨ih1, ?_⟩
      rw [show countOkRemoves t (Op.addOp v :: rest) = countOkRemoves (t.add v) rest from rfl,
        show countAdds (Op.addOp v :: rest) = countAdds rest + 1 from rfl]
      rw [add_len] at ih2
      omega
    · rcases remove_shape t v with hcase | ⟨h1, h2, A, B, h3, h4⟩
      · have hstep : step t (Op.removeOp v) = t := by
          rw [step, hcase]
        obtain ⟨ih1, ih2⟩ := ih t ht
        have hfold : (Op.removeOp v :: rest).foldl step t =
            rest.foldl step (step t (Op.removeOp v)) := rfl
        rw [hfold, hstep]
        refine ⟨ih1, ?_⟩
        rw [show countOkRemoves t (Op.removeOp v :: rest) =
          (if (t.remove v).1 then 1 else 0) + countOkRemoves (t.remove v).2 rest from rfl]
        rw [show countAdds (Op.removeOp v :: rest) = countAdds rest from rfl]
        rw [hcase]
        simpa using ih2
      · have hpos : 1 ≤ t.len := by
          rw [← ht, h3]
          simp only [List.length_append, List.length_cons]
          omega
        have hlen : (t.remove v).2.root.inorder.length = (t.remove v).2.len := by
          rw [h2, h4, ← ht, h3]
          simp only [List.length_append, List.length_cons]
          omega
        obtain ⟨ih1, ih2⟩ := ih (t.remove v).2 hlen
        have hfold : (Op.removeOp v :: rest).foldl step t =
            rest.foldl step (t.remove v).2 := rfl
        rw [hfold]
        refine ⟨ih1, ?_⟩
        rw [show countOkRemoves t (Op.removeOp v :: rest) =
          (if (t.remove v).1 then 1 else 0) + countOkRemoves (t.remove v).2 rest from rfl]
        rw [show countAdds (Op.removeOp v :: rest) = countAdds rest from rfl]
        rw [if_pos h1]
        rw [h2] at ih2
        omega

/-- Running the adds of a list appends its keys, up to permutation. -/
theorem run_adds [LinearOrder α] (L : List α) :
    ∀ t : RbTree α, ((L.map Op.addOp).foldl step t).root.inorder.Perm
      (t.root.inorder ++ L) := by
  induction L with
  | nil => exact fun t => by simp
  | cons v L ih =>
    intro t
    have h1 := ih (t.add v)
    obtain ⟨A, B, h2, h3⟩ := add_inorder_split t v
    have h4 : (t.add v).root.inorder.Perm (v :: t.root.inorder) := by
      rw [h3, h2]
      exact List.perm_middle
    have hrw : (List.map Op.addOp (v :: L)).foldl step t =
        (List.map Op.addOp L).foldl step (t.add v) := rfl
    rw [hrw]
    have h5 : ((List.map Op.addOp L).foldl step (t.add v)).root.inorder.Perm
        ((v :: t.root.inorder) ++ L) := h1.trans (h4.append_right L)
    refine h5.trans ?_
    simp only [List.cons_append]
    exact List.perm_middle.symm

/-- An empty in-order traversal means an empty tree. -/
theorem inorder_eq_nil (t : Tree α) (h : t.inorder = []) : t = Tree.nil := by
  rcases t with _ | ⟨v, c, l, r⟩
  · rfl
  · simp [Tree.inorder] at h

/-- Removing every key of the tree, in any order, empties it. -/
theorem run_removes [LinearOrder α] (M : List α) :
    ∀ t : RbTree α, List.Sorted (· ≤ ·) t.root.inorder →
      t.root.inorder.length = t.len → t.root.inorder.Perm M →
      ((M.map Op.removeOp).foldl step t).root = Tree.nil ∧
        ((M.map Op.removeOp).foldl step t).len = 0 := by
  induction M with
  | nil =>
    intro t _ hlen hperm
    have h0 : t.root.inorder = [] := List.perm_nil.mp hperm
    have h1 : t.root = Tree.nil := inorder_eq_nil t.root h0
    rw [h0] at hlen
    simp only [List.length_nil] at hlen
    simp only [List.map_nil, List.foldl_nil]
    exact ⟨h1, by omega⟩
  | cons m M ih =>
    intro t hs hlen hperm
    have hm : m ∈ t.root.inorder := hperm.mem_iff.mpr (by simp)
    obtain ⟨_, h2, A, B, h3, h4⟩ := remove_mem t m hs hm
    have hsort : List.Sorted (· ≤ ·) (t.remove m).2.root.inorder := remove_sorted t m hs
    have hlen2 : (t.remove m).2.root.inorder.length = (t.remove m).2.len := by
      rw [h2, h4, ← hlen, h3]
      simp
    have hperm2 : (t.remove m).2.root.inorder.Perm M := by
      rw [h4]
      have hmid : (A ++ m :: B).Perm (m :: (A ++ B)) := List.perm_middle
      have h5 : (A ++ m :: B).Perm (m :: M) := by
        rw [← h3]
        exact hperm
      exact List.Perm.cons_inv (hmid.symm.trans h5)
    have := ih (t.remove m).2 hsort hlen2 hperm2
    exact this

/-- C5: len always equals the number of adds minus the number of removes
that answered true, and inserting the keys of L then removing them all in
any order M empties the tree. -/
theorem C5_len_and_roundtrip [LinearOrder α] (ops : List (Op α)) (L M : List α)
    (hperm : M.Perm L) :
    (run ops).len = countAdds ops - countOkRemoves RbTree.new ops ∧
      (run (L.map Op.addOp ++ M.map Op.removeOp)).len = 0 ∧
      (run (L.map Op.addOp ++ M.map Op.removeOp)).root = Tree.nil := by
  have hnew : (RbTree.new : RbTree α).root.inorder.length = (RbTree.new : RbTree α).len := rfl
  have hsplit : run (L.map Op.addOp ++ M.map Op.removeOp) =
      (M.map Op.removeOp).foldl step ((L.map Op.addOp).foldl step RbTree.new) := by
    rw [run, List.foldl_append]
  have hT := run_adds L (RbTree.new : RbTree α)
  have hTsort := foldl_sorted (L.map Op.addOp) (RbTree.new : RbTree α)
    (by simp [RbTree.new, Tree.inorder])
  have hTlen := (run_len_aux (L.map Op.addOp) (RbTree.new : RbTree α) hnew).1
  have hTperm : ((L.map Op.addOp).foldl step (RbTree.new : RbTree α)).root.inorder.Perm M := by
    refine List.Perm.trans ?_ hperm.symm
    simpa [RbTree.new, Tree.inorder] using hT
  obtain ⟨hr1, hr2⟩ := run_removes M _ hTsort hTlen hTperm
  refine ⟨?_, ?_, ?_⟩
  · have h := (run_len_aux ops (RbTree.new : RbTree α) hnew).2
    rw [run]
    have hnew0 : (RbTree.new : RbTree α).len = 0 := rfl
    omega
  · rw [hsplit]
    exact hr2
  · rw [hsplit]
    exact hr1

theorem C5_witness :
    ([2, 1] : List Int).Perm [1, 2] ∧
      ((run ([] : List (Op Int))).len =
          countAdds ([] : List (Op Int)) -
            countOkRemoves (RbTree.new : RbTree Int) ([] : List (Op Int)) ∧
        (run (([1, 2] : List Int).map Op.addOp ++ ([2, 1] : List Int).map Op.removeOp)).len =
          0 ∧
        (run (([1, 2] : List Int).map Op.addOp ++
            ([2, 1] : List Int).map Op.removeOp)).root = Tree.nil) :=
  ⟨by decide, C5_len_and_roundtrip [] [1, 2] [2, 1] (by decide)⟩

theorem C10_witness :
    ([(⟨0, Color.Red, Tree.nil, LEFT⟩ : Frame Int), ⟨1, Color.Black, Tree.nil, LEFT⟩,
        ⟨2, Color.Black, Tree.nil, LEFT⟩].length ≤ 2 * 2) ∧
      fixInsertFuel 3
          [(⟨0, Color.Red, Tree.nil, LEFT⟩ : Frame Int), ⟨1, Color.Black, Tree.nil, LEFT⟩,
            ⟨2, Color.Black, Tree.nil, LEFT⟩] (Tree.node 3 Color.Red Tree.nil Tree.nil) =
        some (fix_insert
          [(⟨0, Color.Red, Tree.nil, LEFT⟩ : Frame Int), ⟨1, Color.Black, Tree.nil, LEFT⟩,
            ⟨2, Color.Black, Tree.nil, LEFT⟩] (Tree.node 3 Color.Red Tree.nil Tree.nil)) :=
  ⟨by decide, C10_fix_insert_terminates 2
    [⟨0, Color.Red, Tree.nil, LEFT⟩, ⟨1, Color.Black, Tree.nil, LEFT⟩,
      ⟨2, Color.Black, Tree.nil, LEFT⟩] (Tree.node 3 Color.Red Tree.nil Tree.nil)
    (by decide)⟩

/-- C1: for every sequence of add and remove operations starting from new(),
after each call the tree satisfies the three red-black invariants: the root,
if present, is Black; no Red node has a Red child; and every path from any
node to a descendant empty slot passes through the same number of Black nodes
(the black-height of every subtree is well defined). -/
theorem C1_rb_invariants [LinearOrder α] (ops : List (Op α)) :
    rootBlack (run ops).root = true ∧ noRedRed (run ops).root = true ∧
      (blackHeight? (run ops).root).isSome = true := by
  have h : RBValid (run ops).root = true := by
    show RBValid ((ops.foldl step RbTree.new).root) = true
    apply foldl_valid ops RbTree.new
    rfl
  rw [RBValid] at h
  simp only [Bool.and_eq_true] at h
  exact ⟨h.1.1, h.1.2, h.2⟩

end RBT
